import Mathlib

/-!
# edge-cloud-platform: flavor matching, generated code and controller APIs

A shallow embedding of
* `pkg/resspec/vmspec_matcher.go` (`GetVMSpec` and its helpers),
* the Go code emitted by `tools/protoc-gen-gomex/mex.go` (`FieldMap`,
  the enum `Parse`/`Marshal` functions, `ValidateUpdateFieldsCustom`, the
  object cache with its key watchers and sync calls, `WaitFor`, `Matches`),
* `pkg/controller/app_api.go` (`DeleteApp`, `UpdateApp`,
  `CheckAppCompatibleWithTrustPolicy`, the end of `ShowZonesForAppDeployment`),
* `pkg/controller/clusterrefs_api.go` (`addRef`, `removeRef`,
  `canReleaseReservation`),
* `pkg/controller/cloudletinfo_api.go` (`Delete`, `cleanupCloudletInfo`,
  `UpdateFields`), and
* `pkg/util/ports.go` (`ParsePorts`).

Conventions of the embedding
* Go `string` is `String`; the `strings` functions are defined on the character
  list (`String.data`).  Byte-wise and character-wise substring, prefix and
  ordering coincide for valid UTF-8, and every separator used below is ASCII.
* A Go `map[string]T` is an association list.  `range` visits the entries in
  list order, indexing returns the first entry with the key, a `nil` map is
  `none` where the code distinguishes `nil` from empty.  Go leaves the
  iteration order unspecified; the list order stands for the order of one run.
* `uint64`/`int` quantities that are only compared or counted are `Nat`.
* `error` is `Option`: `none` is `nil`.
* A table of the object store is an association list; a transaction is one
  atomic step, and a transaction function that returns an error writes nothing.
* A callback is recorded as an event of a trace and is taken not to call back
  into the object that runs it.
-/

namespace gostrings

/-- Go `strings.Contains(s, substr)`. -/
def Contains (s substr : String) : Bool :=
  decide (substr.data <:+: s.data)

/-- Go `strings.HasPrefix(s, p)`. -/
def HasPrefix (s p : String) : Bool :=
  decide (p.data <+: s.data)

/-- Splitting a character list at every occurrence of the character `c`. -/
def splitChars (c : Char) : List Char → List (List Char)
  | [] => [[]]
  | x :: xs =>
    if x = c then [] :: splitChars c xs
    else
      match splitChars c xs with
      | [] => [[x]]
      | w :: ws => (x :: w) :: ws

/-- Go `strings.Split(s, sep)` for a separator `sep` of one character. -/
def Split (s : String) (sep : Char) : List String :=
  (splitChars sep s.data).map String.mk

/-- Go `strings.Trim(s, cutset)` for a cutset of one character. -/
def Trim (s : String) (c : Char) : String :=
  String.mk ((((s.data.dropWhile (fun x => x == c)).reverse).dropWhile (fun x => x == c)).reverse)

/-- Go `strings.TrimPrefix(s, p)`. -/
def TrimPrefix (s p : String) : String :=
  if HasPrefix s p then String.mk (s.data.drop p.data.length) else s

/-- Go `strings.Join(l, sep)`. -/
def Join (l : List String) (sep : String) : String :=
  sep.intercalate l

/-- Go `strings.ToLower`, on the ASCII letters. -/
def ToLower (s : String) : String :=
  String.mk (s.data.map Char.toLower)

/-- Index of the last occurrence of `c` in a character list (Go
`strings.LastIndex(s, sep)` for a one-character `sep`; `none` is `-1`). -/
def lastIndexChars (c : Char) : List Char → Option Nat
  | [] => none
  | x :: xs =>
    match lastIndexChars c xs with
    | some i => some (i + 1)
    | none => if x = c then some 0 else none

/-- Go `strings.LastIndex(s, sep)` for a separator of one character. -/
def LastIndex (s : String) (sep : Char) : Option Nat :=
  lastIndexChars sep s.data

/-- Go `s[:idx]`. -/
def sliceTo (s : String) (idx : Nat) : String :=
  String.mk (s.data.take idx)

/-- Go's `<` on strings: lexicographic on the code units. -/
def lessChars : List Char → List Char → Bool
  | _, [] => false
  | [], _ :: _ => true
  | a :: as, b :: bs =>
    if a.toNat < b.toNat then true
    else if b.toNat < a.toNat then false
    else lessChars as bs

/-- Go `a < b` on strings. -/
def Less (a b : String) : Bool := lessChars a.data b.data

/-- Insertion of a string into an ascending list, after its equals. -/
def insertSorted (x : String) : List String → List String
  | [] => [x]
  | y :: ys => if Less x y then x :: y :: ys else y :: insertSorted x ys

/-- Go `sort.Strings`: the list in ascending order. -/
def SortStrings (l : List String) : List String :=
  l.foldr insertSorted []

/-- Value of a decimal digit character, if it is one. -/
def digitVal (c : Char) : Option Nat :=
  if 48 ≤ c.toNat ∧ c.toNat ≤ 57 then some (c.toNat - 48) else none

/-- Go `strconv.ParseUint(s, 10, 64)` scanning the digits left to right from
the accumulator `n`: `none` is a syntax error; on overflow the scan stops with
the largest `uint64` (a range error, which `ParseInt` turns into its own). -/
def parseUintFrom : Nat → List Char → Option Nat
  | n, [] => some n
  | n, c :: cs =>
    match digitVal c with
    | none => none
    | some d =>
      if n ≥ (2 ^ 64 - 1) / 10 + 1 then some (2 ^ 64 - 1)
      else if n * 10 + d > 2 ^ 64 - 1 then some (2 ^ 64 - 1)
      else parseUintFrom (n * 10 + d) cs

/-- Go `strconv.ParseUint(s, 10, 64)`; the empty string is a syntax error. -/
def parseUint (s : List Char) : Option Nat :=
  match s with
  | [] => none
  | _ => parseUintFrom 0 s

/-- Go `strconv.Atoi` on a 64-bit platform: the `int` returned and whether the
error is `nil`.  A syntax error returns 0, a range error the nearest `int`. -/
def Atoi (s : String) : Int × Bool :=
  let neg : Bool := match s.data with
    | c :: _ => c == Char.ofNat 45
    | [] => false
  let body : List Char := match s.data with
    | c :: cs => if c == Char.ofNat 45 ∨ c == Char.ofNat 43 then cs else c :: cs
    | [] => []
  match parseUint body with
  | none => (0, false)
  | some un =>
    if !neg ∧ un ≥ 2 ^ 63 then ((2 : Int) ^ 63 - 1, false)
    else if neg ∧ un > 2 ^ 63 then (-(2 : Int) ^ 63, false)
    else (if neg then -(un : Int) else (un : Int), true)

/-- Go `%s` formatting of a `[]string`. -/
def fmtStrings (l : List String) : String :=
  "[" ++ " ".intercalate l ++ "]"

end gostrings

namespace resspec

open gostrings

/-- The fields of `edgeproto.FlavorInfo` read by the matcher. -/
structure FlavorInfo where
  Name : String
  Vcpus : Nat
  Ram : Nat
  Disk : Nat
  PropMap : List (String × String)
  deriving DecidableEq, Repr

/-- The `Tags` of an `edgeproto.ResTagTable`. -/
structure ResTagTable where
  Tags : List (String × String)
  deriving DecidableEq, Repr

/-- The fields of `edgeproto.NodeResources` read by the matcher; `OptResMap` is
`none` for a `nil` map. -/
structure NodeResources where
  Vcpus : Nat
  Ram : Nat
  Disk : Nat
  OptResMap : Option (List (String × String))
  deriving DecidableEq, Repr

/-- The fields of `edgeproto.CloudletInfo` read by the matcher: `Key.Name`,
the flavors, and the names of the OS images and availability zones. -/
structure CloudletInfo where
  Name : String
  Flavors : List FlavorInfo
  OsImages : List String
  AvailabilityZones : List String
  deriving DecidableEq, Repr

/-- The Go struct `VMCreationSpec`, without the two fields `GetVMSpec` never
writes (`TrustPolicy`, `MasterNodeFlavor`). -/
structure VMCreationSpec where
  FlavorName : String
  ExternalVolumeSize : Nat
  AvailabilityZone : String
  ImageName : String
  FlavorInfo : Option FlavorInfo
  deriving DecidableEq, Repr

/-- The resource names `cloudcommon.ResourceVcpus`, `ResourceRamMb` and
`ResourceDiskGb`, constants of a package outside these sources. -/
structure ResourceNames where
  ResourceVcpus : String
  ResourceRamMb : String
  ResourceDiskGb : String
  deriving DecidableEq, Repr

/-- The table map `tbls map[string]*edgeproto.ResTagTable`; `none` is `nil`.
Entries hold non-nil tables. -/
abbrev ResTagTables := Option (List (String × ResTagTable))

/-- Entries of a possibly nil table map, as `range` visits them. -/
def tblEntries (tbls : ResTagTables) : List (String × ResTagTable) :=
  tbls.getD []

/-- The Go expression `tbls[res]`: `none` when the result is `nil`. -/
def tblLookup (tbls : ResTagTables) (res : String) : Option ResTagTable :=
  (tblEntries tbls).lookup res

/-- The Go function `findImagematch`. -/
def findImagematch (res : String) (cli : CloudletInfo) : String × Bool :=
  match cli.OsImages.find? (fun img => Contains (ToLower img) res) with
  | some img => (img, true)
  | none => ("", false)

/-- The Go function `findAZmatch`. -/
def findAZmatch (res : String) (cli : CloudletInfo) : String × Bool :=
  match cli.AvailabilityZones.find? (fun az => Contains (ToLower az) res) with
  | some az => (az, true)
  | none => ("", false)

/-- Insertion of a key into a Go `map[string]struct{}` kept as a list. -/
def setInsert (s : List String) (k : String) : List String :=
  if k ∈ s then s else s ++ [k]

/-- Go `reflect.DeepEqual` on two non-nil `map[string]struct{}`: the same keys. -/
def setEq (a b : List String) : Bool :=
  a.all (fun k => decide (k ∈ b)) && b.all (fun k => decide (k ∈ a))

/-- Innermost loop of `InfraFlavorResources`: the tags of one table against
one property value. -/
def infraTagLoop (res flav_val : String) :
    List (String × String) → List String × Nat → List String × Nat
  | [], acc => acc
  | (_, val) :: tags, (resources, rescnt) =>
    if Contains flav_val val then
      infraTagLoop res flav_val tags (setInsert resources res, rescnt + 1)
    else infraTagLoop res flav_val tags (resources, rescnt)

/-- Middle loop of `InfraFlavorResources`: the property values of the flavor
against one table. -/
def infraPropLoop (res : String) (tbl : ResTagTable) :
    List (String × String) → List String × Nat → List String × Nat
  | [], acc => acc
  | (_, flav_val) :: props, acc =>
    infraPropLoop res tbl props (infraTagLoop res flav_val tbl.Tags acc)

/-- Outer loop of `InfraFlavorResources`: every table of the cloudlet. -/
def infraTblLoop (flavor : FlavorInfo) :
    List (String × ResTagTable) → List String × Nat → List String × Nat
  | [], acc => acc
  | (res, tbl) :: rest, acc =>
    infraTblLoop flavor rest (infraPropLoop res tbl flavor.PropMap acc)

/-- The Go function `InfraFlavorResources`: the optional resources the flavor
offers under the cloudlet's tag tables, and the number of tag hits. -/
def InfraFlavorResources (flavor : FlavorInfo) (tbls : ResTagTables) : List String × Nat :=
  if flavor.PropMap.length = 0 then ([], 0)
  else infraTblLoop flavor (tblEntries tbls) ([], 0)

/-- The request split of `match` and `ValidateGPUResource`: at `:` if the
string has one, else at `=` if it has one, else the `nil` slice. -/
def splitRequest (req : String) : List String :=
  if Contains req ":" then Split req ':'
  else if Contains req "=" then Split req '='
  else []

/-- The loop of `match` over `flavor.PropMap` for one tag: `some r` when the
function returns `r` inside the loop (`none` for `nil`), `none` when the loop
ends.  `alias` is the slice variable that survives from one property to the
next, `curProp` the running count. -/
def matchProps (flavorName reqResType reqResSpec : String) (wildcard : Bool) (reqcnt : Int)
    (propMapLen : Nat) (tag_key tag_val : String) :
    List (String × String) → Nat → List String → Option (Option String)
  | [], _, _ => none
  | (flav_key, flav_val) :: rest, curProp0, alias0 =>
    let curProp := curProp0 + 1
    let als := if Contains flav_val ":" then Split flav_val ':'
      else if Contains flav_val "=" then Split flav_val '='
      else alias0
    match als with
    | [a0, a1] =>
      let a1t := Trim (Trim a1 (Char.ofNat 34)) (Char.ofNat 39)
      let flavcnt := (Atoi a1t).1
      if (Atoi a1t).2 = false ∧ curProp = propMapLen then
        some (some ("End of flavor prop map Non-numeric count found in os flavor props for "
          ++ flavorName))
      else if wildcard then
        if Contains flav_key tag_key ∧ flavcnt ≥ reqcnt then some none
        else matchProps flavorName reqResType reqResSpec wildcard reqcnt propMapLen tag_key tag_val
          rest curProp [a0, a1t]
      else
        if reqResType = tag_key ∧ Contains flav_key tag_key ∧ Contains flav_val tag_val
            ∧ flavcnt ≥ reqcnt then
          if reqResSpec ≠ "" ∧ Contains flav_val reqResSpec = false then
            matchProps flavorName reqResType reqResSpec wildcard reqcnt propMapLen tag_key tag_val
              rest curProp [a0, a1t]
          else some none
        else matchProps flavorName reqResType reqResSpec wildcard reqcnt propMapLen tag_key tag_val
          rest curProp [a0, a1t]
    | _ =>
      matchProps flavorName reqResType reqResSpec wildcard reqcnt propMapLen tag_key tag_val
        rest curProp als

/-- The loop of `match` over `tbl.Tags`; every tag starts with a `nil` alias. -/
def matchTags (flavor : FlavorInfo) (reqResType reqResSpec : String) (wildcard : Bool)
    (reqcnt : Int) : List (String × String) → Option String
  | [] => some ("No match found for flavor " ++ flavor.Name)
  | (tag_key, tag_val) :: tags =>
    match matchProps flavor.Name reqResType reqResSpec wildcard reqcnt flavor.PropMap.length
        tag_key tag_val flavor.PropMap 0 [] with
    | some r => r
    | none => matchTags flavor reqResType reqResSpec wildcard reqcnt tags

/-- The Go function `match`: `none` when the request `req` for the resource
`resname` is met by the flavor under the tag table, else the error text. -/
def match_ (resname req : String) (flavor : FlavorInfo) (tbl : ResTagTable) : Option String :=
  let request := splitRequest req
  if request.length = 1 then
    some ("invalid optresmap request " ++ fmtStrings request)
  else
    let reqResType := match request with
      | [t, _] => t
      | [t, _, _] => t
      | _ => ""
    let wildcard := match request with
      | [t, _] => decide (t = "gpu")
      | _ => false
    let reqResSpec := match request with
      | [_, s, _] => s
      | _ => ""
    let count := match request with
      | [_, c] => c
      | [_, _, c] => c
      | _ => ""
    if (Atoi count).2 = false then
      some ("Match fail: resource count " ++ count ++ " request " ++ fmtStrings request
        ++ " resource " ++ resname ++ " ")
    else if (Atoi count).1 = 0 then
      some ("No " ++ resname ++ " resource count for request " ++ fmtStrings request)
    else
      matchTags flavor reqResType reqResSpec wildcard (Atoi count).1 tbl.Tags

/-- The counters of `GetVMSpec`: the map `skipped` (flavors rejected per
resource name) and `skippedExtraRes`. -/
structure Skips where
  skipped : List (String × Nat)
  skippedExtraRes : Nat
  deriving DecidableEq, Repr

/-- The Go statement `skipped[k]++` on a `map[string]int`. -/
def incr : List (String × Nat) → String → List (String × Nat)
  | [], k => [(k, 1)]
  | (k0, n) :: rest, k => if k0 = k then (k0, n + 1) :: rest else (k0, n) :: incr rest k

/-- The loop of `resLookup` over the requested optional resources: `Sum.inr`
with the resources matched when the loop ends, `Sum.inl` with the error text
and the updated `skipped` when a request fails on the flavor. -/
def resLookupLoop (flavor : FlavorInfo) (tbls : ResTagTables) :
    List (String × String) → List String → List (String × Nat) →
      Sum (String × List (String × Nat)) (List String)
  | [], nodeResources, _ => Sum.inr nodeResources
  | (res, request) :: rest, nodeResources, skipped =>
    match tblLookup tbls res with
    | none => resLookupLoop flavor tbls rest nodeResources skipped
    | some tbl =>
      match match_ res request flavor tbl with
      | none => resLookupLoop flavor tbls rest (setInsert nodeResources res) skipped
      | some err =>
        Sum.inl ("no match for optional resource " ++ request ++ ", " ++ err, incr skipped res)

/-- The Go function `resLookup`: `(az, img, ok, err)` and the counters after
the call. -/
def resLookup (optResMap : List (String × String)) (flavor : FlavorInfo) (cli : CloudletInfo)
    (tbls : ResTagTables) (sk : Skips) : (String × String × Bool × Option String) × Skips :=
  match resLookupLoop flavor tbls optResMap [] sk.skipped with
  | Sum.inl (err, skipped) => (("", "", false, some err), { sk with skipped := skipped })
  | Sum.inr nodeResources =>
    if setEq nodeResources (InfraFlavorResources flavor tbls).1 = false then
      (("", "", false, some ("Flavor " ++ flavor.Name
          ++ " satifies request, yet provides additional resources not requested")),
        { sk with skippedExtraRes := sk.skippedExtraRes + 1 })
    else (((findAZmatch "gpu" cli).1, (findImagematch "gpu" cli).1, true, none), sk)

/-- The errors `GetVMSpec` returns, by the statement that builds them. -/
inductive VMSpecError where
  /-- The error `"Cloudlet %s doesn't support GPU"`. -/
  | gpuNotSupported (cloudlet : String)
  /-- The error `"Invalid optresmap %q in node resources"`. -/
  | invalidOptResMap (request : List String)
  /-- The error `"cloudlet %q doesn't support GPU resource %q"`. -/
  | gpuResourceNotSupported (cloudlet resType : String)
  /-- The error `"Optional resource requested, cloudlet %s supports none"`. -/
  | noOptResSupported (cloudlet : String)
  /-- The error `errors.New` builds after the flavor loop, with its text. -/
  | noSuitableFlavor (msg : String)
  deriving DecidableEq, Repr

/-- The Go function `ValidateGPUResource`. -/
def ValidateGPUResource (nodeResources : NodeResources) (cli : CloudletInfo)
    (tbls : ResTagTables) : Option VMSpecError :=
  match (nodeResources.OptResMap.getD []).lookup "gpu" with
  | none => none
  | some flavorRes =>
    if (tblLookup tbls "gpu").isNone then some (VMSpecError.gpuNotSupported cli.Name)
    else
      let request := splitRequest flavorRes
      match request with
      | resType :: _ :: _ =>
        let tblTagKeys := (tblEntries tbls).flatMap (fun e => e.2.Tags.map Prod.fst)
        if resType ∈ tblTagKeys then none
        else some (VMSpecError.gpuResourceNotSupported cli.Name resType)
      | _ => some (VMSpecError.invalidOptResMap request)

/-- The `less` closure handed to `sort.Slice` in `GetVMSpec`. -/
def flavorLess (a b : FlavorInfo) : Bool :=
  if a.Vcpus < b.Vcpus then true
  else if a.Vcpus > b.Vcpus then false
  else if a.Ram < b.Ram then true
  else if a.Ram > b.Ram then false
  else decide (a.Disk < b.Disk)

/-- Insertion of a flavor into a list ordered by `flavorLess`, before the
first flavor that is not less than it. -/
def insertFlavor (x : FlavorInfo) : List FlavorInfo → List FlavorInfo
  | [] => [x]
  | y :: ys => if flavorLess y x then y :: insertFlavor x ys else x :: y :: ys

/-- The call `sort.Slice(flavorList, less)`: the flavors ordered by
`flavorLess`.  `sort.Slice` does not fix the order of flavors with equal
(Vcpus, Ram, Disk); here they keep their input order. -/
def sortFlavors (l : List FlavorInfo) : List FlavorInfo :=
  l.foldr insertFlavor []

/-- How the flavor loop of `GetVMSpec` ends: with a `return &vmspec, nil`
inside the loop, or past its end with the counters collected. -/
inductive LoopOutcome where
  | found (vmspec : VMCreationSpec)
  | exhausted (vmspec : VMCreationSpec) (sk : Skips)
  deriving DecidableEq, Repr

/-- The loop `for _, flavor := range flavorList` of `GetVMSpec`, with the
variables `vmspec`, `skipped` and `skippedExtraRes` it updates.  The variables
`az` and `img` are only read after `resLookup` wrote them for the flavor
returned, or never written (the empty string) when `OptResMap` is nil. -/
def flavorLoop (rn : ResourceNames) (nodeResources : NodeResources) (cli : CloudletInfo)
    (tbls : ResTagTables) : List FlavorInfo → VMCreationSpec → Skips → LoopOutcome
  | [], vmspec, sk => LoopOutcome.exhausted vmspec sk
  | flavor :: rest, vmspec, sk =>
    if flavor.Vcpus < nodeResources.Vcpus then
      flavorLoop rn nodeResources cli tbls rest vmspec
        { sk with skipped := incr sk.skipped rn.ResourceVcpus }
    else if flavor.Ram < nodeResources.Ram then
      flavorLoop rn nodeResources cli tbls rest vmspec
        { sk with skipped := incr sk.skipped rn.ResourceRamMb }
    else
      let afterDisk : Option VMCreationSpec :=
        if flavor.Disk = 0 then some { vmspec with ExternalVolumeSize := nodeResources.Disk }
        else if flavor.Disk < nodeResources.Disk then none
        else some vmspec
      match afterDisk with
      | none =>
        flavorLoop rn nodeResources cli tbls rest vmspec
          { sk with skipped := incr sk.skipped rn.ResourceDiskGb }
      | some vmspec1 =>
        match nodeResources.OptResMap with
        | some optResMap =>
          match resLookup optResMap flavor cli tbls sk with
          | ((az, img, true, _), _) =>
            LoopOutcome.found { vmspec1 with
              FlavorName := flavor.Name, AvailabilityZone := az, ImageName := img,
              FlavorInfo := some flavor }
          | ((_, _, false, _), sk1) => flavorLoop rn nodeResources cli tbls rest vmspec1 sk1
        | none =>
          if Contains flavor.Name "gpu" then
            flavorLoop rn nodeResources cli tbls rest vmspec1
              { sk with skippedExtraRes := sk.skippedExtraRes + 1 }
          else if (InfraFlavorResources flavor tbls).2 ≠ 0 then
            flavorLoop rn nodeResources cli tbls rest vmspec1
              { sk with skippedExtraRes := sk.skippedExtraRes + 1 }
          else
            LoopOutcome.found { vmspec1 with
              FlavorName := flavor.Name, AvailabilityZone := "", ImageName := "",
              FlavorInfo := some flavor }

/-- The list `reasons` built after the flavor loop. -/
def reasonsOf (sk : Skips) : List String :=
  SortStrings (sk.skipped.map
      (fun e => toString e.2 ++ " with not enough " ++ e.1))
    ++ (if sk.skippedExtraRes > 0 then
          [toString sk.skippedExtraRes ++ " with optional resources not requested"]
        else [])

/-- The Go function `GetVMSpec`: the pointer returned (`none` is `nil`) and
the error (`none` is `nil`). -/
def GetVMSpec (rn : ResourceNames) (nodeResources : NodeResources) (cli : CloudletInfo)
    (tbls : ResTagTables) : Option VMCreationSpec × Option VMSpecError :=
  match ValidateGPUResource nodeResources cli tbls with
  | some err => (none, some err)
  | none =>
    if nodeResources.OptResMap.isSome ∧ tbls.isNone then
      (none, some (VMSpecError.noOptResSupported cli.Name))
    else
      match flavorLoop rn nodeResources cli tbls (sortFlavors cli.Flavors)
          ⟨"", 0, "", "", none⟩ ⟨[], 0⟩ with
      | LoopOutcome.found vmspec => (some vmspec, none)
      | LoopOutcome.exhausted vmspec sk =>
        (some vmspec, some (VMSpecError.noSuitableFlavor
          ("no suitable infra flavor found for requested node resources, "
            ++ Join (reasonsOf sk) ", ")))

/-- Specification: the requested optional resources for which the cloudlet
has a tag table. -/
def tabledResources (tbls : ResTagTables) (optResMap : List (String × String)) : List String :=
  (optResMap.filter (fun e => (tblLookup tbls e.1).isSome)).map Prod.fst

/-- Specification: the request `e` (resource, request string) has a tag table
on the cloudlet and the flavor does not match it. -/
def unmet (tbls : ResTagTables) (flavor : FlavorInfo) (e : String × String) : Bool :=
  match tblLookup tbls e.1 with
  | none => false
  | some tbl => (match_ e.1 e.2 flavor tbl).isSome

/-- Specification: the resource of the first request of the map, in iteration
order, that has a tag table and is not matched by the flavor. -/
def firstUnmet (tbls : ResTagTables) (flavor : FlavorInfo)
    (optResMap : List (String × String)) : Option String :=
  (optResMap.find? (unmet tbls flavor)).map Prod.fst

/-- Specification: the optional-resource checks of `GetVMSpec` on one flavor.
With an `OptResMap`, no tabled request is unmet and the flavor offers exactly
the tabled resources; without one, the flavor name has no "gpu" and the flavor
offers nothing. -/
def optResOk (nodeResources : NodeResources) (tbls : ResTagTables) (flavor : FlavorInfo) : Bool :=
  match nodeResources.OptResMap with
  | some optResMap =>
    (firstUnmet tbls flavor optResMap).isNone
      && setEq (tabledResources tbls optResMap) (InfraFlavorResources flavor tbls).1
  | none => !Contains flavor.Name "gpu" && decide ((InfraFlavorResources flavor tbls).2 = 0)

/-- Specification: the flavor is accepted for the request. -/
def accepts (nodeResources : NodeResources) (tbls : ResTagTables) (flavor : FlavorInfo) : Bool :=
  decide (nodeResources.Vcpus ≤ flavor.Vcpus) && decide (nodeResources.Ram ≤ flavor.Ram)
    && (decide (flavor.Disk = 0) || decide (nodeResources.Disk ≤ flavor.Disk))
    && optResOk nodeResources tbls flavor

/-- The reasons `GetVMSpec` counts a rejected flavor under: a key of the map
`skipped`, or the counter `skippedExtraRes`. -/
inductive Reason where
  | notEnough (resName : String)
  | extraRes
  deriving DecidableEq, Repr

/-- Specification: the reason the flavor is rejected for, `none` when it is
accepted. -/
def rejection (rn : ResourceNames) (nodeResources : NodeResources) (tbls : ResTagTables)
    (flavor : FlavorInfo) : Option Reason :=
  if flavor.Vcpus < nodeResources.Vcpus then some (Reason.notEnough rn.ResourceVcpus)
  else if flavor.Ram < nodeResources.Ram then some (Reason.notEnough rn.ResourceRamMb)
  else if flavor.Disk ≠ 0 ∧ flavor.Disk < nodeResources.Disk then
    some (Reason.notEnough rn.ResourceDiskGb)
  else
    match nodeResources.OptResMap with
    | some optResMap =>
      match firstUnmet tbls flavor optResMap with
      | some res => some (Reason.notEnough res)
      | none =>
        if setEq (tabledResources tbls optResMap) (InfraFlavorResources flavor tbls).1 then none
        else some Reason.extraRes
    | none =>
      if Contains flavor.Name "gpu" ∨ (InfraFlavorResources flavor tbls).2 ≠ 0 then
        some Reason.extraRes
      else none

/-- The counters after one more flavor is counted under the reason. -/
def Skips.bump (sk : Skips) : Reason → Skips
  | Reason.notEnough resName => { sk with skipped := incr sk.skipped resName }
  | Reason.extraRes => { sk with skippedExtraRes := sk.skippedExtraRes + 1 }

/-- The count the map `skipped` holds for a resource name (0 when absent). -/
def countOf (skipped : List (String × Nat)) (resName : String) : Nat :=
  (skipped.lookup resName).getD 0

/-- Number of flavors counted as rejected, over all reasons. -/
def Skips.total (sk : Skips) : Nat :=
  (sk.skipped.map Prod.snd).sum + sk.skippedExtraRes

/-- The map `skipped` has one entry per key and no zero count. -/
def Skips.wf (sk : Skips) : Prop :=
  (sk.skipped.map Prod.fst).Nodup ∧ ∀ e ∈ sk.skipped, 0 < e.2

/-- Specification: `a` is strictly below `b` in the lexicographic order of the
triples (Vcpus, Ram, Disk). -/
def lexLess (a b : FlavorInfo) : Prop :=
  a.Vcpus < b.Vcpus ∨ (a.Vcpus = b.Vcpus ∧ (a.Ram < b.Ram ∨ (a.Ram = b.Ram ∧ a.Disk < b.Disk)))

/-! ### Sample inputs -/

/-- Sample resource names. -/
def exNames : ResourceNames := ⟨"vCPUs", "RAM", "Disk"⟩

/-- Sample flavor: 1 vCPU, 512 MB, 10 GB. -/
def exTiny : FlavorInfo := ⟨"m1.tiny", 1, 512, 10, []⟩

/-- Sample flavor without a disk of its own and with "gpu" in its name. -/
def exGpuNoDisk : FlavorInfo := ⟨"m4.gpu", 2, 1024, 0, []⟩

/-- Sample flavor: 2 vCPUs, 1024 MB, 40 GB. -/
def exMedium : FlavorInfo := ⟨"m4.medium", 2, 1024, 40, []⟩

/-- Sample flavor offering a passthrough GPU. -/
def exT4 : FlavorInfo :=
  ⟨"m4.large-t4", 4, 8192, 80, [("pci_passthrough:alias", "t4gpu:1")]⟩

/-- Sample cloudlet with the four sample flavors. -/
def exCloudlet : CloudletInfo := ⟨"cloudlet1", [exMedium, exT4, exGpuNoDisk, exTiny], [], []⟩

/-- Sample tag tables: one table, for the resource "gpu". -/
def exTables : ResTagTables := some [("gpu", ⟨[("pci", "t4gpu:1"), ("vgpu", "nvidia-63")]⟩)]

/-- Sample request without optional resources. -/
def exReq : NodeResources := ⟨2, 1024, 20, none⟩

/-- Sample request for one passthrough GPU. -/
def exReqGpu : NodeResources := ⟨2, 1024, 20, some [("gpu", "pci:1")]⟩

/-- Sample request no sample flavor can serve: 100 GB of disk. -/
def exReqBig : NodeResources := ⟨2, 1024, 100, none⟩

/-- Sample request for the optional resource "nas", for which `exTables` has
no table. -/
def exReqNas : NodeResources := ⟨1, 512, 5, some [("nas", "nas:1")]⟩

end resspec

namespace edgeproto

open gostrings

/-- The generated Go struct `FieldMap`: the keys of its map `fields`. -/
structure FieldMap where
  fields : List String
  deriving DecidableEq, Repr

/-- The Go statement `fmap.fields[set] = struct{}{}`. -/
def FieldMap.Set (s : FieldMap) (key : String) : FieldMap :=
  if key ∈ s.fields then s else ⟨s.fields ++ [key]⟩

/-- The generated Go function `MakeFieldMap`; `none` is the `nil` slice. -/
def MakeFieldMap (fields : Option (List String)) : FieldMap :=
  match fields with
  | none => ⟨[]⟩
  | some l => l.foldl FieldMap.Set ⟨[]⟩

/-- The `for` loop of `FieldMap.Has`, run for at most `fuel` rounds: `none`
when the rounds are used up before the loop returns or breaks. -/
def FieldMap.hasLoop (s : FieldMap) : Nat → String → Option Bool
  | 0, _ => none
  | fuel + 1, key =>
    if key ∈ s.fields then some true
    else
      match LastIndex key (Char.ofNat 46) with
      | none => some false
      | some idx => FieldMap.hasLoop s fuel (sliceTo key idx)

/-- The generated Go method `FieldMap.Has`; one round more than the key has
characters is enough for the loop to end. -/
def FieldMap.Has (s : FieldMap) (key : String) : Bool :=
  (s.hasLoop (key.length + 1) key).getD false

/-- The generated Go method `FieldMap.HasOrHasChild`. -/
def FieldMap.HasOrHasChild (s : FieldMap) (key : String) : Bool :=
  if s.Has key then true
  else s.fields.any (fun k => HasPrefix k (key ++ "."))

/-- The generated Go method `FieldMap.Fields`: the keys in ascending order. -/
def FieldMap.Fields (s : FieldMap) : List String :=
  SortStrings s.fields

/-- Specification: `p` is a dotted ancestor of `k`, that is `k` cut at one of
its `.` separators. -/
def IsAncestor (p k : String) : Prop :=
  ∃ rest : List Char, k.data = p.data ++ Char.ofNat 46 :: rest

/-- What the generator writes for one message type with a `fields` member: the
field key of its first other member (the constant `IsKeyField` tests) and the
table `<Name>AllFieldsStringMap`. -/
structure MessageDesc where
  KeyFieldKey : String
  AllFieldsStringMap : List (String × String)
  deriving DecidableEq, Repr

/-- The generated Go method `IsKeyField`, as `generateIsKeyField` emits it. -/
def IsKeyField (d : MessageDesc) (s : String) : Bool :=
  HasPrefix s (d.KeyFieldKey ++ ".") || decide (s = d.KeyFieldKey)

/-- The loop of `ValidateUpdateFieldsCustom` over `fmap.Fields()`, building
`badFieldStrs`. -/
def badFieldLoop (d : MessageDesc) (allowedFields : FieldMap) :
    List String → List String → List String
  | [], badFieldStrs => badFieldStrs
  | field :: rest, badFieldStrs =>
    if IsKeyField d field then badFieldLoop d allowedFields rest badFieldStrs
    else if allowedFields.Has field = false then
      match d.AllFieldsStringMap.lookup field with
      | none => badFieldLoop d allowedFields rest badFieldStrs
      | some str => badFieldLoop d allowedFields rest (badFieldStrs ++ [str])
    else badFieldLoop d allowedFields rest badFieldStrs

/-- The generated Go method `ValidateUpdateFieldsCustom` of a message with the
member `Fields` (`none` is the `nil` slice): the error text, `none` for `nil`. -/
def ValidateUpdateFieldsCustom (d : MessageDesc) (Fields : Option (List String))
    (allowedFields : FieldMap) : Option String :=
  match Fields with
  | none => some "nothing specified to update"
  | some _ =>
    let fmap := MakeFieldMap Fields
    let badFieldStrs := badFieldLoop d allowedFields fmap.Fields []
    if badFieldStrs.length > 0 then
      some ("specified field(s) " ++ Join badFieldStrs "," ++ " cannot be modified")
    else none

/-- Specification: the name `ValidateUpdateFieldsCustom` reports for a field,
if it reports the field: the field is not a key field, is not covered by the
allowed map and has a name in `AllFieldsStringMap`. -/
def badFieldStr (d : MessageDesc) (allowedFields : FieldMap) (field : String) : Option String :=
  if IsKeyField d field then none
  else if allowedFields.Has field then none
  else d.AllFieldsStringMap.lookup field

/-! ### Sample inputs -/

/-- Sample message type: key field "2", five named fields. -/
def exApp : MessageDesc :=
  ⟨"2", [("2", "Key"), ("2.1", "Key.Organization"), ("2.2", "Key.Name"),
    ("4", "ImagePath"), ("9", "AccessPorts")]⟩

/-- Sample allowed-field map: only the image path may be updated. -/
def exAllowed : FieldMap := ⟨["4"]⟩

end edgeproto

namespace enumgen

open gostrings

/-- The decimal digit character of `d < 10`. -/
def digitChar (d : Nat) : Char := Char.ofNat (48 + d)

/-- The decimal digits of `n`, most significant first; `fuel` bounds the
number of digits and `n + 1` is always enough. -/
def natDigits : Nat → Nat → List Char
  | 0, _ => []
  | fuel + 1, n =>
    if n < 10 then [digitChar n]
    else natDigits fuel (n / 10) ++ [digitChar (n % 10)]

/-- Go `strconv.Itoa`. -/
def Itoa (i : Int) : String :=
  if i < 0 then String.mk (Char.ofNat 45 :: natDigits (i.natAbs + 1) i.natAbs)
  else String.mk (natDigits (i.natAbs + 1) i.natAbs)

/-- The Go conversion `int32(ival)` of an `int`. -/
def toInt32 (i : Int) : Int := (i + 2 ^ 31) % 2 ^ 32 - 2 ^ 31

/-- What `generateEnum` writes for one enum: the map `<Name>_CamelName`
(number to camel-case name), the map `<Name>_CamelValue` (camel-case name to
number) and the `CommonPrefix` handed to the template. -/
structure EnumTables where
  CamelName : List (Int × String)
  CamelValue : List (String × Int)
  CommonPrefix : String
  deriving DecidableEq, Repr

/-- The camel-case maps of `generateEnum` for the enum values `(name, number)`.
`CamelCase` stands for `util.CamelCase` and `commonPrefix` for the result of
`gensupport.GetEnumCommonPrefix`, both outside these sources. -/
def generateEnum (CamelCase : String → String) (commonPrefix : String)
    (values : List (String × Int)) : EnumTables :=
  { CamelName := values.map (fun v => (v.2, CamelCase v.1)),
    CamelValue := values.map (fun v => (CamelCase v.1, v.2)),
    CommonPrefix := commonPrefix }

/-- The dynamic type of the argument `data interface{}` of `Parse<Enum>`. -/
inductive ParseInput where
  | enumValue (val : Int)
  | str (s : String)
  | int32 (ival : Int)
  | other
  deriving DecidableEq, Repr

/-- The errors of `Parse<Enum>`, by the `fmt.Errorf` call that builds them. -/
inductive ParseError where
  /-- The error `"Invalid <Name> value %q"` of a string. -/
  | invalidString (s : String)
  /-- The error `"Invalid <Name> value %d"` of an int32. -/
  | invalidInt32 (ival : Int)
  /-- The error `"Invalid <Name> value %v"` of any other value. -/
  | invalidValue
  deriving DecidableEq, Repr

/-- The string branch of the generated `Parse<Enum>`: the lookups by camel-case
name, by prefixed camel-case name (generated only for a non-empty
`CommonPrefix`), and by number.  The result is the Go pair (value, error). -/
def parseString (CamelCase : String → String) (t : EnumTables) (s : String) :
    Int × Option ParseError :=
  match t.CamelValue.lookup (CamelCase s) with
  | some val => (val, none)
  | none =>
    match (if t.CommonPrefix ≠ "" then t.CamelValue.lookup (t.CommonPrefix ++ CamelCase s)
        else none) with
    | some val => (val, none)
    | none =>
      let val := toInt32 (Atoi s).1
      if (Atoi s).2 = true ∧ (t.CamelName.lookup val).isSome then (val, none)
      else (0, some (ParseError.invalidString s))

/-- The generated Go function `Parse<Enum>`: the Go pair (value, error), with
`none` for the `nil` error. -/
def Parse (CamelCase : String → String) (t : EnumTables) (data : ParseInput) :
    Int × Option ParseError :=
  match data with
  | ParseInput.enumValue val => (val, none)
  | ParseInput.str s => parseString CamelCase t s
  | ParseInput.int32 ival =>
    if (t.CamelName.lookup ival).isSome then (ival, none)
    else (0, some (ParseError.invalidInt32 ival))
  | ParseInput.other => (0, some ParseError.invalidValue)

/-- Go `proto.EnumName(m, v)`: the name of `v` in the map, else its number. -/
def EnumName (m : List (Int × String)) (v : Int) : String :=
  match m.lookup v with
  | some s => s
  | none => Itoa v

/-- The string the generated `MarshalYAML` returns and `MarshalJSON` encodes:
the camel-case name with the common prefix trimmed. -/
def Format (t : EnumTables) (e : Int) : String :=
  if t.CommonPrefix ≠ "" then TrimPrefix (EnumName t.CamelName e) t.CommonPrefix
  else EnumName t.CamelName e

/-! ### Sample inputs -/

/-- Sample stand-in for `util.CamelCase`: the camel-case forms of the sample
enum value names, every other string unchanged. -/
def exCamel (s : String) : String :=
  if s = "FOO_A" then "FooA"
  else if s = "FOO_FOO_A" then "FooFooA"
  else if s = "FOO_B" then "FooB"
  else s

/-- Sample enum `{FOO_A = 0; FOO_FOO_A = 1; FOO_B = 2}`. -/
def exValues : List (String × Int) := [("FOO_A", 0), ("FOO_FOO_A", 1), ("FOO_B", 2)]

/-- The generated tables of the sample enum, with the common prefix "Foo". -/
def exTables : EnumTables :=
  { CamelName := [(0, "FooA"), (1, "FooFooA"), (2, "FooB")],
    CamelValue := [("FooA", 0), ("FooFooA", 1), ("FooB", 2)],
    CommonPrefix := "Foo" }

end enumgen

namespace objcache

/-- The Go statement `m[k] = v` on a map kept as an association list. -/
def mapSet {β : Type} (m : List (String × β)) (k : String) (v : β) : List (String × β) :=
  match m with
  | [] => [(k, v)]
  | (k0, v0) :: rest => if k0 = k then (k0, v) :: rest else (k0, v0) :: mapSet rest k v

/-- The Go statement `delete(m, k)`. -/
def mapDelete {β : Type} (m : List (String × β)) (k : String) : List (String × β) :=
  m.filter (fun e => decide (e.1 ≠ k))

/-- An object of the cached type `{{.Name}}`: its key (`GetKeyVal`), its
`NotifyId` and the rest of its contents. -/
structure Obj where
  Key : String
  NotifyId : Int
  Data : String
  deriving DecidableEq, Repr

/-- The generated Go struct `{{.Name}}CacheData`; `Obj` is a pointer and may be
`nil` (`none`). -/
structure CacheData where
  Obj : Option Obj
  ModRev : Int
  deriving DecidableEq, Repr

/-- The generated Go struct `{{.Name}}KeyWatcher`: `ptr` stands for the address
of the struct (the cancel function compares addresses), `cb` names its
callback. -/
structure KeyWatcher where
  ptr : Nat
  cb : Nat
  deriving DecidableEq, Repr

/-- The generated Go struct `{{.Name}}Cache`.  A callback is a number naming
the function; a `NotifyCbs` entry may be `nil`.  `SyncList` is the Go field `List`,
`none` when the map is `nil`.  `nextPtr` is the address the next `KeyWatcher` gets. -/
structure Cache where
  Objs : List (String × CacheData)
  SyncList : Option (List String)
  FlushAll : Bool
  NotifyCbs : List (Option Nat)
  UpdatedCbs : List Nat
  DeletedCbs : List Nat
  KeyWatchers : List (String × List KeyWatcher)
  UpdatedKeyCbs : List Nat
  DeletedKeyCbs : List Nat
  nextPtr : Nat
  deriving DecidableEq, Repr

/-- One call of a registered callback, with its arguments. -/
inductive Event where
  | notify (cb : Nat) (obj : Obj) (modRev : Int)
  | updated (cb : Nat) (old : Option Obj) (new : Obj)
  | deleted (cb : Nat) (old : Obj)
  | updatedKey (cb : Nat) (key : String)
  | deletedKey (cb : Nat) (key : String)
  | keyWatcher (w : KeyWatcher)
  deriving DecidableEq, Repr

/-- The generated Go method `TriggerKeyWatchers`: the callbacks of the watchers
of the key, in list order.  Callbacks are recorded, not run: they are taken
not to call back into the cache. -/
def TriggerKeyWatchers (c : Cache) (key : String) : List Event :=
  ((c.KeyWatchers.lookup key).getD []).map Event.keyWatcher

/-- The calls `cb(ctx, obj, modRev)` of the non-nil `NotifyCbs`. -/
def notifyEvents (c : Cache) (obj : Obj) (modRev : Int) : List Event :=
  c.NotifyCbs.filterMap (fun cb => cb.map (fun f => Event.notify f obj modRev))

/-- The generated Go method `UpdateModFunc`.  The deferred callbacks run when
the function returns, after `TriggerKeyWatchers` and last deferred first. -/
def UpdateModFunc (c : Cache) (key : String) (modRev : Int)
    (modFunc : Option Obj → Obj × Bool) : Cache × List Event :=
  let old : Option Obj := (c.Objs.lookup key).bind CacheData.Obj
  let new := (modFunc old).1
  if (modFunc old).2 = false then (c, [])
  else
    let deferred : List Event :=
      (if c.UpdatedCbs.length > 0 ∨ c.NotifyCbs.length > 0 then
          c.UpdatedCbs.map (fun cb => Event.updated cb old new) ++ notifyEvents c new modRev
        else [])
      ++ c.UpdatedKeyCbs.map (fun cb => Event.updatedKey cb key)
    ({ c with Objs := mapSet c.Objs new.Key ⟨some new, modRev⟩ },
      TriggerKeyWatchers c new.Key ++ deferred.reverse)

/-- The generated Go method `Update`. -/
def Update (c : Cache) (obj : Obj) (modRev : Int) : Cache × List Event :=
  UpdateModFunc c obj.Key modRev (fun _ => (obj, true))

/-- The generated Go method `DeleteCondFunc`. -/
def DeleteCondFunc (c : Cache) (obj : Obj) (modRev : Int) (condFunc : Option Obj → Bool) :
    Cache × List Event :=
  match c.Objs.lookup obj.Key with
  | some oldData =>
    if condFunc oldData.Obj = false then (c, [])
    else
      ({ c with Objs := mapDelete c.Objs obj.Key },
        notifyEvents c (oldData.Obj.getD obj) modRev
          ++ (match oldData.Obj with
              | some old => c.DeletedCbs.map (fun cb => Event.deleted cb old)
              | none => [])
          ++ c.DeletedKeyCbs.map (fun cb => Event.deletedKey cb obj.Key)
          ++ TriggerKeyWatchers c obj.Key)
  | none =>
    ({ c with Objs := mapDelete c.Objs obj.Key },
      notifyEvents c obj modRev
        ++ c.DeletedKeyCbs.map (fun cb => Event.deletedKey cb obj.Key)
        ++ TriggerKeyWatchers c obj.Key)

/-- The generated Go method `Delete`. -/
def Delete (c : Cache) (obj : Obj) (modRev : Int) : Cache × List Event :=
  DeleteCondFunc c obj modRev (fun _ => true)

/-- The callbacks `Prune`, `Flush` and `SyncListEnd` run for one removed entry:
notify, deleted-key, deleted (for a non-nil object) and the key watchers. -/
def removedEvents (c : Cache) (key : String) (old : CacheData) : List Event :=
  notifyEvents c (old.Obj.getD ⟨key, 0, ""⟩) old.ModRev
    ++ c.DeletedKeyCbs.map (fun cb => Event.deletedKey cb key)
    ++ (match old.Obj with
        | some o => c.DeletedCbs.map (fun cb => Event.deleted cb o)
        | none => [])
    ++ TriggerKeyWatchers c key

/-- The first loop of `Prune` over a snapshot of `c.Objs`: the objects left and
the map `notify`. -/
def pruneLoop (c : Cache) (validKeys : List String) :
    List (String × CacheData) → List (String × CacheData) × List (String × CacheData) →
      List (String × CacheData) × List (String × CacheData)
  | [], acc => acc
  | (key, data) :: rest, (objs, notify) =>
    if key ∈ validKeys then pruneLoop c validKeys rest (objs, notify)
    else
      pruneLoop c validKeys rest
        (mapDelete objs key,
          if c.NotifyCbs.length > 0 ∨ c.DeletedKeyCbs.length > 0 ∨ c.DeletedCbs.length > 0 then
            mapSet notify key ((objs.lookup key).getD data)
          else notify)

/-- The generated Go method `Prune`. -/
def Prune (c : Cache) (validKeys : List String) : Cache × List Event :=
  let r := pruneLoop c validKeys c.Objs (c.Objs, [])
  ({ c with Objs := r.1 }, r.2.flatMap (fun e => removedEvents c e.1 e.2))

/-- The first loop of `Flush`: the objects left and the map `flushed`; `none`
when an entry with a nil object makes `val.Obj.NotifyId` panic. -/
def flushLoop (c : Cache) (notifyId : Int) :
    List (String × CacheData) → List (String × CacheData) × List (String × CacheData) →
      Option (List (String × CacheData) × List (String × CacheData))
  | [], acc => some acc
  | (key, val) :: rest, (objs, flushed) =>
    if c.FlushAll then
      flushLoop c notifyId rest (mapDelete objs key, mapSet flushed key val)
    else
      match val.Obj with
      | none => none
      | some o =>
        if o.NotifyId ≠ notifyId then flushLoop c notifyId rest (objs, flushed)
        else flushLoop c notifyId rest (mapDelete objs key, mapSet flushed key val)

/-- The generated Go method `Flush`, with the template flag `NotifyFlush`;
`none` when it panics. -/
def Flush (NotifyFlush : Bool) (c : Cache) (notifyId : Int) : Option (Cache × List Event) :=
  if NotifyFlush then
    (flushLoop c notifyId c.Objs (c.Objs, [])).map
      (fun r => ({ c with Objs := r.1 }, r.2.flatMap (fun e => removedEvents c e.1 e.2)))
  else some (c, [])

/-- The generated Go method `WatchKey`: the cache with the new watcher and the
watcher, whose address the returned cancel function holds. -/
def WatchKey (c : Cache) (key : String) (cb : Nat) : Cache × KeyWatcher :=
  let watcher : KeyWatcher := ⟨c.nextPtr, cb⟩
  ({ c with
      KeyWatchers := mapSet c.KeyWatchers key (((c.KeyWatchers.lookup key).getD []) ++ [watcher]),
      nextPtr := c.nextPtr + 1 },
    watcher)

/-- The loop of the cancel function over the watcher list: the list after the
removal (the last element moved into the place of the watcher), `none` when the
watcher is not in the list. -/
def removeWatcher (ptr : Nat) : List KeyWatcher → Option (List KeyWatcher)
  | [] => none
  | w :: rest =>
    if w.ptr ≠ ptr then (removeWatcher ptr rest).map (fun l => w :: l)
    else
      match rest.getLast? with
      | none => some []
      | some last => some (last :: rest.dropLast)

/-- The cancel function `WatchKey` returns for `key` and the watcher at address
`ptr`. -/
def cancelWatch (key : String) (ptr : Nat) (c : Cache) : Cache :=
  match c.KeyWatchers.lookup key with
  | none => c
  | some list =>
    match removeWatcher ptr list with
    | none => c
    | some l =>
      if list.length = 1 then { c with KeyWatchers := mapDelete c.KeyWatchers key }
      else { c with KeyWatchers := mapSet c.KeyWatchers key l }

/-- The generated Go method `SyncUpdate` on the object `json.Unmarshal` gives
for the value (`none` when it fails). -/
def SyncUpdate (c : Cache) (parsed : Option Obj) (modRev : Int) : Cache × List Event :=
  match parsed with
  | none => (c, [])
  | some obj =>
    let r := Update c obj modRev
    ({ r.1 with SyncList := r.1.SyncList.map (fun l => if obj.Key ∈ l then l else l ++ [obj.Key]) }, r.2)

/-- The generated Go method `SyncListStart`. -/
def SyncListStart (c : Cache) : Cache :=
  { c with SyncList := some [] }

/-- The first loop of `SyncListEnd` over a snapshot of `c.Objs`: the objects
left and the map `deleted`. -/
def syncEndLoop (c : Cache) :
    List (String × CacheData) → List (String × CacheData) × List (String × CacheData) →
      List (String × CacheData) × List (String × CacheData)
  | [], acc => acc
  | (key, val) :: rest, (objs, deleted) =>
    if key ∈ c.SyncList.getD [] then syncEndLoop c rest (objs, deleted)
    else syncEndLoop c rest (mapDelete objs key, mapSet deleted key val)

/-- The generated Go method `SyncListEnd`. -/
def SyncListEnd (c : Cache) : Cache × List Event :=
  let r := syncEndLoop c c.Objs (c.Objs, [])
  ({ c with Objs := r.1, SyncList := none }, r.2.flatMap (fun e => removedEvents c e.1 e.2))

/-- The watchers registered for a key. -/
def watchersOf (c : Cache) (key : String) : List KeyWatcher :=
  (c.KeyWatchers.lookup key).getD []

/-! ### Sample inputs -/

/-- Sample object with key "k1". -/
def exObj1 : Obj := ⟨"k1", 7, "one"⟩

/-- Sample object with key "k2". -/
def exObj2 : Obj := ⟨"k2", 7, "two"⟩

/-- Sample cache: two objects, one watcher on "k1", no other callback. -/
def exCache : Cache :=
  { Objs := [("k1", ⟨some exObj1, 3⟩), ("k2", ⟨some exObj2, 4⟩)],
    SyncList := none, FlushAll := false,
    NotifyCbs := [], UpdatedCbs := [], DeletedCbs := [],
    KeyWatchers := [("k1", [⟨0, 100⟩])],
    UpdatedKeyCbs := [], DeletedKeyCbs := [], nextPtr := 1 }

/-- The sample cache with one deleted-key callback registered. -/
def exCacheCb : Cache := { exCache with DeletedKeyCbs := [200] }

end objcache

namespace objcache

/-- A call on the cache, as far as the key watchers are concerned:
`WatchKey`, a cancel function, `Update`, `Delete` or `Prune`. -/
inductive Op where
  | watch (key : String) (cb : Nat)
  | cancel (key : String) (ptr : Nat)
  | update (obj : Obj) (modRev : Int)
  | delete (obj : Obj) (modRev : Int)
  | prune (validKeys : List String)
  deriving DecidableEq, Repr

/-- The cache after one call. -/
def step (c : Cache) : Op → Cache
  | Op.watch key cb => (WatchKey c key cb).1
  | Op.cancel key ptr => cancelWatch key ptr c
  | Op.update obj modRev => (Update c obj modRev).1
  | Op.delete obj modRev => (Delete c obj modRev).1
  | Op.prune validKeys => (Prune c validKeys).1

/-- The cache after a sequence of calls. -/
def run (ops : List Op) (c : Cache) : Cache :=
  ops.foldl step c

/-- Well-formed watcher lists: every watcher address has been handed out
(it is below `nextPtr`) and no list holds an address twice, as for every cache
built from an empty one by the calls above. -/
def Cache.wf (c : Cache) : Prop :=
  ∀ k, (∀ x ∈ watchersOf c k, x.ptr < c.nextPtr) ∧ ((watchersOf c k).map KeyWatcher.ptr).Nodup

end objcache

namespace objcache

/-- The address of the watcher `w` has been handed out, and the only list that
may hold a watcher at that address is the list of `key`, where it is `w`
itself. -/
def Cache.owns (c : Cache) (w : KeyWatcher) (key : String) : Prop :=
  w.ptr < c.nextPtr ∧ ∀ k x, x ∈ watchersOf c k → x.ptr = w.ptr → k = key ∧ x = w

end objcache

namespace objcache

/-- The sample cache after a second watcher on "k1" is registered, "k2" is
updated and a watcher on "k2" is registered. -/
def exWatched : Cache :=
  run [Op.update exObj2 5, Op.watch "k2" 102] (WatchKey exCache "k1" 101).1

/-- The cache `exWatched` after the cancel function of the second watcher on
"k1" has run. -/
def exCancelled : Cache :=
  cancelWatch "k1" (WatchKey exCache "k1" 101).2.ptr exWatched

end objcache

namespace objcache

/-- The cache after the calls `SyncUpdate` of a list of well-formed values,
each given by the object `json.Unmarshal` reads from it and its mod-revision. -/
def syncAll (c : Cache) (updates : List (Obj × Int)) : Cache :=
  updates.foldl (fun c u => (SyncUpdate c (some u.1) u.2).1) c

/-- A full resync: `SyncListStart`, the `SyncUpdate` calls, `SyncListEnd`. -/
def resync (c : Cache) (updates : List (Obj × Int)) : Cache × List Event :=
  SyncListEnd (syncAll (SyncListStart c) updates)

/-- The map `deleted` that `SyncListEnd` builds at the end of a full resync. -/
def resyncDeleted (c : Cache) (updates : List (Obj × Int)) : List (String × CacheData) :=
  (syncEndLoop (syncAll (SyncListStart c) updates) (syncAll (SyncListStart c) updates).Objs
    ((syncAll (SyncListStart c) updates).Objs, [])).2

/-- The last update sent for a key, if any. -/
def lastUpdate : List (Obj × Int) → String → Option (Obj × Int)
  | [], _ => none
  | u :: rest, k =>
    match lastUpdate rest k with
    | some v => some v
    | none => if u.1.Key = k then some u else none

end objcache

namespace waitfor

open gostrings

/-- What the template needs of the generated package: whether the state type is
`TrackedState` (the other variant waits on a `CloudletState`), the value of the
NOT_PRESENT state of that type, the `CamelName` map of the type (a state
without an entry gives the empty string), and the template values `Name` and
`ParentObjName`. -/
structure Gen where
  tracked : Bool
  notPresent : Int
  CamelName : Int → String
  Name : String
  ParentObjName : String

/-- The fields of the info object `{{.Name}}` that `WaitFor` reads. -/
structure Info where
  State : Int
  Msgs : List String
  Errors : List String
  deriving DecidableEq, Repr

/-- The arguments of `WaitFor{{.Name}}`: `stored` is the state of the object
`store.Get` finds (`none` when it finds none), `transitionStates` the keys of
the map, `sendNil` and `chNil` say that `send` and `crmMsgCh` are nil. -/
structure Args where
  stored : Option Int
  targetState : Int
  transitionStates : List Int
  errorState : Int
  successMsg : String
  sendNil : Bool
  chNil : Bool

/-- What the `select` of one round of the loop receives: a message whose payload
`json.Unmarshal` reads as `info`, a message whose payload it rejects with the
error `err`, a nil message, or the end of the context. -/
inductive ChEvent where
  | msg (info : Info)
  | bad (err : String)
  | closed
  | ctxDone
  deriving DecidableEq, Repr

/-- One call of `send`, with the message of the `Result` and the place of the
call: `progress` in the loop over `info.Status.Msgs`, `notice` anywhere else. -/
inductive Sent where
  | progress (msg : String)
  | notice (msg : String)
  deriving DecidableEq, Repr

/-- How a call of `WaitFor` ends: it returns `err`, it panics calling a nil
`send`, or it is blocked in the `select` with nothing more to receive. -/
inductive Outcome where
  | ret (err : Option String)
  | nilSend
  | blocked
  deriving DecidableEq, Repr

/-- The local variables of `WaitFor` and the calls of `send` so far. -/
structure Loop where
  lastMsgCnt : Nat
  curState : Int
  sent : List Sent
  deriving DecidableEq, Repr

/-- The closure `handleTargetState`: the calls of `send`, `none` when it calls
a nil `send`. -/
def handleTargetState (g : Gen) (a : Args) : Option (List Sent) :=
  if g.tracked = true ∧ a.targetState = g.notPresent then
    if a.sendNil then none
    else
      some ([Sent.notice (g.CamelName a.targetState)]
        ++ (if a.successMsg ≠ "" ∧ a.sendNil = false then [Sent.notice a.successMsg] else []))
  else
    some (if a.successMsg ≠ "" ∧ a.sendNil = false then [Sent.notice a.successMsg] else [])

/-- The first part of the body of `case chObj := <-crmMsgCh` for a message that
parses: `curState` is set and the messages from `lastMsgCnt` on are sent. -/
def advance (a : Args) (st : Loop) (info : Info) : Loop :=
  if a.sendNil then { st with curState := info.State }
  else
    { lastMsgCnt := info.Msgs.length,
      curState := info.State,
      sent := st.sent ++ (info.Msgs.drop st.lastMsgCnt).map Sent.progress }

/-- The `for`/`select` loop of `WaitFor` on the events it receives. -/
def loop (g : Gen) (a : Args) : List ChEvent → Loop → List Sent × Outcome
  | [], st => (st.sent, Outcome.blocked)
  | ChEvent.closed :: _, st =>
    (st.sent ++
      (if a.sendNil then []
        else [Sent.notice ("Failed to get progress messages. Please use Show"
          ++ g.ParentObjName ++ " to check current status")]),
      Outcome.ret none)
  | ChEvent.bad err :: _, st => (st.sent, Outcome.ret (some err))
  | ChEvent.msg info :: rest, st =>
    if info.State = a.errorState then
      ((advance a st info).sent,
        Outcome.ret (some (if info.Errors.length = 1 then Join info.Errors ", "
          else "Encountered failures: " ++ Join info.Errors ", ")))
    else if info.State = a.targetState then
      match handleTargetState g a with
      | none => ((advance a st info).sent, Outcome.nilSend)
      | some ms => ((advance a st info).sent ++ ms, Outcome.ret none)
    else loop g a rest (advance a st info)
  | ChEvent.ctxDone :: _, st =>
    if st.curState ∈ a.transitionStates then
      (st.sent ++
        (if a.sendNil then []
          else [Sent.notice ("Timed out while work still in progress state "
            ++ g.CamelName st.curState ++ ". Please use Show" ++ g.ParentObjName
            ++ " to check current status")]),
        Outcome.ret none)
    else
      (st.sent,
        Outcome.ret (some ("Timed out; expected state " ++ g.CamelName a.targetState
          ++ " but is " ++ g.CamelName st.curState)))

/-- The state `curState` starts in: the stored state, NOT_PRESENT without a
stored object. -/
def initState (g : Gen) (a : Args) : Int :=
  a.stored.getD g.notPresent

/-- The generated Go function `WaitFor{{.Name}}`: the calls of `send` and the
outcome. -/
def WaitFor (g : Gen) (a : Args) (events : List ChEvent) : List Sent × Outcome :=
  if initState g a = a.targetState then
    match handleTargetState g a with
    | none => ([], Outcome.nilSend)
    | some ms => (ms, Outcome.ret none)
  else if a.chNil then
    ([], Outcome.ret (some ("wait for " ++ g.Name ++ " missing redis message channel")))
  else loop g a events ⟨0, initState g a, []⟩

/-! ### Sample inputs -/

/-- Sample `CamelName` map of `TrackedState`. -/
def exCamel (s : Int) : String :=
  if s = 0 then "TrackedStateUnknown"
  else if s = 1 then "NotPresent"
  else if s = 2 then "CreateRequested"
  else if s = 3 then "Creating"
  else if s = 4 then "CreateError"
  else if s = 5 then "Ready"
  else ""

/-- Sample generated package: `WaitForAppInstInfo`. -/
def exGen : Gen := ⟨true, 1, exCamel, "AppInstInfo", "AppInst"⟩

/-- Sample arguments: wait for `Ready` from a stored `CreateRequested`. -/
def exArgs : Args :=
  { stored := some 2, targetState := 5, transitionStates := [2, 3], errorState := 4,
    successMsg := "Created AppInst successfully", sendNil := false, chNil := false }

/-- Sample snapshots with growing message lists. -/
def exInfos : List Info :=
  [⟨3, ["Creating"], []⟩, ⟨3, ["Creating", "Waiting for VM"], []⟩]

/-- Sample last snapshot: the target state. -/
def exLast : Info := ⟨5, ["Creating", "Waiting for VM", "Ready"], []⟩

end waitfor

namespace controller

open gostrings edgeproto

/-- The Go struct `edgeproto.AppKey`. -/
structure AppKey where
  Organization : String
  Name : String
  Version : String
  deriving DecidableEq, Repr

/-- The Go struct `edgeproto.SecurityRule`. -/
structure SecurityRule where
  Protocol : String
  PortRangeMin : Nat
  PortRangeMax : Nat
  RemoteCidr : String
  deriving DecidableEq, Repr

/-- The fields of the Go struct `edgeproto.App` that the functions below read
or write; `Other` stands for the rest of the object. -/
structure App where
  Fields : Option (List String)
  Key : AppKey
  Deployment : String
  DeploymentManifest : String
  DeploymentGenerator : String
  Trusted : Bool
  RequiredOutboundConnections : List SecurityRule
  SecretEnvVars : List (String × String)
  DeletePrepare : Bool
  GlobalId : String
  Other : String
  deriving DecidableEq, Repr

/-- The Go struct `edgeproto.AppInst`, its key given by the key string that
`AppInstKeyStringParse` reads. -/
structure AppInst where
  Key : String
  Other : String
  deriving DecidableEq, Repr

/-- The Go struct `edgeproto.AppInstRefs`: the keys of its map `Insts`, in the
order the `range` loop visits them. -/
structure AppInstRefs where
  Insts : List String
  deriving DecidableEq, Repr

/-- The Go struct `edgeproto.TrustPolicy`, as far as it is read. -/
structure TrustPolicy where
  OutboundSecurityRules : List SecurityRule
  deriving DecidableEq, Repr

/-- The call `store.STMGet(stm, key, &buf)` on a table of the object store;
`none` when it returns false. -/
def stmGet {κ β : Type} [DecidableEq κ] : List (κ × β) → κ → Option β
  | [], _ => none
  | (k0, v) :: rest, k => if k0 = k then some v else stmGet rest k

/-- The call `store.STMPut(stm, &obj)` for an object with key `k`. -/
def stmPut {κ β : Type} [DecidableEq κ] : List (κ × β) → κ → β → List (κ × β)
  | [], k, v => [(k, v)]
  | (k0, v0) :: rest, k, v =>
    if k0 = k then (k0, v) :: rest else (k0, v0) :: stmPut rest k v

/-- The call `store.STMDel(stm, key)`. -/
def stmDel {κ β : Type} [DecidableEq κ] (m : List (κ × β)) (k : κ) : List (κ × β) :=
  m.filter (fun e => decide (e.1 ≠ k))

/-- The tables of the object store that `DeleteApp` and `UpdateApp` use. -/
structure Store where
  apps : List (AppKey × App)
  appInstRefs : List (AppKey × AppInstRefs)
  appInsts : List (String × AppInst)
  globalIds : List String
  deriving DecidableEq, Repr

/-- An error an API call returns: `NotFoundError` and `BeingDeletedError` of a
key, an error made with `fmt.Errorf` in the call itself, or an error passed on
from a function the call uses. -/
inductive ApiError where
  | notFound (key : AppKey)
  | beingDeleted (key : AppKey)
  | fmt (text : String)
  | callee (text : String)
  deriving DecidableEq, Repr

/-- What `DeleteApp` calls outside of this file: `isAutoDeleteAppInstOk`,
`TrustPolicyExceptionForAppKeyExists` (the key string of the exception found)
and `AutoDelete` (the store after it and its error). -/
structure DeleteEnv where
  isAutoDeleteAppInstOk : String → AppInst → App → Bool
  TrustPolicyExceptionForAppKeyExists : AppKey → Option String
  AutoDelete : List AppInst → Store → Store × Option String

/-- The loop of the first transaction of `DeleteApp` over `refs.Insts`: its
error and the list `dynInsts`. -/
def staticInstLoop (env : DeleteEnv) (st : Store) (org : String) (cur : App) :
    List String → List AppInst → Option ApiError × List AppInst
  | [], dynInsts => (none, dynInsts)
  | k :: rest, dynInsts =>
    match stmGet st.appInsts k with
    | none => staticInstLoop env st org cur rest dynInsts
    | some inst =>
      if env.isAutoDeleteAppInstOk org inst cur then
        staticInstLoop env st org cur rest (dynInsts ++ [inst])
      else (some (ApiError.fmt ("Application in use by static AppInst " ++ inst.Key)), dynInsts)

/-- The deferred function of `DeleteApp`, which runs when `reterr` is not nil. -/
def undoDeletePrepare (st : Store) (key : AppKey) : Store :=
  match stmGet st.apps key with
  | none => st
  | some cur =>
    if cur.DeletePrepare then
      { st with apps := stmPut st.apps cur.Key { cur with DeletePrepare := false } }
    else st

/-- The last transaction of `DeleteApp`. -/
def deleteTxn (st : Store) (key : AppKey) : Store :=
  match stmGet st.apps key with
  | none => st
  | some app =>
    { st with
      apps := stmDel st.apps key,
      globalIds := st.globalIds.filter (fun g => decide (g ≠ app.GlobalId)),
      appInstRefs := stmDel st.appInstRefs key }

/-- The Go method `AppApi.DeleteApp` on the key of its argument: the store
after the call and the error returned.  A transaction whose function returns
an error writes nothing; `ApplySTMWait` itself and the deletion of the secret
variables (whose error is only logged) are taken not to fail. -/
def DeleteApp (env : DeleteEnv) (st : Store) (key : AppKey) : Store × Option ApiError :=
  match stmGet st.apps key with
  | none => (st, some (ApiError.notFound key))
  | some cur =>
    if cur.DeletePrepare then (st, some (ApiError.beingDeleted key))
    else
      let refs := (stmGet st.appInstRefs key).getD ⟨[]⟩
      match staticInstLoop env st key.Organization cur refs.Insts [] with
      | (some err, _) => (st, some err)
      | (none, dynInsts) =>
        let st1 := { st with apps := stmPut st.apps cur.Key { cur with DeletePrepare := true } }
        match env.TrustPolicyExceptionForAppKeyExists key with
        | some tpeKey =>
          (undoDeletePrepare st1 key,
            some (ApiError.fmt ("Application in use by Trust Policy Exception " ++ tpeKey)))
        | none =>
          match env.AutoDelete dynInsts st1 with
          | (st2, some err) => (undoDeletePrepare st2 key, some (ApiError.callee err))
          | (st2, none) => (deleteTxn st2 key, none)

/-- What `UpdateApp` uses from outside of this file: the field keys and the
deployment types (constants), the generated description of `App`,
`ValidateUpdateFields`, `Validate`, `UpdateAppSecretVars` (its error),
`RedactSecretVars`, `GetDockerDeployType`, and `rest`: the transaction function
from `deploymentSpecified := ...` to its end, which gives its error or the
store with its writes. -/
structure UpdateEnv where
  AppFieldAccessPorts : String
  AppFieldSkipHcPorts : String
  AppFieldDeployment : String
  AppFieldDeploymentGenerator : String
  AppFieldTrusted : String
  AppFieldVmAppOsType : String
  AppFieldSecretEnvVars : String
  DeploymentTypeKubernetes : String
  DeploymentTypeDocker : String
  DeploymentTypeHelm : String
  desc : MessageDesc
  ValidateUpdateFields : App → Option String
  Validate : App → FieldMap → Option String
  UpdateAppSecretVars : App → Option String
  RedactSecretVars : List (String × String) → List (String × String)
  GetDockerDeployType : String → String
  rest : Store → AppInstRefs → App → App → FieldMap → Option ApiError × Store

/-- The Go expression `edgeproto.AppAllFieldsStringMap[f]`. -/
def fieldName (env : UpdateEnv) (f : String) : String :=
  (env.desc.AllFieldsStringMap.lookup f).getD ""

/-- The loop of `UpdateApp` over `fmap.Fields()` for a deployment other than
kubernetes, docker and helm. -/
def notSupportedLoop (env : UpdateEnv) (cur : App) : List String → Option ApiError
  | [] => none
  | f :: rest =>
    if IsKeyField env.desc f then notSupportedLoop env cur rest
    else if ¬ (f = env.AppFieldTrusted ∨ f = env.AppFieldVmAppOsType) then
      some (ApiError.fmt ("Update App field " ++ fieldName env f
        ++ " not supported for deployment: " ++ cur.Deployment ++ " when AppInsts exist"))
    else notSupportedLoop env cur rest

/-- The loop of `UpdateApp` over `inUseCannotUpdate`. -/
def inUseLoop (env : UpdateEnv) (fmap : FieldMap) : List String → Option ApiError
  | [] => none
  | field :: rest =>
    if fmap.Has field then
      some (ApiError.fmt ("Cannot update " ++ fieldName env field ++ " when AppInst exists"))
    else inUseLoop env fmap rest

/-- The slice `inUseCannotUpdate`. -/
def inUseCannotUpdate (env : UpdateEnv) : List String :=
  [env.AppFieldAccessPorts, env.AppFieldSkipHcPorts, env.AppFieldDeployment,
    env.AppFieldDeploymentGenerator]

/-- The body of `if appInstExists` in the transaction of `UpdateApp`: the
error it returns, if any. -/
def appInstExistsChecks (env : UpdateEnv) (cur inp : App) (fmap : FieldMap) : Option ApiError :=
  match (if cur.Deployment ≠ env.DeploymentTypeKubernetes ∧
            cur.Deployment ≠ env.DeploymentTypeDocker ∧
            cur.Deployment ≠ env.DeploymentTypeHelm then
          notSupportedLoop env cur fmap.Fields else none) with
  | some err => some err
  | none =>
    match inUseLoop env fmap (inUseCannotUpdate env) with
    | some err => some err
    | none =>
      if cur.Deployment = env.DeploymentTypeDocker ∧
          env.GetDockerDeployType cur.DeploymentManifest
            ≠ env.GetDockerDeployType inp.DeploymentManifest then
        some (ApiError.fmt ("Cannot change App manifest from : "
          ++ env.GetDockerDeployType cur.DeploymentManifest ++ " to: "
          ++ env.GetDockerDeployType inp.DeploymentManifest ++ " when AppInsts exist"))
      else none

/-- The transaction of `UpdateApp`; a function that returns an error writes
nothing. -/
def updateTxn (env : UpdateEnv) (st : Store) (inp : App) (fmap : FieldMap) :
    Store × Option ApiError :=
  match stmGet st.apps inp.Key with
  | none => (st, some (ApiError.notFound inp.Key))
  | some cur =>
    let refs := (stmGet st.appInstRefs inp.Key).getD ⟨[]⟩
    match (if refs.Insts.length > 0 then appInstExistsChecks env cur inp fmap else none) with
    | some err => (st, some err)
    | none =>
      match env.rest st refs cur inp fmap with
      | (some err, _) => (st, some err)
      | (none, st2) => (st2, none)

/-- The Go method `AppApi.UpdateApp`: the store after the call and the error
returned. -/
def UpdateApp (env : UpdateEnv) (st : Store) (inp : App) : Store × Option ApiError :=
  match env.ValidateUpdateFields inp with
  | some err => (st, some (ApiError.callee err))
  | none =>
    let fmap := MakeFieldMap inp.Fields
    match env.Validate inp fmap with
    | some err => (st, some (ApiError.callee err))
    | none =>
      if fmap.HasOrHasChild env.AppFieldSecretEnvVars then
        match env.UpdateAppSecretVars inp with
        | some err => (st, some (ApiError.callee err))
        | none =>
          updateTxn env st { inp with SecretEnvVars := env.RedactSecretVars inp.SecretEnvVars } fmap
      else updateTxn env st inp fmap

/-- The errors of `CheckAppCompatibleWithTrustPolicy`: "Non trusted app: ...
not compatible with trust policy: ...", "Invalid remote CIDR in
RequiredOutboundConnections: ...", "Invalid remote CIDR in policy: ..." and "No
outbound rule in policy or exception to match required connection ..." for the
connection named. -/
inductive TrustError where
  | nonTrusted
  | invalidAppCidr (cidr : String)
  | invalidPolicyCidr (cidr : String)
  | noOutboundRule (r : SecurityRule)
  deriving DecidableEq, Repr

/-- The inner loop of `CheckAppCompatibleWithTrustPolicy` over `allowedRules`
for the required connection `r` with the network `appNet`: the error it
returns, and `policyMatchFound`.  `ParseCIDR` gives the network of a CIDR
string (`none` for an error), `CidrContainsCidr` is the function of
`cloudcommon`. -/
def matchLoop {ν : Type} (ParseCIDR : String → Option ν) (CidrContainsCidr : ν → ν → Bool)
    (r : SecurityRule) (appNet : ν) : List SecurityRule → Option TrustError × Bool
  | [] => (none, false)
  | outboundRule :: rest =>
    if ToLower r.Protocol ≠ ToLower outboundRule.Protocol then
      matchLoop ParseCIDR CidrContainsCidr r appNet rest
    else
      match ParseCIDR outboundRule.RemoteCidr with
      | none => (some (TrustError.invalidPolicyCidr outboundRule.RemoteCidr), false)
      | some trustPolNet =>
        if CidrContainsCidr trustPolNet appNet = false then
          matchLoop ParseCIDR CidrContainsCidr r appNet rest
        else if ToLower r.Protocol ≠ "icmp" ∧
            (r.PortRangeMin < outboundRule.PortRangeMin ∨
              r.PortRangeMax > outboundRule.PortRangeMax) then
          matchLoop ParseCIDR CidrContainsCidr r appNet rest
        else (none, true)

/-- The loop of `CheckAppCompatibleWithTrustPolicy` over
`app.RequiredOutboundConnections`. -/
def requiredLoop {ν : Type} (ParseCIDR : String → Option ν) (CidrContainsCidr : ν → ν → Bool)
    (allowedRules : List SecurityRule) : List SecurityRule → Option TrustError
  | [] => none
  | r :: rest =>
    match ParseCIDR r.RemoteCidr with
    | none => some (TrustError.invalidAppCidr r.RemoteCidr)
    | some appNet =>
      match matchLoop ParseCIDR CidrContainsCidr r appNet allowedRules with
      | (some err, _) => some err
      | (none, false) => some (TrustError.noOutboundRule r)
      | (none, true) => requiredLoop ParseCIDR CidrContainsCidr allowedRules rest

/-- The rules `CheckAppCompatibleWithTrustPolicy` collects in `allowedRules`:
for a cloudlet in a zone (`zoneIsSet`) the exception rules of each zone pool of
the zone (`exceptionRules`, one list for each zone pool key), then the outbound
rules of the trust policy. -/
def allowedRules (zoneIsSet : Bool) (exceptionRules : List (List SecurityRule))
    (trustPolicy : TrustPolicy) : List SecurityRule :=
  (if zoneIsSet then exceptionRules.flatten else []) ++ trustPolicy.OutboundSecurityRules

/-- The Go method `AppApi.CheckAppCompatibleWithTrustPolicy`; `none` is `nil`. -/
def CheckAppCompatibleWithTrustPolicy {ν : Type} (ParseCIDR : String → Option ν)
    (CidrContainsCidr : ν → ν → Bool) (zoneIsSet : Bool)
    (exceptionRules : List (List SecurityRule)) (app : App) (trustPolicy : TrustPolicy) :
    Option TrustError :=
  if app.Trusted = false then some TrustError.nonTrusted
  else
    requiredLoop ParseCIDR CidrContainsCidr (allowedRules zoneIsSet exceptionRules trustPolicy)
      app.RequiredOutboundConnections

/-- Specification: the allowed rule `o` covers the required connection `r`: the
protocols agree up to case, both CIDRs parse and the network of `o` contains
the network of `r`, and, unless the protocol is icmp, the port range of `r`
lies in the port range of `o`. -/
def covers {ν : Type} (ParseCIDR : String → Option ν) (CidrContainsCidr : ν → ν → Bool)
    (o r : SecurityRule) : Bool :=
  decide (ToLower r.Protocol = ToLower o.Protocol) &&
    (match ParseCIDR o.RemoteCidr, ParseCIDR r.RemoteCidr with
      | some pn, some an => CidrContainsCidr pn an
      | _, _ => false) &&
    (decide (ToLower r.Protocol = "icmp") ||
      (decide (o.PortRangeMin ≤ r.PortRangeMin) && decide (r.PortRangeMax ≤ o.PortRangeMax)))

/-- Go `sort.Slice` as an insertion sort: `x` moves towards the front of the
sorted part, given last element first, while `less` says so. -/
def insertLeft {α : Type} (less : α → α → Bool) (x : α) : List α → List α
  | [] => [x]
  | y :: ys => if less x y then y :: insertLeft less x ys else x :: y :: ys

/-- Go `sort.Slice` with a `less` on the elements. -/
def sortSlice {α : Type} (less : α → α → Bool) (l : List α) : List α :=
  (l.foldl (fun sorted x => insertLeft less x sorted) []).reverse

/-- The end of the Go method `AppApi.ShowZonesForAppDeployment`, from
`zones := []*edgeproto.ZoneKey{}` on: the zone keys sent, in the order of the
calls of `cb.Send`.  `allclds` holds the keys of the map of the remaining
cloudlets in the order the `range` loop visits them; `GetZoneFor`, `IsSet` and
`GetKeyString` are the functions of the cloudlet cache and of `ZoneKey`.  The
function `less` compares `zones[i]` with `zones[i]`. -/
def ShowZonesForAppDeployment {κ ζ : Type} (GetZoneFor : κ → ζ) (IsSet : ζ → Bool)
    (GetKeyString : ζ → String) (allclds : List κ) : List ζ :=
  let zones := (allclds.map GetZoneFor).filter IsSet
  sortSlice (fun zi _ => Less (GetKeyString zi) (GetKeyString zi)) zones

/-! ### Sample inputs -/

/-- Sample App key. -/
def exKey : AppKey := ⟨"acme", "web", "1.0"⟩

/-- Sample App: trusted, one required connection. -/
def exApp : App :=
  { Fields := none, Key := exKey, Deployment := "kubernetes", DeploymentManifest := "",
    DeploymentGenerator := "kubernetes-basic", Trusted := true,
    RequiredOutboundConnections := [⟨"TCP", 80, 80, "10.0.0.0/16"⟩],
    SecretEnvVars := [], DeletePrepare := false, GlobalId := "acme-web-10", Other := "" }

/-- Sample store: the App, one AppInst in its refs. -/
def exStore : Store :=
  { apps := [(exKey, exApp)],
    appInstRefs := [(exKey, ⟨["inst1"]⟩)],
    appInsts := [("inst1", ⟨"inst1", ""⟩)],
    globalIds := ["acme-web-10"] }

/-- Sample surroundings of `DeleteApp`: every AppInst is static, no trust
policy exception, `AutoDelete` does nothing. -/
def exDeleteEnv : DeleteEnv :=
  { isAutoDeleteAppInstOk := fun _ _ _ => false,
    TrustPolicyExceptionForAppKeyExists := fun _ => none,
    AutoDelete := fun _ st => (st, none) }

/-- Sample surroundings of `DeleteApp`: every AppInst may be auto-deleted, a
trust policy exception names the App. -/
def exDeleteEnvTpe : DeleteEnv :=
  { isAutoDeleteAppInstOk := fun _ _ _ => true,
    TrustPolicyExceptionForAppKeyExists := fun _ => some "tpe1",
    AutoDelete := fun _ st => (st, none) }

/-- Sample surroundings of `UpdateApp`: validation passes, the rest of the
transaction stores the argument. -/
def exUpdateEnv : UpdateEnv :=
  { AppFieldAccessPorts := "9", AppFieldSkipHcPorts := "34", AppFieldDeployment := "15",
    AppFieldDeploymentGenerator := "17", AppFieldTrusted := "37", AppFieldVmAppOsType := "43",
    AppFieldSecretEnvVars := "42",
    DeploymentTypeKubernetes := "kubernetes", DeploymentTypeDocker := "docker",
    DeploymentTypeHelm := "helm",
    desc := ⟨"2", [("2", "Key"), ("9", "AccessPorts"), ("15", "Deployment"),
      ("17", "DeploymentGenerator"), ("34", "SkipHcPorts"), ("4", "ImagePath")]⟩,
    ValidateUpdateFields := fun _ => none,
    Validate := fun _ _ => none,
    UpdateAppSecretVars := fun _ => none,
    RedactSecretVars := fun vars => vars.map (fun e => (e.1, "***")),
    GetDockerDeployType := fun _ => "docker",
    rest := fun st _ _ inp _ => (none, { st with apps := stmPut st.apps inp.Key inp }) }

/-- Sample CIDR parser: three networks, as address and prefix length. -/
def exParseCIDR (s : String) : Option (Nat × Nat) :=
  if s = "10.0.0.0/8" then some (167772160, 8)
  else if s = "10.0.0.0/16" then some (167772160, 16)
  else if s = "0.0.0.0/0" then some (0, 0)
  else none

/-- Sample `CidrContainsCidr` on address and prefix length. -/
def exContains (a b : Nat × Nat) : Bool :=
  decide (a.2 ≤ b.2) && decide (a.1 / 2 ^ (32 - a.2) = b.1 / 2 ^ (32 - a.2))

/-- Sample trust policy: tcp port 80 to 10.0.0.0/8. -/
def exPolicy : TrustPolicy := ⟨[⟨"tcp", 80, 80, "10.0.0.0/8"⟩]⟩

/-- Sample trust policy with a rule whose CIDR does not parse before a rule
that covers the connection of `exApp`. -/
def exPolicyBad : TrustPolicy :=
  ⟨[⟨"tcp", 80, 80, "10.0.0.0"⟩, ⟨"tcp", 1, 65535, "10.0.0.0/8"⟩]⟩

/-- Sample zone of a cloudlet name. -/
def exZoneFor (cloudlet : String) : String :=
  if cloudlet = "c1" then "zone-b" else if cloudlet = "c2" then "zone-a" else ""

end controller

namespace clusterrefs

open controller

/-- The Go struct `edgeproto.AppInstKey`. -/
structure AppInstKey where
  Name : String
  Organization : String
  deriving DecidableEq, Repr

/-- The Go struct `edgeproto.ClusterKey`. -/
structure ClusterKey where
  Name : String
  Organization : String
  deriving DecidableEq, Repr

/-- The fields of the Go struct `edgeproto.AppInst` that the functions below
read; `GetClusterKey` gives the address of `ClusterKey`. -/
structure AppInst where
  Key : AppInstKey
  ClusterKey : ClusterKey
  deriving DecidableEq, Repr

/-- The Go struct `edgeproto.ClusterRefs`. -/
structure ClusterRefs where
  Key : ClusterKey
  Apps : List AppInstKey
  deriving DecidableEq, Repr

/-- What `generateFieldMatches` writes for a string field: false when the
generated `Matches` returns false at this field, for the values `m` and `o` of
the field and the option `Filter`. -/
def stringFieldMatches (Filter : Bool) (m o : String) : Bool :=
  if (!Filter) ∨ o ≠ "" then
    if o ≠ m then false else true
  else true

/-- The generated Go method `AppInstKey.Matches` for a non-nil `o`: one check
for each field, then `return true`. -/
def AppInstKey.Matches (m o : AppInstKey) (Filter : Bool) : Bool :=
  if stringFieldMatches Filter m.Name o.Name = false then false
  else if stringFieldMatches Filter m.Organization o.Organization = false then false
  else true

/-- The Go method `ClusterRefsApi.addRef` on the table of the ClusterRefs. -/
def addRef (store : List (ClusterKey × ClusterRefs)) (appInst : AppInst) :
    List (ClusterKey × ClusterRefs) :=
  let key := appInst.ClusterKey
  let refs : ClusterRefs := (stmGet store key).getD ⟨key, []⟩
  if refs.Apps.any (fun aikey => aikey.Matches appInst.Key false) then store
  else stmPut store refs.Key { refs with Apps := refs.Apps ++ [appInst.Key] }

/-- The loop of `removeRef`: the list without the first key that `refKey`
matches, `none` when `changed` stays false. -/
def removeFirstMatch (refKey : AppInstKey) : List AppInstKey → Option (List AppInstKey)
  | [] => none
  | k :: rest =>
    if refKey.Matches k false then some rest
    else (removeFirstMatch refKey rest).map (fun l => k :: l)

/-- The Go method `ClusterRefsApi.removeRef`. -/
def removeRef (store : List (ClusterKey × ClusterRefs)) (appInst : AppInst) :
    List (ClusterKey × ClusterRefs) :=
  let key := appInst.ClusterKey
  match stmGet store key with
  | none => store
  | some refs =>
    match removeFirstMatch appInst.Key refs.Apps with
    | none => store
    | some apps =>
      if apps.length = 0 then stmDel store key
      else stmPut store refs.Key { refs with Apps := apps }

/-- The loop of `canReleaseReservation` over `refs.Apps`. -/
def releaseLoop (appInst : AppInst) : List AppInstKey → Bool
  | [] => true
  | aikey :: rest =>
    if appInst.Key.Matches aikey false then releaseLoop appInst rest
    else if aikey.Organization = appInst.Key.Organization then false
    else releaseLoop appInst rest

/-- The Go method `ClusterRefsApi.canReleaseReservation`. -/
def canReleaseReservation (store : List (ClusterKey × ClusterRefs)) (appInst : AppInst) : Bool :=
  match stmGet store appInst.ClusterKey with
  | none => true
  | some refs => releaseLoop appInst refs.Apps

/-! ### Sample inputs -/

/-- Sample cluster key. -/
def exCluster : ClusterKey := ⟨"clust1", "devorg"⟩

/-- Sample AppInsts of the cluster. -/
def exInst1 : AppInst := ⟨⟨"inst1", "devorg"⟩, exCluster⟩

/-- Second sample AppInst of the cluster. -/
def exInst2 : AppInst := ⟨⟨"inst2", "devorg"⟩, exCluster⟩

/-- Sample table: the cluster holds `exInst1`. -/
def exRefs : List (ClusterKey × ClusterRefs) := [(exCluster, ⟨exCluster, [exInst1.Key]⟩)]

end clusterrefs

namespace cloudletinfo

open controller edgeproto

/-- The Go enum `dme.CloudletState`: the constants `CLOUDLET_STATE_...` that the
functions below name, and `other` for every other value.  `UNKNOWN` is the zero
value. -/
inductive CloudletState where
  | UNKNOWN
  | ERRORS
  | READY
  | OFFLINE
  | NOT_PRESENT
  | INIT
  | UPGRADE
  | other (n : Nat)
  deriving DecidableEq, Repr

/-- The Go enum `edgeproto.TrackedState`: the constants that the functions below
name, and `other` for every other value.  `TRACKED_STATE_UNKNOWN` is the zero
value. -/
inductive TrackedState where
  | TRACKED_STATE_UNKNOWN
  | CREATE_REQUESTED
  | CREATING
  | CREATE_ERROR
  | READY
  | UPDATE_REQUESTED
  | UPDATING
  | UPDATE_ERROR
  | CRM_INITOK
  | other (n : Nat)
  deriving DecidableEq, Repr

/-- The Go enum `edgeproto.InfraApiAccess`. -/
inductive InfraApiAccess where
  | DIRECT_ACCESS
  | RESTRICTED_ACCESS
  deriving DecidableEq, Repr

/-- The Go struct `edgeproto.CloudletKey`. -/
structure CloudletKey where
  Organization : String
  Name : String
  FederatedOrganization : String
  deriving DecidableEq, Repr

/-- The fields of the Go struct `edgeproto.CloudletInfo` that the functions
below read or write; `Other` stands for the rest of the object. -/
structure CloudletInfo where
  Fields : Option (List String)
  Key : CloudletKey
  State : CloudletState
  NotifyId : Int
  Controller : String
  StandbyCrm : Bool
  Errors : Option (List String)
  TrustPolicyState : TrackedState
  ContainerVersion : String
  Flavors : List String
  Other : String
  deriving DecidableEq, Repr

/-- The fields of the Go struct `edgeproto.Cloudlet` that the functions below
read or write; `Other` stands for the rest of the object. -/
structure Cloudlet where
  Key : CloudletKey
  State : TrackedState
  TrustPolicyState : TrackedState
  Errors : Option (List String)
  ContainerVersion : String
  InfraFlavors : List String
  CrmOnEdge : Bool
  InfraApiAccess : InfraApiAccess
  Other : String
  deriving DecidableEq, Repr

/-- The tables of the object store that the functions below use. -/
structure Store where
  cloudletInfos : List (CloudletKey × CloudletInfo)
  cloudlets : List (CloudletKey × Cloudlet)
  deriving DecidableEq, Repr

/-- The Go value `edgeproto.CloudletInfo{Key: key}`. -/
def emptyInfo (key : CloudletKey) : CloudletInfo :=
  { Fields := none, Key := key, State := CloudletState.UNKNOWN, NotifyId := 0, Controller := "",
    StandbyCrm := false, Errors := none,
    TrustPolicyState := TrackedState.TRACKED_STATE_UNKNOWN, ContainerVersion := "",
    Flavors := [], Other := "" }

/-- The Go method `CloudletInfoApi.Delete` on the table of the CloudletInfos;
`ControllerId` and `CloudletInfoFieldState` are the package variable and the
field key. -/
def Delete (ControllerId CloudletInfoFieldState : String)
    (store : List (CloudletKey × CloudletInfo)) (inp : CloudletInfo) :
    List (CloudletKey × CloudletInfo) :=
  match stmGet store inp.Key with
  | none => store
  | some buf =>
    if buf.NotifyId ≠ inp.NotifyId ∨ buf.Controller ≠ ControllerId then store
    else
      stmPut store buf.Key
        { buf with State := CloudletState.OFFLINE, Fields := some [CloudletInfoFieldState] }

/-- The Go method `CloudletInfoApi.cleanupCloudletInfo` on the table of the
CloudletInfos, as it is when the last transaction runs (the wait for the
Offline state before it writes nothing): the table after the call and
`delErr`, which is logged.  `stateString` is `CloudletState.String`. -/
def cleanupCloudletInfo (stateString : CloudletState → String)
    (store : List (CloudletKey × CloudletInfo)) (inp : Cloudlet) :
    List (CloudletKey × CloudletInfo) × Option String :=
  if inp.CrmOnEdge = false ∨ inp.InfraApiAccess = InfraApiAccess.RESTRICTED_ACCESS ∨
      inp.Key.FederatedOrganization ≠ "" then
    match stmGet store inp.Key with
    | none => (store, none)
    | some _ => (stmDel store inp.Key, none)
  else
    match stmGet store inp.Key with
    | none => (store, none)
    | some info =>
      if info.State ≠ CloudletState.OFFLINE then
        (store, some ("could not delete CloudletInfo, state is " ++ stateString info.State
          ++ " instead of offline"))
      else (stmDel store inp.Key, none)

/-- What `UpdateFields` uses from outside of this file: the package variable
`ControllerId`, the field keys, and the generated methods
`ClearRedisOnlyFields`, `GetDiffFields` (the count of the fields it returns)
and `CopyInFields` (the receiver after the call). -/
structure InfoEnv where
  ControllerId : String
  CloudletInfoFieldState : String
  CloudletInfoFieldKeyFederatedOrganization : String
  CloudletInfoFieldFlavors : String
  ClearRedisOnlyFields : CloudletInfo → CloudletInfo
  diffCount : CloudletInfo → CloudletInfo → Nat
  CopyInFields : CloudletInfo → CloudletInfo → CloudletInfo

/-- The first transaction of `UpdateFields`: the table of the CloudletInfos
after it and the object `info`, which `in` points to from there on. -/
def updateInfoTxn (env : InfoEnv) (store : List (CloudletKey × CloudletInfo))
    (inp : CloudletInfo) : List (CloudletKey × CloudletInfo) × CloudletInfo :=
  let fmap := MakeFieldMap inp.Fields
  let in1 := { inp with Controller := env.ControllerId }
  let info0 := (stmGet store in1.Key).getD (emptyInfo in1.Key)
  let in2 := env.ClearRedisOnlyFields in1
  let info1 := env.ClearRedisOnlyFields info0
  let in3 :=
    if fmap.Has env.CloudletInfoFieldKeyFederatedOrganization = true ∧
        in2.Key.FederatedOrganization ≠ "" then
      { in2 with Flavors := info1.Flavors }
    else in2
  if env.diffCount info1 in3 > 0 then
    (stmPut store (env.CopyInFields info1 in3).Key (env.CopyInFields info1 in3),
      env.CopyInFields info1 in3)
  else (store, info1)

/-- The `switch in.State` of `UpdateFields`: the value of `newState`, `none` when
the function returns in the `default` case. -/
def newStateFor (infoState : CloudletState) (cloudletState : TrackedState) :
    Option TrackedState :=
  match infoState with
  | CloudletState.INIT => some TrackedState.CRM_INITOK
  | CloudletState.READY => some TrackedState.READY
  | CloudletState.UPGRADE => some TrackedState.UPDATING
  | CloudletState.ERRORS =>
    if cloudletState = TrackedState.UPDATE_REQUESTED ∨ cloudletState = TrackedState.UPDATING then
      some TrackedState.UPDATE_ERROR
    else if cloudletState = TrackedState.CREATE_REQUESTED ∨
        cloudletState = TrackedState.CREATING then
      some TrackedState.CREATE_ERROR
    else some TrackedState.TRACKED_STATE_UNKNOWN
  | _ => none

/-- The first `if` of the second transaction of `UpdateFields`, on
`newCloudlet` and `updateObj`. -/
def setTrustPolicyState (inp : CloudletInfo) (c : Cloudlet × Bool) : Cloudlet × Bool :=
  if c.1.TrustPolicyState ≠ inp.TrustPolicyState ∧
      inp.TrustPolicyState ≠ TrackedState.TRACKED_STATE_UNKNOWN then
    ({ c.1 with TrustPolicyState := inp.TrustPolicyState }, true)
  else c

/-- The second `if` of the transaction: the new state and the errors. -/
def setState (inp : CloudletInfo) (newState : TrackedState) (c : Cloudlet × Bool) :
    Cloudlet × Bool :=
  if c.1.State ≠ newState then
    ({ c.1 with
        State := newState,
        Errors :=
          if inp.State = CloudletState.READY then none
          else if inp.Errors ≠ none then inp.Errors
          else c.1.Errors },
      true)
  else c

/-- The third `if` of the transaction: the container version. -/
def setContainerVersion (inp : CloudletInfo) (c : Cloudlet × Bool) : Cloudlet × Bool :=
  if c.1.ContainerVersion ≠ inp.ContainerVersion then
    ({ c.1 with ContainerVersion := inp.ContainerVersion }, true)
  else c

/-- The fourth `if` of the transaction: the flavors of a cloudlet that is not
federated. -/
def setInfraFlavors (env : InfoEnv) (inp : CloudletInfo) (fmap : FieldMap)
    (c : Cloudlet × Bool) : Cloudlet × Bool :=
  if c.1.Key.FederatedOrganization = "" ∧
      fmap.HasOrHasChild env.CloudletInfoFieldFlavors = true then
    ({ c.1 with InfraFlavors := inp.Flavors }, true)
  else c

/-- The second transaction of `UpdateFields`, on the table of the Cloudlets; a
Cloudlet that is not found gives an error that is logged. -/
def updateCloudletTxn (env : InfoEnv) (cloudlets : List (CloudletKey × Cloudlet))
    (inp : CloudletInfo) (fmap : FieldMap) (newState : TrackedState) :
    List (CloudletKey × Cloudlet) :=
  match stmGet cloudlets inp.Key with
  | none => cloudlets
  | some newCloudlet =>
    let c := setInfraFlavors env inp fmap (setContainerVersion inp
      (setState inp newState (setTrustPolicyState inp (newCloudlet, false))))
    if c.2 then stmPut cloudlets c.1.Key c.1 else cloudlets

/-- The Go method `CloudletInfoApi.UpdateFields` on the tables of the
CloudletInfos and the Cloudlets; `cached` is the Cloudlet that the cloudlet
cache holds for the key (`none` when `cache.Get` returns false).  The calls
that publish the status, raise events and alerts or work on other tables are
left out. -/
def UpdateFields (env : InfoEnv) (st : Store) (cached : Option Cloudlet) (inp : CloudletInfo) :
    Store :=
  if inp.StandbyCrm then st
  else
    let fmap := MakeFieldMap inp.Fields
    let r := updateInfoTxn env st.cloudletInfos inp
    let st1 : Store := { st with cloudletInfos := r.1 }
    match cached with
    | none => st1
    | some cloudlet =>
      match newStateFor r.2.State cloudlet.State with
      | none => st1
      | some newState =>
        { st1 with cloudlets := updateCloudletTxn env st1.cloudlets r.2 fmap newState }

/-! ### Sample inputs -/

/-- Sample cloudlet key. -/
def exCKey : CloudletKey := ⟨"operator", "cloudlet1", ""⟩

/-- Sample surroundings of `UpdateFields`: nothing is cleared, the state and
the errors are the fields compared and copied. -/
def exInfoEnv : InfoEnv :=
  { ControllerId := "ctrl1", CloudletInfoFieldState := "3",
    CloudletInfoFieldKeyFederatedOrganization := "2.3", CloudletInfoFieldFlavors := "9",
    ClearRedisOnlyFields := fun i => i,
    diffCount := fun info inp =>
      (if info.State ≠ inp.State then 1 else 0) + (if info.Errors ≠ inp.Errors then 1 else 0)
        + (if info.Controller ≠ inp.Controller then 1 else 0),
    CopyInFields := fun info inp =>
      { info with State := inp.State, Errors := inp.Errors, Controller := inp.Controller } }

/-- Sample CloudletInfo as the CRM sends it: the given state, with the state
field set. -/
def exInfo (state : CloudletState) : CloudletInfo :=
  { emptyInfo exCKey with
    Fields := some ["3"], State := state, NotifyId := 5, Controller := "ctrl1",
    Errors := if state = CloudletState.ERRORS then some ["crm failure"] else none }

/-- Sample Cloudlet in the given tracked state. -/
def exCloudlet (state : TrackedState) : Cloudlet :=
  { Key := exCKey, State := state, TrustPolicyState := TrackedState.TRACKED_STATE_UNKNOWN,
    Errors := none, ContainerVersion := "", InfraFlavors := [], CrmOnEdge := true,
    InfraApiAccess := InfraApiAccess.DIRECT_ACCESS, Other := "" }

/-- Sample store: the CloudletInfo in the state `istate`, the Cloudlet in the
state `cstate`. -/
def exInfoStore (istate : CloudletState) (cstate : TrackedState) : Store :=
  { cloudletInfos := [(exCKey, exInfo istate)], cloudlets := [(exCKey, exCloudlet cstate)] }

/-- Sample `CloudletState.String`. -/
def exStateString (s : CloudletState) : String :=
  match s with
  | CloudletState.READY => "CLOUDLET_STATE_READY"
  | CloudletState.OFFLINE => "CLOUDLET_STATE_OFFLINE"
  | CloudletState.ERRORS => "CLOUDLET_STATE_ERRORS"
  | _ => "CLOUDLET_STATE_UNKNOWN"

end cloudletinfo

namespace util

open gostrings

/-- The package variable `maxTcpPorts`. -/
def maxTcpPorts : Int := 1000

/-- The package variable `maxUdpPorts`. -/
def maxUdpPorts : Int := 10000

/-- The package variable `maxEnvoyUdpPorts`. -/
def maxEnvoyUdpPorts : Int := 1000

/-- The package variable `minUDPPktSize`. -/
def minUDPPktSize : Int := 1500

/-- The package variable `maxUDPPktSize`. -/
def maxUDPPktSize : Int := 50000

/-- The Go struct `PortSpec`. -/
structure PortSpec where
  Proto : String
  Port : String
  EndPort : String
  Tls : Bool
  Nginx : Bool
  MaxPktSize : Int
  InternalVisOnly : Bool
  ID : String
  PathPrefix : String
  ServiceName : String
  deriving DecidableEq, Repr

/-- Go `strconv.ParseInt(s, 10, bitSize)`: the value, `none` for a syntax or
range error. -/
def ParseInt (s : String) (bitSize : Nat) : Option Int :=
  let neg : Bool := match s.data with
    | c :: _ => c == Char.ofNat 45
    | [] => false
  let body : List Char := match s.data with
    | c :: cs => if c == Char.ofNat 45 ∨ c == Char.ofNat 43 then cs else c :: cs
    | [] => []
  match parseUint body with
  | none => none
  | some un =>
    if !neg ∧ un ≥ 2 ^ (bitSize - 1) then none
    else if neg ∧ un > 2 ^ (bitSize - 1) then none
    else some (if neg then -(un : Int) else (un : Int))

/-- Go `strconv.FormatInt(i, 10)`. -/
def FormatInt (i : Int) : String := enumgen.Itoa i

/-- Go `strings.SplitN(s, "=", 2)` on the characters of `s`: the part before the
first `=` and the part after it, `none` without a `=`. -/
def splitEq : List Char → Option (List Char × List Char)
  | [] => none
  | c :: cs =>
    if c = Char.ofNat 61 then some ([], cs)
    else (splitEq cs).map (fun r => (c :: r.1, r.2))

/-- The text of a Go string in single quotes. -/
def quoted (s : String) : String :=
  String.singleton (Char.ofNat 39) ++ s ++ String.singleton (Char.ofNat 39)

/-- The Go string literal `\"name\"`: a name in double quotes. -/
def dquoted (s : String) : String :=
  String.singleton (Char.ofNat 34) ++ s ++ String.singleton (Char.ofNat 34)

/-- The first loop of the body of `ParsePorts`, over `pp[2:]`: the map
`annotations`, in the order of the first writes of its keys, or the error. -/
def parseAnnotations (port : String) :
    List String → List (String × String) → String ⊕ List (String × String)
  | [], annotations => Sum.inr annotations
  | kv :: rest, annotations =>
    if kv = "" then
      Sum.inl ("invalid AccessPorts annotation " ++ kv ++ " for port " ++ port
        ++ ", expected format is either key or key=val")
    else
      match splitEq kv.data with
      | none => parseAnnotations port rest (objcache.mapSet annotations kv "true")
      | some (k, v) =>
        parseAnnotations port rest (objcache.mapSet annotations (String.mk k) (String.mk v))

/-- The `switch key` of `ParsePorts` for one annotation. -/
def applyAnnotation (port : String) (portSpec : PortSpec) (key val : String) :
    String ⊕ PortSpec :=
  if key = "tls" then
    if portSpec.Proto ≠ "tcp" ∧ portSpec.Proto ≠ "http" then
      Sum.inl ("Invalid protocol " ++ portSpec.Proto ++ ", not available for tls support")
    else Sum.inr { portSpec with Tls := true }
  else if key = "nginx" then
    if portSpec.Proto ≠ "udp" then
      Sum.inl ("Invalid annotation " ++ dquoted "nginx" ++ " for " ++ portSpec.Proto ++ " ports")
    else Sum.inr { portSpec with Nginx := true }
  else if key = "maxpktsize" then
    if portSpec.Proto ≠ "udp" then
      Sum.inl ("Invalid annotation " ++ dquoted "maxpktsize" ++ " for " ++ portSpec.Proto
        ++ " ports, only valid for UDP protocol")
    else
      match ParseInt val 64 with
      | none => Sum.inl ("unable to convert pkt size value: " ++ val)
      | some maxPktSize =>
        if maxPktSize < minUDPPktSize ∨ maxPktSize > maxUDPPktSize then
          Sum.inl ("Invalid maxpktsize, should be between range " ++ FormatInt minUDPPktSize
            ++ " to " ++ FormatInt maxUDPPktSize ++ " (exclusive)")
        else Sum.inr { portSpec with MaxPktSize := maxPktSize }
  else if key = "intvis" then Sum.inr { portSpec with InternalVisOnly := true }
  else if key = "id" then Sum.inr { portSpec with ID := val }
  else if key = "pathprefix" then
    if portSpec.Proto ≠ "http" then
      Sum.inl ("invalid annotation pathprefix on port " ++ portSpec.Port
        ++ ", only allowed on http ports")
    else Sum.inr { portSpec with PathPrefix := val }
  else if key = "svcname" then Sum.inr { portSpec with ServiceName := val }
  else Sum.inl ("unrecognized annotation " ++ (key ++ "=" ++ val) ++ " for port " ++ port)

/-- The loop of `ParsePorts` over the map `annotations`. -/
def applyAnnotations (port : String) : List (String × String) → PortSpec → String ⊕ PortSpec
  | [], portSpec => Sum.inr portSpec
  | (key, val) :: rest, portSpec =>
    match applyAnnotation port portSpec key val with
    | Sum.inl err => Sum.inl err
    | Sum.inr p => applyAnnotations port rest p

/-- The port numbers of one entry: `baseport` and `endport` after the checks
of the range, with `endport` 0 for a single port; or the error. -/
def parseRange (port : String) : String ⊕ (Int × Int) :=
  let portrange := Split port (Char.ofNat 45)
  match ParseInt (portrange.headD "") 32 with
  | none => Sum.inl "unable to convert port range base value"
  | some baseport =>
    match (if portrange.length = 2 then ParseInt (portrange.getD 1 "") 32 else some baseport) with
    | none => Sum.inl "unable to convert port range base value"
    | some endport =>
      if (baseport < 1 ∨ baseport > 65535) ∨ (endport < 1 ∨ endport > 65535) then
        Sum.inl "App ports out of range"
      else if endport < baseport then Sum.inl "App ports out of range"
      else Sum.inr (baseport, if baseport = endport then 0 else endport)

/-- The body of the loop of `ParsePorts` for the entry `pstr`: the port spec
with the counts of tcp and of other ports it adds, or the error. -/
def parseEntry (pstr : String) : String ⊕ (PortSpec × Int × Int) :=
  let pp := Split pstr (Char.ofNat 58)
  if pp.length < 2 then Sum.inl ("invalid AccessPorts format " ++ quoted pstr)
  else
    match parseAnnotations (pp.getD 1 "") (pp.drop 2) [] with
    | Sum.inl err => Sum.inl err
    | Sum.inr annotations =>
      match parseRange (pp.getD 1 "") with
      | Sum.inl err => Sum.inl err
      | Sum.inr (baseport, endport) =>
        let proto := ToLower (pp.headD "")
        if proto ≠ "tcp" ∧ proto ≠ "udp" ∧ proto ≠ "http" then
          Sum.inl ("Unsupported protocol: " ++ pp.headD "")
        else
          let portCount : Int := if endport ≠ 0 then (endport - baseport) + 1 else 1
          let portSpec : PortSpec :=
            { Proto := proto, Port := FormatInt baseport, EndPort := FormatInt endport,
              Tls := false, Nginx := false, MaxPktSize := 0, InternalVisOnly := false,
              ID := "", PathPrefix := "", ServiceName := "" }
          match applyAnnotations (pp.getD 1 "") annotations portSpec with
          | Sum.inl err => Sum.inl err
          | Sum.inr p =>
            Sum.inr (p, if proto = "tcp" then portCount else 0,
              if proto = "tcp" then 0 else portCount)

/-- The loop of `ParsePorts` over the entries: `ports`, `tcpPortCount` and
`udpPortCount`, or the error. -/
def parseLoop : List String → List PortSpec × Int × Int → String ⊕ (List PortSpec × Int × Int)
  | [], acc => Sum.inr acc
  | pstr :: rest, (ports, tcpPortCount, udpPortCount) =>
    match parseEntry pstr with
    | Sum.inl err => Sum.inl err
    | Sum.inr (p, tcp, udp) => parseLoop rest (ports ++ [p], tcpPortCount + tcp, udpPortCount + udp)

/-- The Go function `ParsePorts`: the port specs, or the text of the error. -/
def ParsePorts (accessPorts : String) : String ⊕ List PortSpec :=
  match parseLoop (Split accessPorts (Char.ofNat 44)) ([], 0, 0) with
  | Sum.inl err => Sum.inl err
  | Sum.inr (ports, tcpPortCount, udpPortCount) =>
    if tcpPortCount > maxTcpPorts then
      Sum.inl ("Not allowed to specify more than " ++ FormatInt maxTcpPorts ++ " tcp ports")
    else if udpPortCount > maxUdpPorts then
      Sum.inl ("Not allowed to specify more than " ++ FormatInt maxUdpPorts ++ " udp ports")
    else if udpPortCount > maxEnvoyUdpPorts then
      Sum.inr (ports.map (fun p => if p.Proto = "udp" then { p with Nginx := true } else p))
    else Sum.inr ports

end util

namespace util

open gostrings

/-- Specification: the annotations of a port spec fit its protocol: `Tls` only
on tcp and http, `Nginx` and a non-zero `MaxPktSize` only on udp, a non-empty
`PathPrefix` only on http. -/
def annotationsFit (p : PortSpec) : Prop :=
  (p.Tls = true → p.Proto = "tcp" ∨ p.Proto = "http") ∧
    (p.Nginx = true → p.Proto = "udp") ∧
    (p.MaxPktSize ≠ 0 → p.Proto = "udp") ∧
    (p.PathPrefix ≠ "" → p.Proto = "http")

/-- Specification: a well-formed port spec: a protocol out of tcp, udp and
http, `Port` the decimal form of a port number, `EndPort` the text 0 or the
decimal form of a larger port number, and annotations that fit the protocol. -/
def wellFormed (p : PortSpec) : Prop :=
  (p.Proto = "tcp" ∨ p.Proto = "udp" ∨ p.Proto = "http") ∧
    (∃ b : Int, 1 ≤ b ∧ b ≤ 65535 ∧ p.Port = FormatInt b ∧
      (p.EndPort = "0" ∨ ∃ e : Int, b < e ∧ e ≤ 65535 ∧ p.EndPort = FormatInt e)) ∧
    annotationsFit p

/-- Specification: the port spec `p` is the one of the entry `pstr`: its
protocol is the first field of the entry in lower case, its ports are the
ports of the second field. -/
def entryOf (pstr : String) (p : PortSpec) : Prop :=
  p.Proto = ToLower ((Split pstr (Char.ofNat 58)).headD "") ∧
    ∃ b e : Int, parseRange ((Split pstr (Char.ofNat 58)).getD 1 "") = Sum.inr (b, e) ∧
      p.Port = FormatInt b ∧ p.EndPort = FormatInt e

end util

namespace controller

open gostrings

/-- Specification: the inner loop of the check passes over the allowed rule `o`
for the required connection `r`: `o` does not cover `r`, and if it has the
protocol of `r` its CIDR parses. -/
def passedOver {ν : Type} (ParseCIDR : String → Option ν) (CidrContainsCidr : ν → ν → Bool)
    (o r : SecurityRule) : Prop :=
  covers ParseCIDR CidrContainsCidr o r = false ∧
    (ToLower r.Protocol = ToLower o.Protocol → (ParseCIDR o.RemoteCidr).isSome = true)

/-- Specification: the required connection `r` is accepted by the list of
allowed rules: a rule of the list covers `r`, and no rule before it with the
protocol of `r` has a CIDR that does not parse. -/
def acceptedBy {ν : Type} (ParseCIDR : String → Option ν) (CidrContainsCidr : ν → ν → Bool)
    (allowed : List SecurityRule) (r : SecurityRule) : Prop :=
  ∃ pre o post, allowed = pre ++ o :: post ∧
    covers ParseCIDR CidrContainsCidr o r = true ∧
    ∀ x ∈ pre, ToLower r.Protocol = ToLower x.Protocol → (ParseCIDR x.RemoteCidr).isSome = true

/-- Specification: the error `e` is the one for the required connection `r` that
is not accepted: its own CIDR does not parse; or a rule with its protocol
whose CIDR does not parse stands before every rule that covers it; or every
allowed rule is passed over. -/
def rejectedWith {ν : Type} (ParseCIDR : String → Option ν) (CidrContainsCidr : ν → ν → Bool)
    (allowed : List SecurityRule) (r : SecurityRule) (e : TrustError) : Prop :=
  (ParseCIDR r.RemoteCidr = none ∧ e = TrustError.invalidAppCidr r.RemoteCidr) ∨
    ((ParseCIDR r.RemoteCidr).isSome = true ∧
      ∃ pre o post, allowed = pre ++ o :: post ∧
        (∀ x ∈ pre, passedOver ParseCIDR CidrContainsCidr x r) ∧
        ToLower r.Protocol = ToLower o.Protocol ∧ ParseCIDR o.RemoteCidr = none ∧
        e = TrustError.invalidPolicyCidr o.RemoteCidr) ∨
    ((ParseCIDR r.RemoteCidr).isSome = true ∧
      (∀ o ∈ allowed, passedOver ParseCIDR CidrContainsCidr o r) ∧
      e = TrustError.noOutboundRule r)

/-- Sample trust policy: a udp rule and a later tcp rule whose CIDRs do not
parse, around a tcp rule that covers the connection of `exApp`. -/
def exPolicySkipped : TrustPolicy :=
  ⟨[⟨"udp", 80, 80, "10.0.0.0"⟩, ⟨"tcp", 1, 65535, "10.0.0.0/8"⟩, ⟨"tcp", 80, 80, "10.0.0.0"⟩]⟩

end controller

/-! ## Theorems -/

namespace resspec

open gostrings

theorem flavorLess_iff (a b : FlavorInfo) : flavorLess a b = true ↔ lexLess a b := by
  unfold flavorLess lexLess
  split_ifs <;> simp <;> omega

theorem flavorLess_false_iff (a b : FlavorInfo) : flavorLess a b = false ↔ ¬ lexLess a b := by
  rw [← flavorLess_iff]; simp

theorem lexLess_irrefl (a : FlavorInfo) : ¬ lexLess a a := by
  unfold lexLess; omega

theorem not_lexLess_trans {a b c : FlavorInfo} (h1 : ¬ lexLess b a) (h2 : ¬ lexLess c b) :
    ¬ lexLess c a := by
  unfold lexLess at *; omega

theorem lexLess_asymm {a b : FlavorInfo} (h : lexLess a b) : ¬ lexLess b a := by
  unfold lexLess at *; omega

theorem mem_insertFlavor (x y : FlavorInfo) (l : List FlavorInfo) :
    y ∈ insertFlavor x l ↔ y = x ∨ y ∈ l := by
  induction l with
  | nil => simp [insertFlavor]
  | cons z zs ih =>
    unfold insertFlavor
    split_ifs
    · simp [ih]; tauto
    · simp

theorem insertFlavor_perm (x : FlavorInfo) (l : List FlavorInfo) :
    (insertFlavor x l).Perm (x :: l) := by
  induction l with
  | nil => simp [insertFlavor]
  | cons z zs ih =>
    unfold insertFlavor
    split_ifs
    · exact (List.Perm.cons z ih).trans (List.Perm.swap x z zs)
    · exact List.Perm.refl _

theorem sortFlavors_perm (l : List FlavorInfo) : (sortFlavors l).Perm l := by
  induction l with
  | nil => simp [sortFlavors]
  | cons x xs ih =>
    have h : sortFlavors (x :: xs) = insertFlavor x (sortFlavors xs) := rfl
    rw [h]
    exact (insertFlavor_perm x _).trans (List.Perm.cons x ih)

theorem insertFlavor_sorted (x : FlavorInfo) (l : List FlavorInfo)
    (h : l.Pairwise (fun a b => ¬ lexLess b a)) :
    (insertFlavor x l).Pairwise (fun a b => ¬ lexLess b a) := by
  induction l with
  | nil => simp [insertFlavor]
  | cons z zs ih =>
    rw [List.pairwise_cons] at h
    unfold insertFlavor
    split_ifs with hl
    · rw [List.pairwise_cons]
      refine ⟨?_, ih h.2⟩
      intro w hw
      rcases (mem_insertFlavor x w zs).1 hw with rfl | hw
      · exact lexLess_asymm ((flavorLess_iff _ _).1 hl)
      · exact h.1 w hw
    · have hzx : ¬ lexLess z x := by
        rw [← flavorLess_false_iff]; simpa using hl
      rw [List.pairwise_cons]
      refine ⟨?_, List.pairwise_cons.2 h⟩
      intro w hw
      rcases List.mem_cons.1 hw with rfl | hw
      · exact hzx
      · exact not_lexLess_trans hzx (h.1 w hw)

theorem sortFlavors_sorted (l : List FlavorInfo) :
    (sortFlavors l).Pairwise (fun a b => ¬ lexLess b a) := by
  induction l with
  | nil => simp [sortFlavors]
  | cons x xs ih => exact insertFlavor_sorted x _ ih

theorem setEq_iff (a b : List String) : setEq a b = true ↔ ∀ k, k ∈ a ↔ k ∈ b := by
  unfold setEq
  simp only [Bool.and_eq_true, List.all_eq_true, decide_eq_true_eq]
  constructor
  · rintro ⟨h1, h2⟩ k
    exact ⟨h1 k, h2 k⟩
  · intro h
    exact ⟨fun k hk => (h k).1 hk, fun k hk => (h k).2 hk⟩

theorem setEq_congr_left {a c : List String} (b : List String) (h : ∀ k, k ∈ a ↔ k ∈ c) :
    setEq a b = setEq c b := by
  rw [Bool.eq_iff_iff, setEq_iff, setEq_iff]
  constructor
  · intro h1 k; rw [← h k]; exact h1 k
  · intro h1 k; rw [h k]; exact h1 k

theorem mem_setInsert (s : List String) (k x : String) :
    x ∈ setInsert s k ↔ x ∈ s ∨ x = k := by
  unfold setInsert
  split_ifs with h
  · constructor
    · intro hx; exact Or.inl hx
    · rintro (hx | rfl)
      · exact hx
      · exact h
  · simp

theorem resLookupLoop_met (flavor : FlavorInfo) (tbls : ResTagTables)
    (m : List (String × String)) :
    ∀ (nr : List String) (sk : List (String × Nat)), firstUnmet tbls flavor m = none →
      ∃ nr1, resLookupLoop flavor tbls m nr sk = Sum.inr nr1 ∧
        ∀ k, k ∈ nr1 ↔ k ∈ nr ∨ k ∈ tabledResources tbls m := by
  induction m with
  | nil =>
    intro nr sk _
    exact ⟨nr, rfl, by simp [tabledResources]⟩
  | cons e rest ih =>
    obtain ⟨res, request⟩ := e
    intro nr sk h
    unfold firstUnmet at h
    rw [List.find?_cons] at h
    unfold resLookupLoop
    cases hl : tblLookup tbls res with
    | none =>
      have hu : unmet tbls flavor (res, request) = false := by simp [unmet, hl]
      rw [hu] at h
      obtain ⟨nr1, h1, h2⟩ := ih nr sk h
      refine ⟨nr1, h1, ?_⟩
      intro k
      rw [h2 k]
      simp [tabledResources, List.filter_cons, hl]
    | some tbl =>
      cases hm : match_ res request flavor tbl with
      | some err =>
        have hu : unmet tbls flavor (res, request) = true := by simp [unmet, hl, hm]
        rw [hu] at h
        simp at h
      | none =>
        have hu : unmet tbls flavor (res, request) = false := by simp [unmet, hl, hm]
        rw [hu] at h
        simp only [hm]
        obtain ⟨nr1, h1, h2⟩ := ih (setInsert nr res) sk h
        refine ⟨nr1, h1, ?_⟩
        intro k
        rw [h2 k, mem_setInsert]
        simp only [tabledResources, List.filter_cons, hl, Option.isSome_some, if_true,
          List.map_cons, List.mem_cons]
        tauto

theorem resLookupLoop_unmet (flavor : FlavorInfo) (tbls : ResTagTables)
    (m : List (String × String)) :
    ∀ (nr : List String) (sk : List (String × Nat)) (res : String),
      firstUnmet tbls flavor m = some res →
      ∃ err, resLookupLoop flavor tbls m nr sk = Sum.inl (err, incr sk res) := by
  induction m with
  | nil =>
    intro nr sk res h
    simp [firstUnmet] at h
  | cons e rest ih =>
    obtain ⟨r, request⟩ := e
    intro nr sk res h
    unfold firstUnmet at h
    rw [List.find?_cons] at h
    unfold resLookupLoop
    cases hl : tblLookup tbls r with
    | none =>
      have hu : unmet tbls flavor (r, request) = false := by simp [unmet, hl]
      rw [hu] at h
      exact ih nr sk res h
    | some tbl =>
      cases hm : match_ r request flavor tbl with
      | some err =>
        have hu : unmet tbls flavor (r, request) = true := by simp [unmet, hl, hm]
        rw [hu] at h
        simp only [Option.map_some', Option.some.injEq] at h
        subst h
        simp only [hm]
        exact ⟨_, rfl⟩
      | none =>
        have hu : unmet tbls flavor (r, request) = false := by simp [unmet, hl, hm]
        rw [hu] at h
        simp only [hm]
        exact ih (setInsert nr r) sk res h

theorem resLookup_unmet (m : List (String × String)) (flavor : FlavorInfo) (cli : CloudletInfo)
    (tbls : ResTagTables) (sk : Skips) (res : String)
    (h : firstUnmet tbls flavor m = some res) :
    ∃ err, resLookup m flavor cli tbls sk =
      (("", "", false, some err), sk.bump (Reason.notEnough res)) := by
  obtain ⟨err, h1⟩ := resLookupLoop_unmet flavor tbls m [] sk.skipped res h
  exact ⟨_, by unfold resLookup; rw [h1]; rfl⟩

theorem resLookup_extra (m : List (String × String)) (flavor : FlavorInfo) (cli : CloudletInfo)
    (tbls : ResTagTables) (sk : Skips) (h : firstUnmet tbls flavor m = none)
    (hs : setEq (tabledResources tbls m) (InfraFlavorResources flavor tbls).1 = false) :
    ∃ err, resLookup m flavor cli tbls sk = (("", "", false, some err), sk.bump Reason.extraRes) := by
  obtain ⟨nr1, h1, h2⟩ := resLookupLoop_met flavor tbls m [] sk.skipped h
  have hm : ∀ k, k ∈ nr1 ↔ k ∈ tabledResources tbls m := fun k => by rw [h2 k]; simp
  have hc : setEq nr1 (InfraFlavorResources flavor tbls).1 = false := by
    rw [setEq_congr_left _ hm]; exact hs
  exact ⟨_, by unfold resLookup; rw [h1]; simp only [hc, if_true]; rfl⟩

theorem resLookup_ok (m : List (String × String)) (flavor : FlavorInfo) (cli : CloudletInfo)
    (tbls : ResTagTables) (sk : Skips) (h : firstUnmet tbls flavor m = none)
    (hs : setEq (tabledResources tbls m) (InfraFlavorResources flavor tbls).1 = true) :
    resLookup m flavor cli tbls sk =
      (((findAZmatch "gpu" cli).1, (findImagematch "gpu" cli).1, true, none), sk) := by
  obtain ⟨nr1, h1, h2⟩ := resLookupLoop_met flavor tbls m [] sk.skipped h
  have hm : ∀ k, k ∈ nr1 ↔ k ∈ tabledResources tbls m := fun k => by rw [h2 k]; simp
  have hc : setEq nr1 (InfraFlavorResources flavor tbls).1 = true := by
    rw [setEq_congr_left _ hm]; exact hs
  unfold resLookup; rw [h1]; simp [hc]

theorem rejection_eq_none_iff (rn : ResourceNames) (req : NodeResources) (tbls : ResTagTables)
    (f : FlavorInfo) : rejection rn req tbls f = none ↔ accepts req tbls f = true := by
  unfold rejection accepts optResOk
  by_cases h1 : f.Vcpus < req.Vcpus
  · simp [h1]
  by_cases h2 : f.Ram < req.Ram
  · simp [h1, h2]
  by_cases h3 : f.Disk ≠ 0 ∧ f.Disk < req.Disk
  · have h3a := h3.1
    have h3b := h3.2
    simp [h1, h2, h3a, h3b]
  have h1a : req.Vcpus ≤ f.Vcpus := by omega
  have h2a : req.Ram ≤ f.Ram := by omega
  have h3a : f.Disk = 0 ∨ req.Disk ≤ f.Disk := by omega
  simp only [h1, h2, h3, if_false, h1a, h2a, decide_True, Bool.true_and]
  have h3b : (decide (f.Disk = 0) || decide (req.Disk ≤ f.Disk)) = true := by simpa using h3a
  rw [h3b]
  cases hopt : req.OptResMap with
  | none =>
    simp only [Bool.true_and]
    by_cases hg : Contains f.Name "gpu" = true
    · simp [hg]
    · by_cases hc : (InfraFlavorResources f tbls).2 = 0
      · simp [hg, hc]
      · simp [hg, hc]
  | some m =>
    simp only [Bool.true_and]
    cases hu : firstUnmet tbls f m with
    | some res => simp
    | none =>
      cases hs : setEq (tabledResources tbls m) (InfraFlavorResources f tbls).1 <;> simp

theorem flavorLoop_cons_reject (rn : ResourceNames) (req : NodeResources) (cli : CloudletInfo)
    (tbls : ResTagTables) (f : FlavorInfo) (rest : List FlavorInfo) (vmspec : VMCreationSpec)
    (sk : Skips) (r : Reason) (h : rejection rn req tbls f = some r) :
    ∃ v1, flavorLoop rn req cli tbls (f :: rest) vmspec sk
      = flavorLoop rn req cli tbls rest v1 (sk.bump r) := by
  unfold rejection at h
  rw [flavorLoop]
  by_cases h1 : f.Vcpus < req.Vcpus
  · simp only [h1, if_true, Option.some.injEq] at h ⊢
    subst h
    exact ⟨_, rfl⟩
  by_cases h2 : f.Ram < req.Ram
  · simp only [h1, h2, if_true, if_false, Option.some.injEq] at h ⊢
    subst h
    exact ⟨_, rfl⟩
  by_cases h3 : f.Disk ≠ 0 ∧ f.Disk < req.Disk
  · have h3a := h3.1
    have h3b := h3.2
    simp only [h1, h2, h3, h3a, h3b, if_true, if_false, Option.some.injEq, ne_eq,
      not_false_eq_true, and_self] at h ⊢
    subst h
    exact ⟨_, rfl⟩
  simp only [h1, h2, h3, if_false] at h ⊢
  have hd : ∃ v1 : VMCreationSpec, (if f.Disk = 0 then some { vmspec with ExternalVolumeSize := req.Disk }
        else if f.Disk < req.Disk then none else some vmspec) = some v1 := by
    by_cases h0 : f.Disk = 0
    · exact ⟨_, if_pos h0⟩
    · have : ¬ f.Disk < req.Disk := fun hlt => h3 ⟨h0, hlt⟩
      exact ⟨vmspec, by rw [if_neg h0, if_neg this]⟩
  obtain ⟨v1, hv1⟩ := hd
  rw [hv1]
  simp only []
  cases hopt : req.OptResMap with
  | none =>
    rw [hopt] at h
    simp only [] at h ⊢
    by_cases hg : Contains f.Name "gpu" = true
    · rw [if_pos (Or.inl hg)] at h
      simp only [Option.some.injEq] at h
      subst h
      rw [if_pos hg]
      exact ⟨_, rfl⟩
    · by_cases hc : (InfraFlavorResources f tbls).2 = 0
      · simp [hg, hc] at h
      · have hc1 : (InfraFlavorResources f tbls).2 ≠ 0 := hc
        rw [if_pos (Or.inr hc1)] at h
        simp only [Option.some.injEq] at h
        subst h
        rw [if_neg hg, if_pos hc1]
        exact ⟨_, rfl⟩
  | some m =>
    rw [hopt] at h
    simp only [] at h ⊢
    cases hu : firstUnmet tbls f m with
    | some res =>
      rw [hu] at h
      simp only [Option.some.injEq] at h
      subst h
      obtain ⟨err, he⟩ := resLookup_unmet m f cli tbls sk res hu
      rw [he]
      exact ⟨_, rfl⟩
    | none =>
      rw [hu] at h
      simp only [] at h
      cases hs : setEq (tabledResources tbls m) (InfraFlavorResources f tbls).1 with
      | true => rw [hs] at h; simp at h
      | false =>
        rw [hs] at h
        simp only [Bool.false_eq_true, if_false, Option.some.injEq] at h
        subst h
        obtain ⟨err, he⟩ := resLookup_extra m f cli tbls sk hu hs
        rw [he]
        exact ⟨_, rfl⟩

theorem flavorLoop_cons_accept (rn : ResourceNames) (req : NodeResources) (cli : CloudletInfo)
    (tbls : ResTagTables) (f : FlavorInfo) (rest : List FlavorInfo) (vmspec : VMCreationSpec)
    (sk : Skips) (h : rejection rn req tbls f = none) :
    ∃ az img, flavorLoop rn req cli tbls (f :: rest) vmspec sk
      = LoopOutcome.found
          { FlavorName := f.Name,
            ExternalVolumeSize := if f.Disk = 0 then req.Disk else vmspec.ExternalVolumeSize,
            AvailabilityZone := az, ImageName := img, FlavorInfo := some f } := by
  unfold rejection at h
  rw [flavorLoop]
  by_cases h1 : f.Vcpus < req.Vcpus
  · simp [h1] at h
  by_cases h2 : f.Ram < req.Ram
  · simp [h1, h2] at h
  by_cases h3 : f.Disk ≠ 0 ∧ f.Disk < req.Disk
  · simp [h1, h2, h3] at h
  simp only [h1, h2, h3, if_false] at h ⊢
  have hd : (if f.Disk = 0 then some { vmspec with ExternalVolumeSize := req.Disk }
        else if f.Disk < req.Disk then none else some vmspec) =
        some { vmspec with
          ExternalVolumeSize := if f.Disk = 0 then req.Disk else vmspec.ExternalVolumeSize } := by
    by_cases h0 : f.Disk = 0
    · simp only [h0, if_true]
    · have : ¬ f.Disk < req.Disk := fun hlt => h3 ⟨h0, hlt⟩
      simp only [h0, this, if_false]
  rw [hd]
  simp only []
  cases hopt : req.OptResMap with
  | none =>
    rw [hopt] at h
    simp only [] at h ⊢
    by_cases hg : Contains f.Name "gpu" = true
    · simp [hg] at h
    · by_cases hc : (InfraFlavorResources f tbls).2 = 0
      · simp only [hg, hc, ne_eq, not_true_eq_false, if_false]
        exact ⟨_, _, rfl⟩
      · simp [hg, hc] at h
  | some m =>
    rw [hopt] at h
    simp only [] at h ⊢
    cases hu : firstUnmet tbls f m with
    | some res => rw [hu] at h; simp at h
    | none =>
      rw [hu] at h
      simp only [] at h
      cases hs : setEq (tabledResources tbls m) (InfraFlavorResources f tbls).1 with
      | false => rw [hs] at h; simp at h
      | true =>
        rw [resLookup_ok m f cli tbls sk hu hs]
        exact ⟨_, _, rfl⟩

theorem countOf_incr (m : List (String × Nat)) (k x : String) :
    countOf (incr m k) x = countOf m x + (if x = k then 1 else 0) := by
  induction m with
  | nil =>
    by_cases hx : x = k
    · subst hx; simp [incr, countOf, List.lookup]
    · have : (x == k) = false := by simpa using hx
      simp [incr, countOf, List.lookup, this, hx]
  | cons e rest ih =>
    obtain ⟨k0, n⟩ := e
    unfold incr
    unfold countOf at ih ⊢
    by_cases h0 : k0 = k
    · subst h0
      by_cases hx : x = k0
      · subst hx; simp [List.lookup]
      · have : (x == k0) = false := by simpa using hx
        simp [List.lookup, this, hx]
    · rw [if_neg h0]
      by_cases hx : x = k0
      · subst hx
        have : ¬ x = k := fun h => h0 h
        simp [List.lookup, this]
      · have : (x == k0) = false := by simpa using hx
        simp only [List.lookup, this]
        exact ih

theorem sum_incr (m : List (String × Nat)) (k : String) :
    ((incr m k).map Prod.snd).sum = (m.map Prod.snd).sum + 1 := by
  induction m with
  | nil => simp [incr]
  | cons e rest ih =>
    obtain ⟨k0, n⟩ := e
    unfold incr
    split_ifs
    · simp; omega
    · simp [ih]; omega

theorem total_bump (sk : Skips) (r : Reason) : (sk.bump r).total = sk.total + 1 := by
  cases r with
  | notEnough n => simp [Skips.bump, Skips.total, sum_incr]; omega
  | extraRes => simp [Skips.bump, Skips.total]; omega

theorem flavorLoop_found (rn : ResourceNames) (req : NodeResources) (cli : CloudletInfo)
    (tbls : ResTagTables) (l : List FlavorInfo) :
    ∀ (vmspec : VMCreationSpec) (sk : Skips) (f : FlavorInfo),
      l.find? (accepts req tbls) = some f →
      ∃ v, flavorLoop rn req cli tbls l vmspec sk = LoopOutcome.found v ∧
        v.FlavorInfo = some f ∧ v.FlavorName = f.Name ∧
        (f.Disk = 0 → v.ExternalVolumeSize = req.Disk) := by
  induction l with
  | nil => intro vmspec sk f h; simp at h
  | cons g rest ih =>
    intro vmspec sk f h
    rw [List.find?_cons] at h
    cases ha : accepts req tbls g with
    | true =>
      rw [ha] at h
      simp only [Option.some.injEq] at h
      subst h
      obtain ⟨az, img, hl⟩ :=
        flavorLoop_cons_accept rn req cli tbls g rest vmspec sk
          ((rejection_eq_none_iff rn req tbls g).2 ha)
      refine ⟨_, hl, rfl, rfl, ?_⟩
      intro h0
      simp [h0]
    | false =>
      rw [ha] at h
      simp only [] at h
      cases hr : rejection rn req tbls g with
      | none =>
        rw [(rejection_eq_none_iff rn req tbls g).1 hr] at ha
        exact absurd ha (by simp)
      | some r =>
        obtain ⟨v1, hl⟩ := flavorLoop_cons_reject rn req cli tbls g rest vmspec sk r hr
        rw [hl]
        exact ih v1 (sk.bump r) f h

theorem flavorLoop_exhausted (rn : ResourceNames) (req : NodeResources) (cli : CloudletInfo)
    (tbls : ResTagTables) (l : List FlavorInfo) :
    ∀ (vmspec : VMCreationSpec) (sk : Skips),
      (∀ f ∈ l, accepts req tbls f = false) →
      ∃ v sk1, flavorLoop rn req cli tbls l vmspec sk = LoopOutcome.exhausted v sk1 ∧
        sk1.total = sk.total + l.length ∧
        sk1.skippedExtraRes = sk.skippedExtraRes
          + l.countP (fun f => decide (rejection rn req tbls f = some Reason.extraRes)) ∧
        ∀ resName, countOf sk1.skipped resName = countOf sk.skipped resName
          + l.countP (fun f => decide (rejection rn req tbls f = some (Reason.notEnough resName))) := by
  induction l with
  | nil =>
    intro vmspec sk _
    exact ⟨vmspec, sk, rfl, by simp, by simp, by simp⟩
  | cons g rest ih =>
    intro vmspec sk h
    have hg : accepts req tbls g = false := h g (List.mem_cons_self _ _)
    have hrest : ∀ f ∈ rest, accepts req tbls f = false :=
      fun f hf => h f (List.mem_cons_of_mem _ hf)
    cases hr : rejection rn req tbls g with
    | none =>
      rw [(rejection_eq_none_iff rn req tbls g).1 hr] at hg
      exact absurd hg (by simp)
    | some r =>
      obtain ⟨v1, hl⟩ := flavorLoop_cons_reject rn req cli tbls g rest vmspec sk r hr
      obtain ⟨v, sk1, h1, h2, h3, h4⟩ := ih v1 (sk.bump r) hrest
      refine ⟨v, sk1, by rw [hl, h1], ?_, ?_, ?_⟩
      · rw [h2, total_bump]; simp; omega
      · rw [h3, List.countP_cons, hr]
        cases r with
        | notEnough n => simp [Skips.bump]
        | extraRes => simp [Skips.bump]; omega
      · intro resName
        rw [h4 resName, List.countP_cons, hr]
        cases r with
        | notEnough n =>
          simp only [Skips.bump, countOf_incr]
          by_cases hn : resName = n
          · subst hn; simp; omega
          · have : ¬ n = resName := fun h => hn h.symm
            simp [hn, this]
        | extraRes => simp [Skips.bump]

theorem GetVMSpec_success (rn : ResourceNames) (req : NodeResources) (cli : CloudletInfo)
    (tbls : ResTagTables) (h : (GetVMSpec rn req cli tbls).2 = none) :
    ∃ v f, GetVMSpec rn req cli tbls = (some v, none) ∧
      (sortFlavors cli.Flavors).find? (accepts req tbls) = some f ∧
      v.FlavorInfo = some f ∧ v.FlavorName = f.Name ∧
      (f.Disk = 0 → v.ExternalVolumeSize = req.Disk) := by
  unfold GetVMSpec at h ⊢
  cases hv : ValidateGPUResource req cli tbls with
  | some err => rw [hv] at h; simp at h
  | none =>
    rw [hv] at h
    simp only [] at h ⊢
    by_cases hg : req.OptResMap.isSome ∧ tbls.isNone
    · rw [if_pos hg] at h; simp at h
    · rw [if_neg hg] at h ⊢
      cases hf : (sortFlavors cli.Flavors).find? (accepts req tbls) with
      | none =>
        have hall : ∀ f ∈ sortFlavors cli.Flavors, accepts req tbls f = false := by
          intro f hfm
          have := List.find?_eq_none.1 hf f hfm
          simpa using this
        obtain ⟨v, sk1, h1, _⟩ :=
          flavorLoop_exhausted rn req cli tbls (sortFlavors cli.Flavors) ⟨"", 0, "", "", none⟩
            ⟨[], 0⟩ hall
        rw [h1] at h
        simp at h
      | some f =>
        obtain ⟨v, h1, h2, h3, h4⟩ :=
          flavorLoop_found rn req cli tbls (sortFlavors cli.Flavors) ⟨"", 0, "", "", none⟩
            ⟨[], 0⟩ f hf
        rw [h1]
        exact ⟨v, f, rfl, rfl, h2, h3, h4⟩

theorem find_sorted_minimal (p : FlavorInfo → Bool) (l : List FlavorInfo) (f : FlavorInfo)
    (hs : l.Pairwise (fun a b => ¬ lexLess b a)) (hf : l.find? p = some f) :
    ∀ g ∈ l, p g = true → ¬ lexLess g f := by
  induction l with
  | nil => simp at hf
  | cons x xs ih =>
    rw [List.pairwise_cons] at hs
    rw [List.find?_cons] at hf
    intro g hg hpg
    cases hpx : p x with
    | true =>
      rw [hpx] at hf
      simp only [Option.some.injEq] at hf
      subst hf
      rcases List.mem_cons.1 hg with rfl | hg
      · exact lexLess_irrefl _
      · exact hs.1 g hg
    | false =>
      rw [hpx] at hf
      simp only [] at hf
      rcases List.mem_cons.1 hg with rfl | hg
      · rw [hpx] at hpg; exact absurd hpg (by simp)
      · exact ih hs.2 hf g hg hpg

/-- C1. Whenever `GetVMSpec` succeeds, the flavor it returns is the first
accepting flavor of the cloudlet's flavors in ascending (Vcpus, Ram, Disk)
order: the sorted list is an ordered permutation of the cloudlet's flavors, the
flavor has at least the requested vCPUs and RAM, has disk 0 or at least the
requested disk, passes the optional-resource checks, and no accepting flavor
of the cloudlet has a strictly smaller (Vcpus, Ram, Disk) triple. -/
theorem GetVMSpec_first_accepting (rn : ResourceNames) (req : NodeResources)
    (cli : CloudletInfo) (tbls : ResTagTables) (h : (GetVMSpec rn req cli tbls).2 = none) :
    ∃ v f, (GetVMSpec rn req cli tbls).1 = some v ∧ v.FlavorInfo = some f ∧
      v.FlavorName = f.Name ∧ f ∈ cli.Flavors ∧
      (sortFlavors cli.Flavors).Perm cli.Flavors ∧
      (sortFlavors cli.Flavors).Pairwise (fun a b => ¬ lexLess b a) ∧
      (sortFlavors cli.Flavors).find? (accepts req tbls) = some f ∧
      req.Vcpus ≤ f.Vcpus ∧ req.Ram ≤ f.Ram ∧ (f.Disk = 0 ∨ req.Disk ≤ f.Disk) ∧
      optResOk req tbls f = true ∧
      ∀ g ∈ cli.Flavors, accepts req tbls g = true → ¬ lexLess g f := by
  obtain ⟨v, f, h1, h2, h3, h4, _⟩ := GetVMSpec_success rn req cli tbls h
  have hmem : f ∈ sortFlavors cli.Flavors := List.mem_of_find?_eq_some h2
  have hacc : accepts req tbls f = true := by
    have := List.find?_some h2
    simpa using this
  have hacc2 := hacc
  unfold accepts at hacc2
  simp only [Bool.and_eq_true, Bool.or_eq_true, decide_eq_true_eq] at hacc2
  refine ⟨v, f, by rw [h1], h3, h4, (sortFlavors_perm _).mem_iff.1 hmem, sortFlavors_perm _,
    sortFlavors_sorted _, h2, hacc2.1.1.1, hacc2.1.1.2, hacc2.1.2, hacc2.2, ?_⟩
  intro g hg hga
  exact find_sorted_minimal _ _ f (sortFlavors_sorted _) h2 g
    ((sortFlavors_perm _).mem_iff.2 hg) hga

/-- C1 (witness). The sample request without optional resources on the sample
cloudlet. -/
theorem GetVMSpec_first_accepting_witness :
    (GetVMSpec exNames exReq exCloudlet exTables).2 = none ∧
    ∃ v f, (GetVMSpec exNames exReq exCloudlet exTables).1 = some v ∧ v.FlavorInfo = some f ∧
      v.FlavorName = f.Name ∧ f ∈ exCloudlet.Flavors ∧
      (sortFlavors exCloudlet.Flavors).Perm exCloudlet.Flavors ∧
      (sortFlavors exCloudlet.Flavors).Pairwise (fun a b => ¬ lexLess b a) ∧
      (sortFlavors exCloudlet.Flavors).find? (accepts exReq exTables) = some f ∧
      exReq.Vcpus ≤ f.Vcpus ∧ exReq.Ram ≤ f.Ram ∧ (f.Disk = 0 ∨ exReq.Disk ≤ f.Disk) ∧
      optResOk exReq exTables f = true ∧
      ∀ g ∈ exCloudlet.Flavors, accepts exReq exTables g = true → ¬ lexLess g f :=
  ⟨by decide, GetVMSpec_first_accepting exNames exReq exCloudlet exTables (by decide)⟩

theorem infraTagLoop_le (res flav_val : String) (tags : List (String × String)) :
    ∀ acc : List String × Nat, acc.1.length ≤ acc.2 →
      (infraTagLoop res flav_val tags acc).1.length ≤ (infraTagLoop res flav_val tags acc).2 := by
  induction tags with
  | nil => intro acc h; exact h
  | cons t ts ih =>
    obtain ⟨k, val⟩ := t
    rintro ⟨resources, rescnt⟩ h
    unfold infraTagLoop
    split_ifs
    · apply ih
      have hlen : (setInsert resources res).length ≤ resources.length + 1 := by
        unfold setInsert
        split_ifs <;> simp
      have h0 : resources.length ≤ rescnt := h
      show (setInsert resources res).length ≤ rescnt + 1
      omega
    · exact ih _ h

theorem infraPropLoop_le (res : String) (tbl : ResTagTable) (props : List (String × String)) :
    ∀ acc : List String × Nat, acc.1.length ≤ acc.2 →
      (infraPropLoop res tbl props acc).1.length ≤ (infraPropLoop res tbl props acc).2 := by
  induction props with
  | nil => intro acc h; exact h
  | cons p ps ih =>
    obtain ⟨k, v⟩ := p
    intro acc h
    unfold infraPropLoop
    exact ih _ (infraTagLoop_le res v tbl.Tags acc h)

theorem infraTblLoop_le (flavor : FlavorInfo) (tbls : List (String × ResTagTable)) :
    ∀ acc : List String × Nat, acc.1.length ≤ acc.2 →
      (infraTblLoop flavor tbls acc).1.length ≤ (infraTblLoop flavor tbls acc).2 := by
  induction tbls with
  | nil => intro acc h; exact h
  | cons t ts ih =>
    obtain ⟨res, tbl⟩ := t
    intro acc h
    unfold infraTblLoop
    exact ih _ (infraPropLoop_le res tbl flavor.PropMap acc h)

theorem InfraFlavorResources_length_le (flavor : FlavorInfo) (tbls : ResTagTables) :
    (InfraFlavorResources flavor tbls).1.length ≤ (InfraFlavorResources flavor tbls).2 := by
  unfold InfraFlavorResources
  split_ifs
  · simp
  · exact infraTblLoop_le flavor _ _ (by simp)

theorem firstUnmet_none (tbls : ResTagTables) (f : FlavorInfo) (m : List (String × String))
    (h : firstUnmet tbls f m = none) :
    ∀ e ∈ m, ∀ tbl, tblLookup tbls e.1 = some tbl → match_ e.1 e.2 f tbl = none := by
  intro e he tbl hl
  unfold firstUnmet at h
  simp only [Option.map_eq_none'] at h
  have hu := List.find?_eq_none.1 h e he
  unfold unmet at hu
  rw [hl] at hu
  simpa using hu

/-- The check `resLookup` does make.  On every successful call of `GetVMSpec`,
for every entry (resource, request) of `OptResMap` whose resource has a tag
table on the cloudlet, `match` succeeds for the selected flavor against that
table. -/
theorem GetVMSpec_tabled_requests_met (rn : ResourceNames) (req : NodeResources)
    (cli : CloudletInfo) (tbls : ResTagTables) (h : (GetVMSpec rn req cli tbls).2 = none) :
    ∃ v f, (GetVMSpec rn req cli tbls).1 = some v ∧ v.FlavorInfo = some f ∧
      ∀ m, req.OptResMap = some m → ∀ e ∈ m, ∀ tbl, tblLookup tbls e.1 = some tbl →
        match_ e.1 e.2 f tbl = none := by
  obtain ⟨v, f, h1, h2, h3, _⟩ := GetVMSpec_success rn req cli tbls h
  have hacc : accepts req tbls f = true := by
    have := List.find?_some h2
    simpa using this
  refine ⟨v, f, by rw [h1], h3, ?_⟩
  intro m hm
  unfold accepts optResOk at hacc
  rw [hm] at hacc
  simp only [Bool.and_eq_true, Option.isNone_iff_eq_none] at hacc
  exact firstUnmet_none tbls f m hacc.2.1

/-- The sample GPU request on the sample cloudlet: the request has a tag table
and is met by the selected flavor. -/
theorem GetVMSpec_tabled_requests_met_witness :
    (GetVMSpec exNames exReqGpu exCloudlet exTables).2 = none ∧
    ∃ v f, (GetVMSpec exNames exReqGpu exCloudlet exTables).1 = some v ∧ v.FlavorInfo = some f ∧
      ∀ m, exReqGpu.OptResMap = some m → ∀ e ∈ m, ∀ tbl, tblLookup exTables e.1 = some tbl →
        match_ e.1 e.2 f tbl = none :=
  ⟨by decide, GetVMSpec_tabled_requests_met exNames exReqGpu exCloudlet exTables (by decide)⟩

theorem matchTags_no_props (f : FlavorInfo) (hp : f.PropMap = []) (t s : String) (w : Bool)
    (n : Int) (tags : List (String × String)) :
    matchTags f t s w n tags = some ("No match found for flavor " ++ f.Name) := by
  induction tags with
  | nil => rfl
  | cons e es ih =>
    obtain ⟨k, v⟩ := e
    unfold matchTags
    rw [hp]
    simp only [matchProps]
    exact ih

/-- C2 (the code at the failing input). `GetVMSpec` succeeds on a request for the
optional resource "nas" and selects the flavor `m1.tiny`, although the cloudlet
has no tag table for "nas" and `match` fails for that request on the selected
flavor against every tag table: `resLookup` skips a requested resource without
a table.  The same request on a cloudlet without any tag table is refused, and
so is a gpu request on a cloudlet without a gpu table. -/
theorem GetVMSpec_untabled_request_unchecked :
    GetVMSpec exNames exReqNas exCloudlet exTables
        = (some ⟨"m1.tiny", 0, "", "", some exTiny⟩, none) ∧
      exReqNas.OptResMap = some [("nas", "nas:1")] ∧
      tblLookup exTables "nas" = none ∧
      GetVMSpec exNames exReqNas exCloudlet none
        = (none, some (VMSpecError.noOptResSupported "cloudlet1")) ∧
      GetVMSpec exNames ⟨1, 512, 5, some [("gpu", "pci:1")]⟩ exCloudlet (some [("nas", ⟨[]⟩)])
        = (none, some (VMSpecError.gpuNotSupported "cloudlet1")) ∧
      ∀ tbl, match_ "nas" "nas:1" exTiny tbl ≠ none := by
  refine ⟨by decide, rfl, by decide, by decide, by decide, ?_⟩
  intro tbl
  have hs : splitRequest "nas:1" = ["nas", "1"] := by decide
  have ha : Atoi "1" = (1, true) := by decide
  unfold match_
  simp only [hs, ha]
  simp [matchTags_no_props exTiny rfl]

/-- C3. `GetVMSpec` never selects a flavor that offers an optional resource
that was not requested: on success every resource `InfraFlavorResources`
reports for the selected flavor is a key of the request's `OptResMap`, and
when `OptResMap` is nil the selected flavor offers no optional resource (no
resource reported, count 0) and its name does not contain "gpu". -/
theorem GetVMSpec_no_unrequested_resources (rn : ResourceNames) (req : NodeResources)
    (cli : CloudletInfo) (tbls : ResTagTables) (h : (GetVMSpec rn req cli tbls).2 = none) :
    ∃ v f, (GetVMSpec rn req cli tbls).1 = some v ∧ v.FlavorInfo = some f ∧
      (∀ r ∈ (InfraFlavorResources f tbls).1, r ∈ (req.OptResMap.getD []).map Prod.fst) ∧
      (req.OptResMap = none →
        (InfraFlavorResources f tbls).1 = [] ∧ (InfraFlavorResources f tbls).2 = 0 ∧
          Contains f.Name "gpu" = false) := by
  obtain ⟨v, f, h1, h2, h3, _⟩ := GetVMSpec_success rn req cli tbls h
  have hacc : accepts req tbls f = true := by
    have := List.find?_some h2
    simpa using this
  refine ⟨v, f, by rw [h1], h3, ?_⟩
  unfold accepts optResOk at hacc
  cases hm : req.OptResMap with
  | none =>
    rw [hm] at hacc
    simp only [Bool.and_eq_true, Bool.not_eq_true', decide_eq_true_eq] at hacc
    have hlen := InfraFlavorResources_length_le f tbls
    rw [hacc.2.2] at hlen
    have hnil : (InfraFlavorResources f tbls).1 = [] :=
      List.length_eq_zero.1 (Nat.le_zero.1 hlen)
    refine ⟨?_, fun _ => ⟨hnil, hacc.2.2, hacc.2.1⟩⟩
    intro r hr
    rw [hnil] at hr
    simp at hr
  | some m =>
    rw [hm] at hacc
    simp only [Bool.and_eq_true] at hacc
    refine ⟨?_, fun hn => by simp at hn⟩
    intro r hr
    have hin := ((setEq_iff _ _).1 hacc.2.2 r).2 hr
    unfold tabledResources at hin
    simp only [Option.getD_some]
    rw [List.mem_map] at hin ⊢
    obtain ⟨e, he, her⟩ := hin
    exact ⟨e, (List.mem_filter.1 he).1, her⟩

/-- C3 (witness). The sample GPU request on the sample cloudlet. -/
theorem GetVMSpec_no_unrequested_resources_witness :
    (GetVMSpec exNames exReqGpu exCloudlet exTables).2 = none ∧
    ∃ v f, (GetVMSpec exNames exReqGpu exCloudlet exTables).1 = some v ∧ v.FlavorInfo = some f ∧
      (∀ r ∈ (InfraFlavorResources f exTables).1, r ∈ (exReqGpu.OptResMap.getD []).map Prod.fst) ∧
      (exReqGpu.OptResMap = none →
        (InfraFlavorResources f exTables).1 = [] ∧ (InfraFlavorResources f exTables).2 = 0 ∧
          Contains f.Name "gpu" = false) :=
  ⟨by decide,
    GetVMSpec_no_unrequested_resources exNames exReqGpu exCloudlet exTables (by decide)⟩

/-- C4 (the code at the failing input). For a request of 2 vCPUs, 1024 MB and
20 GB without optional resources, `GetVMSpec` selects `m4.medium`, a flavor
with a 40 GB disk of its own, and still reports an external volume of 20 GB:
the size was written while the zero-disk flavor `m4.gpu` was examined, before
that flavor was rejected. -/
theorem GetVMSpec_stale_external_volume :
    GetVMSpec exNames exReq exCloudlet exTables
        = (some ⟨"m4.medium", 20, "", "", some exMedium⟩, none) ∧
      exMedium.Disk = 40 ∧ exReq.Disk = 20 := by
  decide

theorem incr_keys (m : List (String × Nat)) (k : String) :
    (incr m k).map Prod.fst
      = if k ∈ m.map Prod.fst then m.map Prod.fst else m.map Prod.fst ++ [k] := by
  induction m with
  | nil => simp [incr]
  | cons e rest ih =>
    obtain ⟨k0, n⟩ := e
    unfold incr
    by_cases h0 : k0 = k
    · subst h0; simp
    · rw [if_neg h0]
      have hk : ¬ k = k0 := fun h => h0 h.symm
      simp only [List.map_cons, ih, List.mem_cons, hk, false_or]
      split_ifs <;> simp

theorem incr_nodup (m : List (String × Nat)) (k : String) (h : (m.map Prod.fst).Nodup) :
    ((incr m k).map Prod.fst).Nodup := by
  rw [incr_keys]
  split_ifs with hk
  · exact h
  · rw [List.nodup_append]
    refine ⟨h, by simp, ?_⟩
    intro a ha hb
    simp only [List.mem_singleton] at hb
    subst hb
    exact hk ha

theorem incr_pos (m : List (String × Nat)) (k : String) (h : ∀ e ∈ m, 0 < e.2) :
    ∀ e ∈ incr m k, 0 < e.2 := by
  induction m with
  | nil => intro e he; simp [incr] at he; subst he; simp
  | cons e0 rest ih =>
    obtain ⟨k0, n⟩ := e0
    unfold incr
    split_ifs
    · intro e he
      rcases List.mem_cons.1 he with rfl | he
      · simp
      · exact h e (List.mem_cons_of_mem _ he)
    · intro e he
      rcases List.mem_cons.1 he with rfl | he
      · exact h _ (List.mem_cons_self _ _)
      · exact ih (fun e he => h e (List.mem_cons_of_mem _ he)) e he

theorem wf_bump (sk : Skips) (r : Reason) (h : sk.wf) : (sk.bump r).wf := by
  cases r with
  | notEnough n => exact ⟨incr_nodup _ _ h.1, incr_pos _ _ h.2⟩
  | extraRes => exact h

theorem flavorLoop_exhausted_wf (rn : ResourceNames) (req : NodeResources) (cli : CloudletInfo)
    (tbls : ResTagTables) (l : List FlavorInfo) :
    ∀ (vmspec v : VMCreationSpec) (sk sk1 : Skips),
      flavorLoop rn req cli tbls l vmspec sk = LoopOutcome.exhausted v sk1 → sk.wf → sk1.wf := by
  induction l with
  | nil =>
    intro vmspec v sk sk1 h hw
    simp only [flavorLoop, LoopOutcome.exhausted.injEq] at h
    rw [← h.2]; exact hw
  | cons g rest ih =>
    intro vmspec v sk sk1 h hw
    cases hr : rejection rn req tbls g with
    | none =>
      obtain ⟨az, img, hl⟩ := flavorLoop_cons_accept rn req cli tbls g rest vmspec sk hr
      rw [hl] at h
      simp at h
    | some r =>
      obtain ⟨v1, hl⟩ := flavorLoop_cons_reject rn req cli tbls g rest vmspec sk r hr
      rw [hl] at h
      exact ih v1 v (sk.bump r) sk1 h (wf_bump sk r hw)

theorem lookup_of_mem_nodup (m : List (String × Nat)) (h : (m.map Prod.fst).Nodup)
    (e : String × Nat) (he : e ∈ m) : countOf m e.1 = e.2 := by
  induction m with
  | nil => simp at he
  | cons e0 rest ih =>
    obtain ⟨k0, n⟩ := e0
    simp only [List.map_cons, List.nodup_cons] at h
    unfold countOf at ih ⊢
    rcases List.mem_cons.1 he with rfl | he
    · simp [List.lookup]
    · have hne : e.1 ≠ k0 := by
        intro heq
        exact h.1 (heq ▸ List.mem_map_of_mem Prod.fst he)
      have : (e.1 == k0) = false := by simpa using hne
      simp only [List.lookup, this]
      exact ih h.2 he

theorem countOf_pos_mem (m : List (String × Nat)) (k : String) (h : 0 < countOf m k) :
    k ∈ m.map Prod.fst := by
  induction m with
  | nil => simp [countOf] at h
  | cons e0 rest ih =>
    obtain ⟨k0, n⟩ := e0
    unfold countOf at ih h
    by_cases hk : k = k0
    · subst hk; simp
    · have : (k == k0) = false := by simpa using hk
      simp only [List.lookup, this] at h
      simp only [List.map_cons, List.mem_cons]
      exact Or.inr (ih h)

/-- C5. When `GetVMSpec` passes its pre-validation and no flavor of the
cloudlet is accepted, it returns the error "no suitable infra flavor found for
requested node resources, " followed by the reasons joined with ", ": the
strings "N with not enough <resource>" in ascending order, one per resource
name with the number N > 0 of flavors rejected for it, then "M with optional
resources not requested" when M > 0 flavors were rejected for that.  Every
flavor is rejected for exactly one reason, so the counts add up to the number
of flavors. -/
theorem GetVMSpec_rejections_aggregated (rn : ResourceNames) (req : NodeResources)
    (cli : CloudletInfo) (tbls : ResTagTables)
    (hv : ValidateGPUResource req cli tbls = none)
    (hg : ¬ (req.OptResMap.isSome ∧ tbls.isNone))
    (hno : ∀ f ∈ cli.Flavors, accepts req tbls f = false) :
    ∃ (v : VMCreationSpec) (sk : Skips), GetVMSpec rn req cli tbls
        = (some v, some (VMSpecError.noSuitableFlavor
            ("no suitable infra flavor found for requested node resources, "
              ++ Join (SortStrings (sk.skipped.map
                    (fun e => toString e.2 ++ " with not enough " ++ e.1))
                  ++ (if sk.skippedExtraRes > 0 then
                        [toString sk.skippedExtraRes ++ " with optional resources not requested"]
                      else [])) ", "))) ∧
      (sk.skipped.map Prod.fst).Nodup ∧
      (∀ e ∈ sk.skipped, 0 < e.2 ∧ e.2 = cli.Flavors.countP
        (fun f => decide (rejection rn req tbls f = some (Reason.notEnough e.1)))) ∧
      (∀ resName, 0 < cli.Flavors.countP
          (fun f => decide (rejection rn req tbls f = some (Reason.notEnough resName))) →
        resName ∈ sk.skipped.map Prod.fst) ∧
      sk.skippedExtraRes = cli.Flavors.countP
        (fun f => decide (rejection rn req tbls f = some Reason.extraRes)) ∧
      (∀ f ∈ cli.Flavors, ∃ r, rejection rn req tbls f = some r) ∧
      (sk.skipped.map Prod.snd).sum + sk.skippedExtraRes = cli.Flavors.length := by
  have hperm := sortFlavors_perm cli.Flavors
  have hall : ∀ f ∈ sortFlavors cli.Flavors, accepts req tbls f = false :=
    fun f hf => hno f (hperm.mem_iff.1 hf)
  obtain ⟨v, sk, h1, h2, h3, h4⟩ :=
    flavorLoop_exhausted rn req cli tbls (sortFlavors cli.Flavors) ⟨"", 0, "", "", none⟩
      ⟨[], 0⟩ hall
  have hwf : sk.wf :=
    flavorLoop_exhausted_wf rn req cli tbls _ _ v ⟨[], 0⟩ sk h1 ⟨by simp, by simp⟩
  refine ⟨v, sk, ?_, hwf.1, ?_, ?_, ?_, ?_, ?_⟩
  · unfold GetVMSpec
    rw [hv]
    simp only []
    rw [if_neg hg, h1]
    rfl
  · intro e he
    refine ⟨hwf.2 e he, ?_⟩
    have := h4 e.1
    rw [lookup_of_mem_nodup sk.skipped hwf.1 e he] at this
    rw [this, hperm.countP_eq]
    simp [countOf]
  · intro resName hpos
    apply countOf_pos_mem
    rw [h4 resName, hperm.countP_eq]
    simp only [countOf, List.lookup, Option.getD_none, Nat.zero_add]
    exact hpos
  · rw [h3, hperm.countP_eq]; simp
  · intro f hf
    cases hr : rejection rn req tbls f with
    | some r => exact ⟨r, rfl⟩
    | none =>
      have := (rejection_eq_none_iff rn req tbls f).1 hr
      rw [hno f hf] at this
      simp at this
  · have := h2
    unfold Skips.total at this
    simp only [List.map_nil, List.sum_nil, Nat.zero_add] at this
    rw [this, hperm.length_eq]

/-- C5 (witness). The sample request for 100 GB of disk, which no sample flavor
can serve. -/
theorem GetVMSpec_rejections_aggregated_witness :
    ValidateGPUResource exReqBig exCloudlet exTables = none ∧
    ¬ (exReqBig.OptResMap.isSome ∧ exTables.isNone) ∧
    (∀ f ∈ exCloudlet.Flavors, accepts exReqBig exTables f = false) ∧
    ∃ (v : VMCreationSpec) (sk : Skips), GetVMSpec exNames exReqBig exCloudlet exTables
        = (some v, some (VMSpecError.noSuitableFlavor
            ("no suitable infra flavor found for requested node resources, "
              ++ Join (SortStrings (sk.skipped.map
                    (fun e => toString e.2 ++ " with not enough " ++ e.1))
                  ++ (if sk.skippedExtraRes > 0 then
                        [toString sk.skippedExtraRes ++ " with optional resources not requested"]
                      else [])) ", "))) ∧
      (sk.skipped.map Prod.fst).Nodup ∧
      (∀ e ∈ sk.skipped, 0 < e.2 ∧ e.2 = exCloudlet.Flavors.countP
        (fun f => decide (rejection exNames exReqBig exTables f = some (Reason.notEnough e.1)))) ∧
      (∀ resName, 0 < exCloudlet.Flavors.countP
          (fun f => decide (rejection exNames exReqBig exTables f
            = some (Reason.notEnough resName))) →
        resName ∈ sk.skipped.map Prod.fst) ∧
      sk.skippedExtraRes = exCloudlet.Flavors.countP
        (fun f => decide (rejection exNames exReqBig exTables f = some Reason.extraRes)) ∧
      (∀ f ∈ exCloudlet.Flavors, ∃ r, rejection exNames exReqBig exTables f = some r) ∧
      (sk.skipped.map Prod.snd).sum + sk.skippedExtraRes = exCloudlet.Flavors.length :=
  ⟨by decide, by decide, by decide,
    GetVMSpec_rejections_aggregated exNames exReqBig exCloudlet exTables
      (by decide) (by decide) (by decide)⟩

end resspec

namespace edgeproto
open gostrings

theorem lastIndexChars_none (c : Char) (l : List Char) (h : lastIndexChars c l = none) :
    c ∉ l := by
  induction l with
  | nil => simp
  | cons x xs ih =>
    unfold lastIndexChars at h
    cases hx : lastIndexChars c xs with
    | some j => rw [hx] at h; simp at h
    | none =>
      rw [hx] at h
      simp only [] at h
      split_ifs at h with hxc
      intro hm
      rcases List.mem_cons.1 hm with rfl | hm
      · exact hxc rfl
      · exact ih hx hm

theorem lastIndexChars_some (c : Char) (l : List Char) (i : Nat)
    (h : lastIndexChars c l = some i) :
    ∃ b, l = l.take i ++ c :: b ∧ c ∉ b ∧ i < l.length := by
  induction l generalizing i with
  | nil => simp [lastIndexChars] at h
  | cons x xs ih =>
    unfold lastIndexChars at h
    cases hx : lastIndexChars c xs with
    | some j =>
      rw [hx] at h
      simp only [Option.some.injEq] at h
      subst h
      obtain ⟨b, h1, h2, h3⟩ := ih j hx
      refine ⟨b, ?_, h2, by simp; omega⟩
      rw [List.take_succ_cons, List.cons_append, ← h1]
    | none =>
      rw [hx] at h
      simp only [] at h
      split_ifs at h with hxc
      simp only [Option.some.injEq] at h
      subst h
      subst hxc
      exact ⟨xs, by simp, lastIndexChars_none _ _ hx, by simp⟩

theorem anc_of_split (p a b k : List Char) (c : Char) (hk : k = a ++ c :: b) (hb : c ∉ b) :
    (∃ rest, k = p ++ c :: rest) ↔ p = a ∨ ∃ rest, a = p ++ c :: rest := by
  constructor
  · rintro ⟨rest, hr⟩
    rw [hk] at hr
    rcases List.append_eq_append_iff.1 hr with ⟨a1, h1, h2⟩ | ⟨c1, h1, h2⟩
    · -- p = a ++ a1, c :: b = a1 ++ c :: rest
      cases a1 with
      | nil => left; simpa using h1
      | cons y ys =>
        simp only [List.cons_append, List.cons.injEq] at h2
        exfalso
        apply hb
        rw [h2.2]
        simp
    · cases c1 with
      | nil => left; simpa using h1.symm
      | cons y ys =>
        simp only [List.cons_append, List.cons.injEq] at h2
        right
        refine ⟨ys, ?_⟩
        rw [h1, h2.1]
  · rintro (rfl | ⟨rest, hr⟩)
    · exact ⟨b, hk⟩
    · exact ⟨rest ++ c :: b, by rw [hk, hr]; simp⟩

theorem hasLoop_spec (s : FieldMap) :
    ∀ (n : Nat) (key : String), key.length < n →
      ∃ b, s.hasLoop n key = some b ∧
        (b = true ↔ key ∈ s.fields ∨ ∃ p ∈ s.fields, IsAncestor p key) := by
  intro n
  induction n with
  | zero => intro key h; omega
  | succ n ih =>
    intro key hlen
    unfold FieldMap.hasLoop
    by_cases hmem : key ∈ s.fields
    · exact ⟨true, by simp [hmem], by simp [hmem]⟩
    · simp only [hmem, if_false, false_or]
      cases hl : LastIndex key (Char.ofNat 46) with
      | none =>
        refine ⟨false, rfl, ?_⟩
        simp only [Bool.false_eq_true, false_iff, not_exists, not_and]
        rintro p _ ⟨rest, hr⟩
        have := lastIndexChars_none _ _ hl
        apply this
        rw [hr]
        simp
      | some idx =>
        obtain ⟨b, hb1, hb2, hb3⟩ := lastIndexChars_some _ _ _ hl
        have hlen2 : (sliceTo key idx).length < n := by
          have h1 : (sliceTo key idx).length = (key.data.take idx).length := rfl
          have h2 : key.length = key.data.length := rfl
          rw [h1, List.length_take]
          omega
        obtain ⟨r, hr1, hr2⟩ := ih (sliceTo key idx) hlen2
        refine ⟨r, hr1, ?_⟩
        rw [hr2]
        have key_anc : ∀ p : String, IsAncestor p key ↔
            p = sliceTo key idx ∨ IsAncestor p (sliceTo key idx) := by
          intro p
          have := anc_of_split p.data (key.data.take idx) b key.data (Char.ofNat 46) hb1 hb2
          unfold IsAncestor
          rw [this]
          constructor
          · rintro (h | h)
            · left; exact String.ext h
            · right; exact h
          · rintro (h | h)
            · left; rw [h]; rfl
            · right; exact h
        constructor
        · rintro (h | ⟨p, hp, ha⟩)
          · exact ⟨_, h, (key_anc _).2 (Or.inl rfl)⟩
          · exact ⟨p, hp, (key_anc p).2 (Or.inr ha)⟩
        · rintro ⟨p, hp, ha⟩
          rcases (key_anc p).1 ha with h | h
          · left; rw [← h]; exact hp
          · right; exact ⟨p, hp, h⟩

/-- C6. `FieldMap.Has`: for every field set and every key `k` the loop ends
(one round more than `k` has characters suffices) and returns true if and only
if `k` itself or one of its dotted ancestors (`k` cut at one of its `.`
separators) is in the set. -/
theorem FieldMap_Has_iff (s : FieldMap) (k : String) :
    s.hasLoop (k.length + 1) k = some (s.Has k) ∧
      (s.Has k = true ↔ k ∈ s.fields ∨ ∃ p ∈ s.fields, IsAncestor p k) := by
  obtain ⟨b, h1, h2⟩ := hasLoop_spec s (k.length + 1) k (by omega)
  have hb : s.Has k = b := by unfold FieldMap.Has; rw [h1]; rfl
  rw [hb]
  exact ⟨h1, h2⟩

theorem mem_Set (s : FieldMap) (k x : String) : x ∈ (s.Set k).fields ↔ x ∈ s.fields ∨ x = k := by
  unfold FieldMap.Set
  split_ifs with h
  · constructor
    · intro hx; exact Or.inl hx
    · rintro (hx | rfl)
      · exact hx
      · exact h
  · simp

theorem mem_foldl_Set (l : List String) :
    ∀ (acc : FieldMap) (x : String),
      x ∈ (l.foldl FieldMap.Set acc).fields ↔ x ∈ acc.fields ∨ x ∈ l := by
  induction l with
  | nil => intro acc x; simp
  | cons y ys ih =>
    intro acc x
    rw [List.foldl_cons, ih, mem_Set, List.mem_cons]
    tauto

theorem mem_MakeFieldMap (fs : List String) (x : String) :
    x ∈ (MakeFieldMap (some fs)).fields ↔ x ∈ fs := by
  unfold MakeFieldMap
  simp only []
  rw [mem_foldl_Set]
  simp

theorem HasOrHasChild_iff (s : FieldMap) (k : String) :
    s.HasOrHasChild k = true ↔
      (s.Has k = true ∨ ∃ x ∈ s.fields, HasPrefix x (k ++ ".") = true) := by
  unfold FieldMap.HasOrHasChild
  by_cases h : s.Has k = true
  · simp [h]
  · simp only [h, if_false, false_or, List.any_eq_true, Bool.false_eq_true]

theorem HasPrefix_of_IsAncestor (p f : String) (h : IsAncestor p f) :
    HasPrefix f (p ++ ".") = true := by
  obtain ⟨rest, hr⟩ := h
  unfold HasPrefix
  simp only [decide_eq_true_eq, String.data_append]
  refine ⟨rest, ?_⟩
  rw [hr]
  show p.data ++ [Char.ofNat 46] ++ rest = p.data ++ Char.ofNat 46 :: rest
  simp

/-- C7. Law L2: for every list of field names `fs`, every `f` in `fs` and
every dotted ancestor `p` of `f`, `MakeFieldMap(fs).HasOrHasChild` is true of
`f` and of `p`; and for every field map, `HasOrHasChild(k)` holds exactly when
`Has(k)` holds or some set field starts with `k + "."`. -/
theorem FieldMap_HasOrHasChild_law (fs : List String) (f : String) (hf : f ∈ fs) :
    (MakeFieldMap (some fs)).HasOrHasChild f = true ∧
      (∀ p, IsAncestor p f → (MakeFieldMap (some fs)).HasOrHasChild p = true) ∧
      ∀ (s : FieldMap) (k : String), s.HasOrHasChild k = true ↔
        (s.Has k = true ∨ ∃ x ∈ s.fields, HasPrefix x (k ++ ".") = true) := by
  have hmem : f ∈ (MakeFieldMap (some fs)).fields := (mem_MakeFieldMap fs f).2 hf
  refine ⟨?_, ?_, HasOrHasChild_iff⟩
  · rw [HasOrHasChild_iff]
    left
    unfold FieldMap.Has FieldMap.hasLoop
    rw [if_pos hmem]
    rfl
  · intro p hp
    rw [HasOrHasChild_iff]
    right
    exact ⟨f, hmem, HasPrefix_of_IsAncestor p f hp⟩

/-- C7 (witness). The fields "2.1" and "4", and the ancestor "2" of "2.1". -/
theorem FieldMap_HasOrHasChild_law_witness :
    "2.1" ∈ ["2.1", "4"] ∧
      (MakeFieldMap (some ["2.1", "4"])).HasOrHasChild "2.1" = true ∧
      (MakeFieldMap (some ["2.1", "4"])).HasOrHasChild "2" = true :=
  ⟨by decide, (FieldMap_HasOrHasChild_law ["2.1", "4"] "2.1" (by decide)).1,
    (FieldMap_HasOrHasChild_law ["2.1", "4"] "2.1" (by decide)).2.1 "2" ⟨[Char.ofNat 49], by decide⟩⟩

theorem mem_insertSorted (x y : String) (l : List String) :
    y ∈ insertSorted x l ↔ y = x ∨ y ∈ l := by
  induction l with
  | nil => simp [insertSorted]
  | cons z zs ih =>
    unfold insertSorted
    split_ifs
    · simp
    · simp [ih]; tauto

theorem mem_SortStrings (l : List String) (y : String) : y ∈ SortStrings l ↔ y ∈ l := by
  induction l with
  | nil => simp [SortStrings]
  | cons x xs ih =>
    have h : SortStrings (x :: xs) = insertSorted x (SortStrings xs) := rfl
    rw [h, mem_insertSorted, ih, List.mem_cons]

theorem badFieldLoop_eq (d : MessageDesc) (allowed : FieldMap) (l : List String) :
    ∀ acc, badFieldLoop d allowed l acc = acc ++ l.filterMap (badFieldStr d allowed) := by
  induction l with
  | nil => intro acc; simp [badFieldLoop]
  | cons f rest ih =>
    intro acc
    unfold badFieldLoop
    rw [List.filterMap_cons]
    by_cases hk : IsKeyField d f = true
    · have hb : badFieldStr d allowed f = none := by simp [badFieldStr, hk]
      simp only [hk, if_true, hb]; exact ih acc
    · simp only [hk, if_false, Bool.false_eq_true]
      by_cases ha : allowed.Has f = true
      · have hb : badFieldStr d allowed f = none := by simp [badFieldStr, ha]
        simp only [ha, hb, Bool.true_eq_false, if_false]; exact ih acc
      · have ha2 : allowed.Has f = false := by simpa using ha
        have hb : badFieldStr d allowed f = d.AllFieldsStringMap.lookup f := by
          simp [badFieldStr, hk, ha2]
        simp only [ha2, if_true, hb]
        cases hl : d.AllFieldsStringMap.lookup f with
        | none => simp only []; exact ih acc
        | some str => simp only []; rw [ih]; simp

/-- C9. `ValidateUpdateFieldsCustom` enforces the whitelist: it returns
"nothing specified to update" when `Fields` is nil; it returns the error
"specified field(s) ... cannot be modified", listing the field's name, whenever
`Fields` names a field of the type that is not a key field and is not covered
by `allowedFields`; and it returns nil when `Fields` is non-nil and every
named field is covered by `allowedFields`. -/
theorem ValidateUpdateFieldsCustom_whitelist (d : MessageDesc) (allowedFields : FieldMap) :
    ValidateUpdateFieldsCustom d none allowedFields = some "nothing specified to update" ∧
    (∀ (fs : List String) (f str : String), f ∈ fs → IsKeyField d f = false →
      allowedFields.Has f = false → d.AllFieldsStringMap.lookup f = some str →
      ∃ bad, str ∈ bad ∧ ValidateUpdateFieldsCustom d (some fs) allowedFields
        = some ("specified field(s) " ++ Join bad "," ++ " cannot be modified")) ∧
    (∀ fs : List String, (∀ f ∈ fs, allowedFields.Has f = true) →
      ValidateUpdateFieldsCustom d (some fs) allowedFields = none) := by
  refine ⟨rfl, ?_, ?_⟩
  · intro fs f str hf hk ha hl
    have hmem : f ∈ (MakeFieldMap (some fs)).Fields :=
      (mem_SortStrings _ _).2 ((mem_MakeFieldMap fs f).2 hf)
    have hbad : str ∈ badFieldLoop d allowedFields (MakeFieldMap (some fs)).Fields [] := by
      rw [badFieldLoop_eq, List.nil_append, List.mem_filterMap]
      refine ⟨f, hmem, ?_⟩
      unfold badFieldStr
      simp [hk, ha, hl]
    refine ⟨_, hbad, ?_⟩
    unfold ValidateUpdateFieldsCustom
    simp only []
    rw [if_pos (List.length_pos_of_mem hbad)]
  · intro fs hall
    have hnil : badFieldLoop d allowedFields (MakeFieldMap (some fs)).Fields [] = [] := by
      rw [badFieldLoop_eq, List.nil_append, List.filterMap_eq_nil_iff]
      intro f hf
      have hf2 : f ∈ fs := (mem_MakeFieldMap fs f).1 ((mem_SortStrings _ _).1 hf)
      unfold badFieldStr
      simp [hall f hf2]
    unfold ValidateUpdateFieldsCustom
    simp only [hnil]
    rfl

/-- C9 (witness). The sample message type with only the image path allowed. -/
theorem ValidateUpdateFieldsCustom_whitelist_witness :
    ("9" ∈ ["9", "4", "2.1"] ∧ IsKeyField exApp "9" = false ∧ exAllowed.Has "9" = false ∧
      exApp.AllFieldsStringMap.lookup "9" = some "AccessPorts") ∧
    (∀ f ∈ ["4"], exAllowed.Has f = true) ∧
    (∃ bad, "AccessPorts" ∈ bad ∧ ValidateUpdateFieldsCustom exApp (some ["9", "4", "2.1"]) exAllowed
        = some ("specified field(s) " ++ Join bad "," ++ " cannot be modified")) ∧
    ValidateUpdateFieldsCustom exApp (some ["4"]) exAllowed = none :=
  ⟨by decide, by decide,
    (ValidateUpdateFieldsCustom_whitelist exApp exAllowed).2.1 ["9", "4", "2.1"] "9" "AccessPorts"
      (by decide) (by decide) (by decide) (by decide),
    (ValidateUpdateFieldsCustom_whitelist exApp exAllowed).2.2 ["4"] (by decide)⟩

/-- C10 (counterexample). `ValidateUpdateFieldsCustom` returns nil for a
`Fields` list that names the key field "2" and its child "2.1", although the
allowed map does not cover them. -/
theorem ValidateUpdateFieldsCustom_key_field_accepted :
    ValidateUpdateFieldsCustom exApp (some ["2", "2.1"]) exAllowed = none ∧
      IsKeyField exApp "2" = true ∧ IsKeyField exApp "2.1" = true ∧
      exAllowed.Has "2" = false ∧ exAllowed.Has "2.1" = false := by
  decide

/-- C10 (amended). `ValidateUpdateFieldsCustom` does not reject writes of key
fields: a key field named in `Fields` is skipped, so a non-nil `Fields` list in
which every field is a key field or is covered by the allowed map yields nil,
whatever the allowed map says about the key fields. -/
theorem ValidateUpdateFieldsCustom_skips_key_fields (d : MessageDesc) (allowedFields : FieldMap)
    (fs : List String)
    (h : ∀ f ∈ fs, IsKeyField d f = true ∨ allowedFields.Has f = true) :
    ValidateUpdateFieldsCustom d (some fs) allowedFields = none := by
  have hnil : badFieldLoop d allowedFields (MakeFieldMap (some fs)).Fields [] = [] := by
    rw [badFieldLoop_eq, List.nil_append, List.filterMap_eq_nil_iff]
    intro f hf
    have hf2 : f ∈ fs := (mem_MakeFieldMap fs f).1 ((mem_SortStrings _ _).1 hf)
    unfold badFieldStr
    rcases h f hf2 with hk | ha
    · simp [hk]
    · simp [ha]
  unfold ValidateUpdateFieldsCustom
  simp only [hnil]
  rfl

/-- C10 (witness). Key fields and an allowed field of the sample message type. -/
theorem ValidateUpdateFieldsCustom_skips_key_fields_witness :
    (∀ f ∈ ["2", "2.1", "4"], IsKeyField exApp f = true ∨ exAllowed.Has f = true) ∧
      ValidateUpdateFieldsCustom exApp (some ["2", "2.1", "4"]) exAllowed = none :=
  ⟨by decide, ValidateUpdateFieldsCustom_skips_key_fields exApp exAllowed ["2", "2.1", "4"]
    (by decide)⟩

end edgeproto

namespace enumgen
open gostrings

theorem digitVal_digitChar (d : Nat) (h : d < 10) : digitVal (digitChar d) = some d := by
  interval_cases d <;> decide

theorem digitChar_toNat (d : Nat) (h : d < 10) : (digitChar d).toNat = 48 + d := by
  interval_cases d <;> decide

theorem natDigits_digit (fuel : Nat) :
    ∀ n, ∀ c ∈ natDigits fuel n, ∃ d, d < 10 ∧ c = digitChar d := by
  induction fuel with
  | zero => intro n c hc; simp [natDigits] at hc
  | succ fuel ih =>
    intro n c hc
    unfold natDigits at hc
    split_ifs at hc with hn
    · simp only [List.mem_singleton] at hc
      exact ⟨n, hn, hc⟩
    · rcases List.mem_append.1 hc with h | h
      · exact ih _ c h
      · simp only [List.mem_singleton] at h
        exact ⟨n % 10, Nat.mod_lt _ (by decide), h⟩

theorem natDigits_ne_nil (fuel n : Nat) : natDigits (fuel + 1) n ≠ [] := by
  unfold natDigits
  split_ifs <;> simp

theorem foldl_ge (cs : List Char) :
    ∀ a : Nat, a ≤ cs.foldl (fun a c => a * 10 + (c.toNat - 48)) a := by
  induction cs with
  | nil => intro a; simp
  | cons c cs ih =>
    intro a
    rw [List.foldl_cons]
    have := ih (a * 10 + (c.toNat - 48))
    omega

theorem parseUintFrom_digits (cs : List Char) :
    ∀ a : Nat, (∀ c ∈ cs, ∃ d, d < 10 ∧ c = digitChar d) →
      cs.foldl (fun a c => a * 10 + (c.toNat - 48)) a < 2 ^ 64 →
      parseUintFrom a cs = some (cs.foldl (fun a c => a * 10 + (c.toNat - 48)) a) := by
  induction cs with
  | nil => intro a _ _; rfl
  | cons c cs ih =>
    intro a hd hlt
    obtain ⟨d, hd10, hc⟩ := hd c (List.mem_cons_self _ _)
    have hv : digitVal c = some d := by rw [hc]; exact digitVal_digitChar d hd10
    have hn : c.toNat - 48 = d := by rw [hc, digitChar_toNat d hd10]; omega
    rw [List.foldl_cons, hn] at hlt ⊢
    have hge := foldl_ge cs (a * 10 + d)
    unfold parseUintFrom
    rw [hv]
    simp only []
    have h1 : ¬ a ≥ (2 ^ 64 - 1) / 10 + 1 := by
      norm_num at hlt hge ⊢; omega
    have h2 : ¬ a * 10 + d > 2 ^ 64 - 1 := by
      norm_num at hlt hge ⊢; omega
    rw [if_neg h1, if_neg h2]
    exact ih (a * 10 + d) (fun c hc => hd c (List.mem_cons_of_mem _ hc)) hlt

theorem natDigits_value (fuel : Nat) :
    ∀ n, n < fuel → (natDigits fuel n).foldl (fun a c => a * 10 + (c.toNat - 48)) 0 = n := by
  induction fuel with
  | zero => intro n h; omega
  | succ fuel ih =>
    intro n h
    unfold natDigits
    split_ifs with hn
    · simp only [List.foldl_cons, List.foldl_nil]
      rw [digitChar_toNat n hn]; omega
    · rw [List.foldl_append, ih (n / 10) (by omega)]
      simp only [List.foldl_cons, List.foldl_nil]
      rw [digitChar_toNat (n % 10) (Nat.mod_lt _ (by decide))]
      omega

theorem parseUint_natDigits (n : Nat) (h : n < 2 ^ 64) :
    parseUint (natDigits (n + 1) n) = some n := by
  have hv := natDigits_value (n + 1) n (by omega)
  have hp := parseUintFrom_digits (natDigits (n + 1) n) 0 (natDigits_digit _ n) (by rw [hv]; exact h)
  rw [hv] at hp
  unfold parseUint
  cases hl : natDigits (n + 1) n with
  | nil => exact absurd hl (natDigits_ne_nil n n)
  | cons c cs => simp only []; rw [← hl]; exact hp

theorem Atoi_Itoa (i : Int) (hlo : -2 ^ 63 ≤ i) (hhi : i < 2 ^ 63) : Atoi (Itoa i) = (i, true) := by
  have hnat : i.natAbs < 2 ^ 64 := by omega
  have hp := parseUint_natDigits i.natAbs hnat
  obtain ⟨c, cs, hcs⟩ : ∃ c cs, natDigits (i.natAbs + 1) i.natAbs = c :: cs := by
    cases hl : natDigits (i.natAbs + 1) i.natAbs with
    | nil => exact absurd hl (natDigits_ne_nil _ _)
    | cons c cs => exact ⟨c, cs, rfl⟩
  obtain ⟨d, hd10, hc⟩ := natDigits_digit _ _ c (by rw [hcs]; exact List.mem_cons_self _ _)
  have hc45 : (c == Char.ofNat 45) = false := by
    rw [hc]; interval_cases d <;> decide
  have hc43 : (c == Char.ofNat 43) = false := by
    rw [hc]; interval_cases d <;> decide
  unfold Atoi Itoa
  by_cases hneg : i < 0
  · rw [if_pos hneg]
    simp only [beq_self_eq_true, true_or, if_true, hp]
    have h1 : ¬ i.natAbs > 2 ^ 63 := by omega
    simp [h1]
    have h2 : ¬ (9223372036854775808 < i.natAbs) := by omega
    rw [if_neg h2, abs_of_neg hneg]
    simp
  · rw [if_neg hneg, hcs]
    simp only [hc45, hc43, Bool.false_eq_true, or_self, if_false]
    rw [← hcs, hp]
    have h1 : ¬ i.natAbs ≥ 2 ^ 63 := by omega
    simp [h1]
    have h2 : ¬ (9223372036854775808 ≤ i.natAbs) := by omega
    rw [if_neg h2, abs_of_nonneg (by omega)]

theorem lookup_some_mem {α β : Type} [DecidableEq α] (l : List (α × β)) (k : α) (v : β)
    (h : l.lookup k = some v) : (k, v) ∈ l := by
  induction l with
  | nil => simp at h
  | cons e rest ih =>
    obtain ⟨k0, v0⟩ := e
    by_cases hk : k = k0
    · subst hk
      simp only [List.lookup, beq_self_eq_true, Option.some.injEq] at h
      subst h
      exact List.mem_cons_self _ _
    · have : (k == k0) = false := by simpa using hk
      simp only [List.lookup, this] at h
      exact List.mem_cons_of_mem _ (ih h)

theorem lookup_none_iff {α β : Type} [DecidableEq α] (l : List (α × β)) (k : α) :
    l.lookup k = none ↔ k ∉ l.map Prod.fst := by
  induction l with
  | nil => simp
  | cons e rest ih =>
    obtain ⟨k0, v0⟩ := e
    by_cases hk : k = k0
    · subst hk; simp [List.lookup]
    · have : (k == k0) = false := by simpa using hk
      simp only [List.lookup, this, List.map_cons, List.mem_cons, hk, false_or]
      exact ih

theorem lookup_of_mem {α β : Type} [DecidableEq α] (l : List (α × β)) (k : α) (v : β)
    (hn : (l.map Prod.fst).Nodup) (h : (k, v) ∈ l) : l.lookup k = some v := by
  induction l with
  | nil => simp at h
  | cons e rest ih =>
    obtain ⟨k0, v0⟩ := e
    simp only [List.map_cons, List.nodup_cons] at hn
    rcases List.mem_cons.1 h with heq | hm
    · simp only [Prod.mk.injEq] at heq
      obtain ⟨rfl, rfl⟩ := heq
      simp [List.lookup]
    · have hne : k ≠ k0 := by
        intro heq
        subst heq
        exact hn.1 (List.mem_map_of_mem Prod.fst hm)
      have : (k == k0) = false := by simpa using hne
      simp only [List.lookup, this]
      exact ih hn.2 hm

theorem TrimPrefix_append (c p : String) (h : HasPrefix c p = true) :
    p ++ TrimPrefix c p = c := by
  unfold TrimPrefix
  rw [if_pos h]
  unfold HasPrefix at h
  simp only [decide_eq_true_eq] at h
  obtain ⟨t, ht⟩ := h
  apply String.ext
  simp only [String.data_append]
  rw [← ht]
  simp

theorem camelValue_lookup (CamelCase : String → String) (commonPrefix : String)
    (values : List (String × Int)) (name : String) (n : Int) (hmem : (name, n) ∈ values)
    (hnames : (values.map (fun v => CamelCase v.1)).Nodup) :
    (generateEnum CamelCase commonPrefix values).CamelValue.lookup (CamelCase name) = some n := by
  apply lookup_of_mem
  · simpa [generateEnum, List.map_map, Function.comp_def] using hnames
  · simp only [generateEnum, List.mem_map]
    exact ⟨(name, n), hmem, rfl⟩

theorem camelValue_lookup_some (CamelCase : String → String) (commonPrefix : String)
    (values : List (String × Int)) (k : String) (val : Int)
    (h : (generateEnum CamelCase commonPrefix values).CamelValue.lookup k = some val) :
    ∃ w ∈ values, CamelCase w.1 = k ∧ w.2 = val := by
  have := lookup_some_mem _ _ _ h
  simp only [generateEnum, List.mem_map, Prod.mk.injEq] at this
  exact this

theorem camelValue_lookup_none (CamelCase : String → String) (commonPrefix : String)
    (values : List (String × Int)) (k : String)
    (h : ∀ w ∈ values, CamelCase w.1 ≠ k) :
    (generateEnum CamelCase commonPrefix values).CamelValue.lookup k = none := by
  rw [lookup_none_iff]
  simp only [generateEnum, List.map_map, List.mem_map, Function.comp_apply, not_exists, not_and]
  intro w hw
  exact h w hw

theorem camelName_lookup (CamelCase : String → String) (commonPrefix : String)
    (values : List (String × Int)) (name : String) (n : Int) (hmem : (name, n) ∈ values)
    (hnums : (values.map Prod.snd).Nodup) :
    (generateEnum CamelCase commonPrefix values).CamelName.lookup n = some (CamelCase name) := by
  apply lookup_of_mem
  · simpa [generateEnum, List.map_map, Function.comp_def] using hnums
  · simp only [generateEnum, List.mem_map]
    exact ⟨(name, n), hmem, rfl⟩

/-- C8 (amended). Law L1 for the generated enum code, for every enum whose
generated maps are well formed (distinct numbers, distinct camel-case names)
and every defined value `n` named `name`: `Parse` of the int32 `n` returns
`n`; `Parse` of the full camel-case name returns `n` when `CamelCase` leaves
that name unchanged; `Parse(Format(n))` returns `n` when `CamelCase` leaves the
formatted (prefix-stripped) name unchanged and that name is not the camel-case
name of a different value; `Parse` of the decimal string of `n` returns `n`
when neither `CamelCase` of that string nor the common prefix followed by it is
a camel-case name of the enum. -/
theorem Parse_Format_roundtrip (CamelCase : String → String) (commonPrefix : String)
    (values : List (String × Int)) (name : String) (n : Int)
    (hmem : (name, n) ∈ values)
    (hnames : (values.map (fun v => CamelCase v.1)).Nodup)
    (hnums : (values.map Prod.snd).Nodup) :
    Parse CamelCase (generateEnum CamelCase commonPrefix values) (ParseInput.int32 n)
        = (n, none) ∧
      (CamelCase (CamelCase name) = CamelCase name →
        Parse CamelCase (generateEnum CamelCase commonPrefix values)
          (ParseInput.str (CamelCase name)) = (n, none)) ∧
      (CamelCase (Format (generateEnum CamelCase commonPrefix values) n)
          = Format (generateEnum CamelCase commonPrefix values) n →
        (∀ w ∈ values,
          CamelCase w.1 = Format (generateEnum CamelCase commonPrefix values) n → w.2 = n) →
        Parse CamelCase (generateEnum CamelCase commonPrefix values)
          (ParseInput.str (Format (generateEnum CamelCase commonPrefix values) n)) = (n, none)) ∧
      (-2 ^ 31 ≤ n → n < 2 ^ 31 →
        (∀ w ∈ values, CamelCase w.1 ≠ CamelCase (Itoa n) ∧
          CamelCase w.1 ≠ commonPrefix ++ CamelCase (Itoa n)) →
        Parse CamelCase (generateEnum CamelCase commonPrefix values)
          (ParseInput.str (Itoa n)) = (n, none)) := by
  have hval := camelValue_lookup CamelCase commonPrefix values name n hmem hnames
  have hname := camelName_lookup CamelCase commonPrefix values name n hmem hnums
  have hpre : (generateEnum CamelCase commonPrefix values).CommonPrefix = commonPrefix := rfl
  refine ⟨?_, ?_, ?_, ?_⟩
  · simp [Parse, hname]
  · intro hidem
    simp only [Parse, parseString, hidem, hval]
  · intro hstrip hnocoll
    simp only [Parse, parseString, hstrip]
    cases hl : (generateEnum CamelCase commonPrefix values).CamelValue.lookup
        (Format (generateEnum CamelCase commonPrefix values) n) with
    | some val =>
      obtain ⟨w, hw, hw1, hw2⟩ := camelValue_lookup_some _ _ _ _ _ hl
      simp only []
      rw [← hw2, hnocoll w hw hw1]
    | none =>
      simp only []
      have hfmt : Format (generateEnum CamelCase commonPrefix values) n ≠ CamelCase name := by
        intro heq
        rw [heq, hval] at hl
        simp at hl
      have hE : EnumName (generateEnum CamelCase commonPrefix values).CamelName n
          = CamelCase name := by
        unfold EnumName; rw [hname]
      have hne : commonPrefix ≠ "" := by
        intro he
        apply hfmt
        unfold Format
        rw [hpre, hE, if_neg (not_not.2 he)]
      have hfmt2 : Format (generateEnum CamelCase commonPrefix values) n
          = TrimPrefix (CamelCase name) commonPrefix := by
        unfold Format
        rw [hpre, hE, if_pos hne]
      have hhas : HasPrefix (CamelCase name) commonPrefix = true := by
        by_contra hno
        apply hfmt
        rw [hfmt2]
        unfold TrimPrefix
        rw [if_neg hno]
      have happ : commonPrefix ++ Format (generateEnum CamelCase commonPrefix values) n
          = CamelCase name := by
        rw [hfmt2]; exact TrimPrefix_append _ _ hhas
      rw [hpre, if_pos hne, happ, hval]
  · intro hlo hhi hdec
    have hl1 : (generateEnum CamelCase commonPrefix values).CamelValue.lookup
        (CamelCase (Itoa n)) = none :=
      camelValue_lookup_none _ _ _ _ (fun w hw => (hdec w hw).1)
    have hl2 : (generateEnum CamelCase commonPrefix values).CamelValue.lookup
        (commonPrefix ++ CamelCase (Itoa n)) = none :=
      camelValue_lookup_none _ _ _ _ (fun w hw => (hdec w hw).2)
    have hat : Atoi (Itoa n) = (n, true) := Atoi_Itoa n (by omega) (by omega)
    have h32 : toInt32 n = n := by unfold toInt32; omega
    simp only [Parse, parseString, hl1, hpre, hl2, ite_self, hat, h32, hname]
    simp

/-- C8 (witness). The value `FOO_B = 2` of the sample enum. -/
theorem Parse_Format_roundtrip_witness :
    ("FOO_B", 2) ∈ exValues ∧ (exValues.map (fun v => exCamel v.1)).Nodup ∧
      (exValues.map Prod.snd).Nodup ∧
      Parse exCamel (generateEnum exCamel "Foo" exValues) (ParseInput.int32 2) = (2, none) ∧
      Parse exCamel (generateEnum exCamel "Foo" exValues) (ParseInput.str (exCamel "FOO_B"))
        = (2, none) ∧
      Parse exCamel (generateEnum exCamel "Foo" exValues)
        (ParseInput.str (Format (generateEnum exCamel "Foo" exValues) 2)) = (2, none) ∧
      Parse exCamel (generateEnum exCamel "Foo" exValues) (ParseInput.str (Itoa 2))
        = (2, none) :=
  ⟨by decide, by decide, by decide,
    (Parse_Format_roundtrip exCamel "Foo" exValues "FOO_B" 2 (by decide) (by decide)
      (by decide)).1,
    (Parse_Format_roundtrip exCamel "Foo" exValues "FOO_B" 2 (by decide) (by decide)
      (by decide)).2.1 (by decide),
    (Parse_Format_roundtrip exCamel "Foo" exValues "FOO_B" 2 (by decide) (by decide)
      (by decide)).2.2.1 (by decide) (by decide),
    (Parse_Format_roundtrip exCamel "Foo" exValues "FOO_B" 2 (by decide) (by decide)
      (by decide)).2.2.2 (by decide) (by decide) (by decide)⟩

/-- C8 (counterexample). For the enum `{FOO_A = 0; FOO_FOO_A = 1; FOO_B = 2}`
with the common prefix "Foo", the formatted string of the value 1 is "FooA",
the full camel-case name of the value 0.  Whatever `CamelCase` does, `Parse`
cannot return 1 for `Format(1)` and 0 for the camel-case name of 0; with the
sample `CamelCase` it returns 0 for `Format(1)`. -/
theorem Parse_Format_collision :
    generateEnum exCamel "Foo" exValues = exTables ∧
      Format exTables 1 = "FooA" ∧
      exTables.CamelName.lookup 0 = some "FooA" ∧
      (∀ CamelCase : String → String,
        ¬ (Parse CamelCase exTables (ParseInput.str (Format exTables 1)) = (1, none) ∧
            Parse CamelCase exTables (ParseInput.str "FooA") = (0, none))) ∧
      Parse exCamel exTables (ParseInput.str (Format exTables 1)) = (0, none) := by
  refine ⟨by decide, by decide, by decide, ?_, by decide⟩
  intro CamelCase h
  have hf : Format exTables 1 = "FooA" := by decide
  rw [hf] at h
  have := h.1.symm.trans h.2
  simp at this

end enumgen

namespace objcache

theorem pruneLoop_objs (c : Cache) (vk : List String) (l : List (String × CacheData)) :
    ∀ (objs notify : List (String × CacheData)),
      (pruneLoop c vk l (objs, notify)).1
        = objs.filter (fun e => decide (e.1 ∈ vk) || decide (e.1 ∉ l.map Prod.fst)) := by
  induction l with
  | nil => intro objs notify; simp [pruneLoop]
  | cons x rest ih =>
    obtain ⟨key, data⟩ := x
    intro objs notify
    unfold pruneLoop
    by_cases hv : key ∈ vk
    · rw [if_pos hv, ih]
      apply List.filter_congr
      intro e _
      by_cases he : e.1 = key
      · simp [he, hv]
      · have hb : (e.1 == key) = false := by simpa using he
        simp [he, hb]
    · rw [if_neg hv, ih]
      unfold mapDelete
      rw [List.filter_filter]
      apply List.filter_congr
      intro e _
      by_cases he : e.1 = key
      · simp [he, hv]
      · have hb : (e.1 == key) = false := by simpa using he
        simp [he, hb]

theorem pruneLoop_valid (c : Cache) (vk : List String) (l : List (String × CacheData))
    (h : ∀ e ∈ l, e.1 ∈ vk) :
    ∀ acc, pruneLoop c vk l acc = acc := by
  induction l with
  | nil => intro acc; rfl
  | cons x rest ih =>
    obtain ⟨key, data⟩ := x
    rintro ⟨objs, notify⟩
    unfold pruneLoop
    rw [if_pos (h (key, data) (List.mem_cons_self _ _))]
    exact ih (fun e he => h e (List.mem_cons_of_mem _ he)) _

theorem lookup_filter_keys {β : Type} (m : List (String × β)) (vk : List String) (k : String) :
    (m.filter (fun e => decide (e.1 ∈ vk))).lookup k = if k ∈ vk then m.lookup k else none := by
  induction m with
  | nil => simp
  | cons x rest ih =>
    obtain ⟨k0, v⟩ := x
    by_cases h0 : k0 ∈ vk
    · rw [List.filter_cons_of_pos (by simpa using h0)]
      by_cases hk : k = k0
      · subst hk; simp [List.lookup, h0]
      · have : (k == k0) = false := by simpa using hk
        simp only [List.lookup, this]
        exact ih
    · rw [List.filter_cons_of_neg (by simpa using h0)]
      by_cases hk : k = k0
      · subst hk; rw [ih]; simp [h0]
      · have : (k == k0) = false := by simpa using hk
        simp only [List.lookup, this]
        exact ih

theorem Prune_objs (c : Cache) (vk : List String) :
    (Prune c vk).1 = { c with Objs := c.Objs.filter (fun e => decide (e.1 ∈ vk)) } := by
  unfold Prune
  simp only []
  rw [pruneLoop_objs]
  congr 1
  apply List.filter_congr
  intro e he
  have : e.1 ∈ c.Objs.map Prod.fst := List.mem_map_of_mem Prod.fst he
  simp [this]

/-- C11. `Cache.Prune` is idempotent: after `Prune(validKeys)` the cache holds
exactly the previous entries whose key is in `validKeys`, with their objects
and mod-revisions, and nothing else of the cache has changed; a second
`Prune(validKeys)` leaves the cache as it is and calls no notify, deleted,
deleted-key or key-watcher callback. -/
theorem Prune_idempotent (c : Cache) (validKeys : List String) :
    (Prune c validKeys).1
        = { c with Objs := c.Objs.filter (fun e => decide (e.1 ∈ validKeys)) } ∧
      (∀ k, (Prune c validKeys).1.Objs.lookup k
        = if k ∈ validKeys then c.Objs.lookup k else none) ∧
      Prune (Prune c validKeys).1 validKeys = ((Prune c validKeys).1, []) := by
  refine ⟨Prune_objs c validKeys, ?_, ?_⟩
  · intro k
    rw [Prune_objs]
    exact lookup_filter_keys c.Objs validKeys k
  · rw [Prune_objs]
    unfold Prune
    simp only []
    rw [pruneLoop_valid]
    · simp
    · intro e he
      have := (List.mem_filter.1 he).2
      simpa using this

end objcache

namespace objcache

/-- C12 (the code at the failing input). With a watcher on "k1" and no notify,
deleted or deleted-key callback registered, `Prune` removes the object of "k1"
and calls no callback at all: the watcher is not fired.  `SyncListEnd` and
`Flush` fire it for the same removal, and so does `Prune` once a deleted-key
callback is registered. -/
theorem Prune_skips_key_watchers :
    watchersOf exCache "k1" = [⟨0, 100⟩] ∧
      exCache.Objs.lookup "k1" = some ⟨some exObj1, 3⟩ ∧
      (Prune exCache ["k2"]).1.Objs.lookup "k1" = none ∧
      (Prune exCache ["k2"]).2 = [] ∧
      (SyncListEnd { exCache with SyncList := some ["k2"] }).2 = [Event.keyWatcher ⟨0, 100⟩] ∧
      (Flush true { exCache with FlushAll := true } 0).map Prod.snd
        = some [Event.keyWatcher ⟨0, 100⟩] ∧
      (Prune exCacheCb ["k2"]).2 = [Event.deletedKey 200 "k1", Event.keyWatcher ⟨0, 100⟩] := by
  decide

end objcache

namespace objcache

theorem lookup_mapSet {β : Type} (m : List (String × β)) (k k' : String) (v : β) :
    (mapSet m k v).lookup k' = if k' = k then some v else m.lookup k' := by
  induction m with
  | nil =>
    by_cases h : k' = k
    · subst h; simp [mapSet, List.lookup]
    · have hb : (k' == k) = false := by simpa using h
      simp [mapSet, List.lookup, hb, h]
  | cons x rest ih =>
    obtain ⟨k0, v0⟩ := x
    unfold mapSet
    by_cases h0 : k0 = k
    · rw [if_pos h0]
      subst h0
      by_cases h : k' = k0
      · subst h; simp [List.lookup]
      · have hb : (k' == k0) = false := by simpa using h
        simp [List.lookup, hb, h]
    · rw [if_neg h0]
      by_cases h : k' = k0
      · subst h; simp [List.lookup, h0]
      · have hb : (k' == k0) = false := by simpa using h
        simp only [List.lookup, hb]
        exact ih

theorem lookup_mapDelete {β : Type} (m : List (String × β)) (k k' : String) :
    (mapDelete m k).lookup k' = if k' = k then none else m.lookup k' := by
  unfold mapDelete
  induction m with
  | nil => simp
  | cons x rest ih =>
    obtain ⟨k0, v⟩ := x
    by_cases h0 : k0 = k
    · rw [List.filter_cons_of_neg (by simpa using h0)]
      subst h0
      by_cases hk : k' = k0
      · subst hk; rw [ih]; simp
      · have hb : (k' == k0) = false := by simpa using hk
        simp only [List.lookup, hb]
        exact ih
    · rw [List.filter_cons_of_pos (by simpa using h0)]
      by_cases hk : k' = k0
      · subst hk; simp [List.lookup, h0]
      · have hb : (k' == k0) = false := by simpa using hk
        simp only [List.lookup, hb]
        exact ih

theorem watchersOf_WatchKey (c : Cache) (key : String) (cb : Nat) (k : String) :
    watchersOf (WatchKey c key cb).1 k
      = if k = key then watchersOf c key ++ [⟨c.nextPtr, cb⟩] else watchersOf c k := by
  unfold watchersOf WatchKey
  simp only []
  rw [lookup_mapSet]
  split_ifs <;> rfl

theorem removeWatcher_none (ptr : Nat) (l : List KeyWatcher) :
    removeWatcher ptr l = none ↔ ∀ x ∈ l, x.ptr ≠ ptr := by
  induction l with
  | nil => simp [removeWatcher]
  | cons w rest ih =>
    unfold removeWatcher
    by_cases h : w.ptr ≠ ptr
    · rw [if_pos h]
      simp only [Option.map_eq_none', ih, List.mem_cons, forall_eq_or_imp]
      exact ⟨fun hr => ⟨h, hr⟩, fun hr => hr.2⟩
    · rw [if_neg h]
      constructor
      · intro hn
        cases hl : rest.getLast? <;> rw [hl] at hn <;> simp at hn
      · intro hall
        exact absurd (hall w (List.mem_cons_self _ _)) h

theorem removeWatcher_some (ptr : Nat) (l : List KeyWatcher)
    (hnd : (l.map KeyWatcher.ptr).Nodup) :
    ∀ l2, removeWatcher ptr l = some l2 →
      l2.Perm (l.filter (fun x => decide (x.ptr ≠ ptr))) ∧ l2.length + 1 = l.length := by
  induction l with
  | nil => intro l2 h; simp [removeWatcher] at h
  | cons w rest ih =>
    intro l2 h
    rw [List.map_cons, List.nodup_cons] at hnd
    unfold removeWatcher at h
    by_cases hw : w.ptr ≠ ptr
    · rw [if_pos hw] at h
      cases hr : removeWatcher ptr rest with
      | none => rw [hr] at h; simp at h
      | some l3 =>
        rw [hr] at h
        simp only [Option.map_some', Option.some.injEq] at h
        subst h
        obtain ⟨hp, hl⟩ := ih hnd.2 l3 hr
        rw [List.filter_cons_of_pos (by simpa using hw)]
        exact ⟨List.Perm.cons w hp, by simp [hl]⟩
    · rw [if_neg hw] at h
      have hw2 : w.ptr = ptr := not_not.1 hw
      have hrest : rest.filter (fun x => decide (x.ptr ≠ ptr)) = rest := by
        rw [List.filter_eq_self]
        intro x hx
        have : x.ptr ≠ w.ptr := by
          intro he
          exact hnd.1 (he ▸ List.mem_map_of_mem KeyWatcher.ptr hx)
        simpa [hw2] using this
      rw [List.filter_cons_of_neg (by simpa using hw2), hrest]
      cases hl : rest.getLast? with
      | none =>
        rw [hl] at h
        simp only [Option.some.injEq] at h
        subst h
        have : rest = [] := by simpa using hl
        subst this
        simp
      | some last =>
        rw [hl] at h
        simp only [Option.some.injEq] at h
        subst h
        have hne : rest ≠ [] := by
          intro he; subst he; simp at hl
        have hd : rest = rest.dropLast ++ [last] := by
          have h1 := List.dropLast_append_getLast? last (by simpa using hl)
          exact h1.symm
        constructor
        · have hp : (last :: rest.dropLast).Perm (rest.dropLast ++ [last]) :=
            (List.perm_append_singleton last rest.dropLast).symm
          rw [← hd] at hp
          exact hp
        · have hlen := congrArg List.length hd
          simp only [List.length_append, List.length_cons, List.length_nil] at hlen
          simp only [List.length_cons]
          omega

theorem removeWatcher_subset (ptr : Nat) (l : List KeyWatcher) :
    ∀ l2, removeWatcher ptr l = some l2 → ∀ x ∈ l2, x ∈ l := by
  induction l with
  | nil => intro l2 h; simp [removeWatcher] at h
  | cons w rest ih =>
    intro l2 h x hx
    unfold removeWatcher at h
    by_cases hw : w.ptr ≠ ptr
    · rw [if_pos hw] at h
      cases hr : removeWatcher ptr rest with
      | none => rw [hr] at h; simp at h
      | some l3 =>
        rw [hr] at h
        simp only [Option.map_some', Option.some.injEq] at h
        subst h
        rcases List.mem_cons.1 hx with hx | hx
        · subst hx; exact List.mem_cons_self _ _
        · exact List.mem_cons_of_mem _ (ih l3 hr x hx)
    · rw [if_neg hw] at h
      cases hl : rest.getLast? with
      | none =>
        rw [hl] at h
        simp only [Option.some.injEq] at h
        subst h
        simp at hx
      | some last =>
        rw [hl] at h
        simp only [Option.some.injEq] at h
        subst h
        apply List.mem_cons_of_mem
        rcases List.mem_cons.1 hx with hx | hx
        · subst hx; exact List.mem_of_getLast?_eq_some hl
        · exact List.dropLast_subset rest hx

/-- The four ways through the cancel function. -/
theorem cancelWatch_cases (key : String) (ptr : Nat) (c : Cache) :
    (c.KeyWatchers.lookup key = none ∧ cancelWatch key ptr c = c) ∨
      (∃ list, c.KeyWatchers.lookup key = some list ∧ removeWatcher ptr list = none ∧
        cancelWatch key ptr c = c) ∨
      (∃ list l, c.KeyWatchers.lookup key = some list ∧ removeWatcher ptr list = some l ∧
        list.length = 1 ∧
        cancelWatch key ptr c = { c with KeyWatchers := mapDelete c.KeyWatchers key }) ∨
      (∃ list l, c.KeyWatchers.lookup key = some list ∧ removeWatcher ptr list = some l ∧
        list.length ≠ 1 ∧
        cancelWatch key ptr c = { c with KeyWatchers := mapSet c.KeyWatchers key l }) := by
  cases hl : c.KeyWatchers.lookup key with
  | none => exact Or.inl ⟨rfl, by simp [cancelWatch, hl]⟩
  | some list =>
    cases hr : removeWatcher ptr list with
    | none => exact Or.inr (Or.inl ⟨list, rfl, hr, by simp [cancelWatch, hl, hr]⟩)
    | some l =>
      by_cases h1 : list.length = 1
      · exact Or.inr (Or.inr (Or.inl ⟨list, l, rfl, hr, h1, by simp [cancelWatch, hl, hr, h1]⟩))
      · exact Or.inr (Or.inr (Or.inr ⟨list, l, rfl, hr, h1, by simp [cancelWatch, hl, hr, h1]⟩))

theorem cancelWatch_fields (key : String) (ptr : Nat) (c : Cache) :
    cancelWatch key ptr c = { c with KeyWatchers := (cancelWatch key ptr c).KeyWatchers } := by
  rcases cancelWatch_cases key ptr c with ⟨_, he⟩ | ⟨_, _, _, he⟩ | ⟨_, _, _, _, _, he⟩ |
    ⟨_, _, _, _, _, he⟩ <;> rw [he]

theorem watchersOf_cancelWatch_ne (key : String) (ptr : Nat) (c : Cache) (k : String)
    (hk : k ≠ key) : watchersOf (cancelWatch key ptr c) k = watchersOf c k := by
  rcases cancelWatch_cases key ptr c with ⟨_, he⟩ | ⟨_, _, _, he⟩ | ⟨_, _, _, _, _, he⟩ |
    ⟨_, _, _, _, _, he⟩ <;> rw [he]
  · simp [watchersOf, lookup_mapDelete, hk]
  · simp [watchersOf, lookup_mapSet, hk]

theorem watchersOf_cancelWatch_eq (key : String) (ptr : Nat) (c : Cache)
    (hnd : ((watchersOf c key).map KeyWatcher.ptr).Nodup) :
    (watchersOf (cancelWatch key ptr c) key).Perm
      ((watchersOf c key).filter (fun x => decide (x.ptr ≠ ptr))) := by
  rcases cancelWatch_cases key ptr c with ⟨hl, he⟩ | ⟨list, hl, hr, he⟩ |
    ⟨list, l, hl, hr, h1, he⟩ | ⟨list, l, hl, hr, h1, he⟩ <;> rw [he]
  · simp [watchersOf, hl]
  · have hw : watchersOf c key = list := by simp [watchersOf, hl]
    rw [hw]
    have := (removeWatcher_none ptr list).1 hr
    rw [List.filter_eq_self.2 (fun x hx => by simpa using this x hx)]
  · have hw : watchersOf c key = list := by simp [watchersOf, hl]
    rw [hw] at hnd ⊢
    obtain ⟨hp, hlen⟩ := removeWatcher_some ptr list hnd l hr
    have hl0 : l = [] := List.length_eq_zero.1 (by omega)
    subst hl0
    have hw2 : watchersOf { c with KeyWatchers := mapDelete c.KeyWatchers key } key = [] := by
      simp [watchersOf, lookup_mapDelete]
    rw [hw2]
    exact hp
  · have hw : watchersOf c key = list := by simp [watchersOf, hl]
    rw [hw] at hnd ⊢
    obtain ⟨hp, hlen⟩ := removeWatcher_some ptr list hnd l hr
    have hw2 : watchersOf { c with KeyWatchers := mapSet c.KeyWatchers key l } key = l := by
      simp [watchersOf, lookup_mapSet]
    rw [hw2]
    exact hp

theorem mem_watchersOf_cancelWatch (key : String) (ptr : Nat) (c : Cache) (k : String)
    (x : KeyWatcher) (hx : x ∈ watchersOf (cancelWatch key ptr c) k) : x ∈ watchersOf c k := by
  by_cases hk : k = key
  · subst hk
    rcases cancelWatch_cases k ptr c with ⟨hl, he⟩ | ⟨list, hl, hr, he⟩ |
      ⟨list, l, hl, hr, h1, he⟩ | ⟨list, l, hl, hr, h1, he⟩ <;> rw [he] at hx
    · exact hx
    · exact hx
    · have hw2 : watchersOf { c with KeyWatchers := mapDelete c.KeyWatchers k } k = [] := by
        simp [watchersOf, lookup_mapDelete]
      rw [hw2] at hx
      simp at hx
    · have hw2 : watchersOf { c with KeyWatchers := mapSet c.KeyWatchers k l } k = l := by
        simp [watchersOf, lookup_mapSet]
      rw [hw2] at hx
      have := removeWatcher_subset ptr list l hr x hx
      simpa [watchersOf, hl] using this
  · rwa [watchersOf_cancelWatch_ne key ptr c k hk] at hx

theorem cancelWatch_absent (key : String) (ptr : Nat) (c : Cache)
    (h : ∀ x ∈ watchersOf c key, x.ptr ≠ ptr) : cancelWatch key ptr c = c := by
  rcases cancelWatch_cases key ptr c with ⟨hl, he⟩ | ⟨list, hl, hr, he⟩ |
    ⟨list, l, hl, hr, h1, he⟩ | ⟨list, l, hl, hr, h1, he⟩
  · exact he
  · exact he
  · have hw : watchersOf c key = list := by simp [watchersOf, hl]
    rw [hw] at h
    rw [(removeWatcher_none ptr list).2 h] at hr
    simp at hr
  · have hw : watchersOf c key = list := by simp [watchersOf, hl]
    rw [hw] at h
    rw [(removeWatcher_none ptr list).2 h] at hr
    simp at hr

theorem nextPtr_cancelWatch (key : String) (ptr : Nat) (c : Cache) :
    (cancelWatch key ptr c).nextPtr = c.nextPtr := by
  rw [cancelWatch_fields]

theorem Update_watchers (c : Cache) (obj : Obj) (modRev : Int) :
    (Update c obj modRev).1.KeyWatchers = c.KeyWatchers ∧
      (Update c obj modRev).1.nextPtr = c.nextPtr := by
  unfold Update UpdateModFunc
  simp

theorem Delete_watchers (c : Cache) (obj : Obj) (modRev : Int) :
    (Delete c obj modRev).1.KeyWatchers = c.KeyWatchers ∧
      (Delete c obj modRev).1.nextPtr = c.nextPtr := by
  unfold Delete DeleteCondFunc
  cases c.Objs.lookup obj.Key <;> simp

theorem Prune_watchers (c : Cache) (vk : List String) :
    (Prune c vk).1.KeyWatchers = c.KeyWatchers ∧ (Prune c vk).1.nextPtr = c.nextPtr := by
  rw [Prune_objs]
  exact ⟨rfl, rfl⟩

/-- What a call does to the watcher lists: `WatchKey` and cancel as above, the
other calls nothing. -/
theorem step_cases (c : Cache) (op : Op) :
    (∃ key cb, step c op = (WatchKey c key cb).1) ∨
      (∃ key ptr, step c op = cancelWatch key ptr c) ∨
      ((∀ k, watchersOf (step c op) k = watchersOf c k) ∧ (step c op).nextPtr = c.nextPtr) := by
  cases op with
  | watch key cb => exact Or.inl ⟨key, cb, rfl⟩
  | cancel key ptr => exact Or.inr (Or.inl ⟨key, ptr, rfl⟩)
  | update obj modRev =>
    refine Or.inr (Or.inr ⟨fun k => ?_, (Update_watchers c obj modRev).2⟩)
    simp only [watchersOf, step, (Update_watchers c obj modRev).1]
  | delete obj modRev =>
    refine Or.inr (Or.inr ⟨fun k => ?_, (Delete_watchers c obj modRev).2⟩)
    simp only [watchersOf, step, (Delete_watchers c obj modRev).1]
  | prune vk =>
    refine Or.inr (Or.inr ⟨fun k => ?_, (Prune_watchers c vk).2⟩)
    simp only [watchersOf, step, (Prune_watchers c vk).1]

theorem wf_step (c : Cache) (op : Op) (h : c.wf) : (step c op).wf := by
  rcases step_cases c op with ⟨key, cb, he⟩ | ⟨key, ptr, he⟩ | ⟨hw, hn⟩
  · rw [he]
    intro k
    rw [watchersOf_WatchKey]
    have hn : (WatchKey c key cb).1.nextPtr = c.nextPtr + 1 := rfl
    rw [hn]
    by_cases hk : k = key
    · rw [if_pos hk]
      constructor
      · intro x hx
        rcases List.mem_append.1 hx with hx | hx
        · exact Nat.lt_succ_of_lt ((h key).1 x hx)
        · have : x = ⟨c.nextPtr, cb⟩ := by simpa using hx
          subst this
          exact Nat.lt_succ_self _
      · rw [List.map_append, List.nodup_append]
        refine ⟨(h key).2, by simp, ?_⟩
        intro p hp1 hp2
        have hp3 : p = c.nextPtr := by simpa using hp2
        obtain ⟨x, hx, hxp⟩ := List.mem_map.1 hp1
        have := (h key).1 x hx
        omega
    · rw [if_neg hk]
      exact ⟨fun x hx => Nat.lt_succ_of_lt ((h k).1 x hx), (h k).2⟩
  · rw [he]
    intro k
    rw [nextPtr_cancelWatch]
    refine ⟨fun x hx => (h k).1 x (mem_watchersOf_cancelWatch key ptr c k x hx), ?_⟩
    by_cases hk : k = key
    · subst hk
      have hp := watchersOf_cancelWatch_eq k ptr c (h k).2
      have hnd : ((watchersOf c k).filter (fun x => decide (x.ptr ≠ ptr))).map
          KeyWatcher.ptr |>.Nodup :=
        List.Nodup.sublist (List.Sublist.map _ (List.filter_sublist _)) (h k).2
      exact (List.Perm.nodup_iff (List.Perm.map _ hp)).2 hnd
    · rw [watchersOf_cancelWatch_ne key ptr c k hk]
      exact (h k).2
  · intro k
    rw [hw k, hn]
    exact h k

theorem wf_run (ops : List Op) : ∀ c : Cache, c.wf → (run ops c).wf := by
  induction ops with
  | nil => intro c h; exact h
  | cons op rest ih => intro c h; exact ih (step c op) (wf_step c op h)

theorem owns_step (c : Cache) (op : Op) (w : KeyWatcher) (key : String) (h : c.owns w key) :
    (step c op).owns w key := by
  rcases step_cases c op with ⟨k1, cb, he⟩ | ⟨k1, ptr, he⟩ | ⟨hw, hn⟩
  · rw [he]
    refine ⟨Nat.lt_succ_of_lt h.1, ?_⟩
    intro k x hx hp
    rw [watchersOf_WatchKey] at hx
    by_cases hk : k = k1
    · rw [if_pos hk] at hx
      rcases List.mem_append.1 hx with hx | hx
      · exact h.2 k x (hk ▸ hx) hp
      · have : x = ⟨c.nextPtr, cb⟩ := by simpa using hx
        subst this
        have := h.1
        simp only at hp
        omega
    · rw [if_neg hk] at hx
      exact h.2 k x hx hp
  · rw [he]
    refine ⟨by rw [nextPtr_cancelWatch]; exact h.1, ?_⟩
    intro k x hx hp
    exact h.2 k x (mem_watchersOf_cancelWatch k1 ptr c k x hx) hp
  · refine ⟨by rw [hn]; exact h.1, ?_⟩
    intro k x hx hp
    rw [hw k] at hx
    exact h.2 k x hx hp

theorem owns_run (ops : List Op) (w : KeyWatcher) (key : String) :
    ∀ c : Cache, c.owns w key → (run ops c).owns w key := by
  induction ops with
  | nil => intro c h; exact h
  | cons op rest ih => intro c h; exact ih (step c op) (owns_step c op w key h)

theorem owns_WatchKey (c : Cache) (key : String) (cb : Nat) (h : c.wf) :
    (WatchKey c key cb).1.owns (WatchKey c key cb).2 key := by
  refine ⟨Nat.lt_succ_self _, ?_⟩
  intro k x hx hp
  rw [watchersOf_WatchKey] at hx
  have hp2 : x.ptr = c.nextPtr := hp
  by_cases hk : k = key
  · rw [if_pos hk] at hx
    rcases List.mem_append.1 hx with hx | hx
    · have := (h key).1 x hx
      omega
    · exact ⟨hk, by simpa using hx⟩
  · rw [if_neg hk] at hx
    have := (h k).1 x hx
    omega

theorem gone_step (p : Nat) (c : Cache) (op : Op) (h1 : p < c.nextPtr)
    (h2 : ∀ k x, x ∈ watchersOf c k → x.ptr ≠ p) :
    p < (step c op).nextPtr ∧ ∀ k x, x ∈ watchersOf (step c op) k → x.ptr ≠ p := by
  rcases step_cases c op with ⟨k1, cb, he⟩ | ⟨k1, ptr, he⟩ | ⟨hw, hn⟩
  · rw [he]
    refine ⟨Nat.lt_succ_of_lt h1, ?_⟩
    intro k x hx
    rw [watchersOf_WatchKey] at hx
    by_cases hk : k = k1
    · rw [if_pos hk] at hx
      rcases List.mem_append.1 hx with hx | hx
      · exact h2 k1 x hx
      · have : x = ⟨c.nextPtr, cb⟩ := by simpa using hx
        subst this
        simp only
        omega
    · rw [if_neg hk] at hx
      exact h2 k x hx
  · rw [he]
    refine ⟨by rw [nextPtr_cancelWatch]; exact h1, ?_⟩
    intro k x hx
    exact h2 k x (mem_watchersOf_cancelWatch k1 ptr c k x hx)
  · refine ⟨by rw [hn]; exact h1, ?_⟩
    intro k x hx
    rw [hw k] at hx
    exact h2 k x hx

theorem gone_run (p : Nat) (ops : List Op) :
    ∀ c : Cache, p < c.nextPtr → (∀ k x, x ∈ watchersOf c k → x.ptr ≠ p) →
      ∀ k x, x ∈ watchersOf (run ops c) k → x.ptr ≠ p := by
  induction ops with
  | nil => intro c _ h2; exact h2
  | cons op rest ih =>
    intro c h1 h2
    exact ih (step c op) (gone_step p c op h1 h2).1 (gone_step p c op h1 h2).2

theorem filter_ptr_eq_erase (w : KeyWatcher) (l : List KeyWatcher)
    (hnd : (l.map KeyWatcher.ptr).Nodup) (hw : ∀ x ∈ l, x.ptr = w.ptr → x = w) :
    l.filter (fun x => decide (x.ptr ≠ w.ptr)) = l.erase w := by
  induction l with
  | nil => rfl
  | cons x rest ih =>
    rw [List.map_cons, List.nodup_cons] at hnd
    by_cases hx : x.ptr = w.ptr
    · have hxw : x = w := hw x (List.mem_cons_self _ _) hx
      subst hxw
      rw [List.filter_cons_of_neg (by simp), List.erase_cons_head]
      rw [List.filter_eq_self]
      intro y hy
      have : y.ptr ≠ x.ptr := by
        intro he
        exact hnd.1 (he ▸ List.mem_map_of_mem KeyWatcher.ptr hy)
      simpa using this
    · have hne : x ≠ w := by intro he; exact hx (he ▸ rfl)
      rw [List.filter_cons_of_pos (by simpa using hx), List.erase_cons_tail (by simpa using hne)]
      rw [ih hnd.2 (fun y hy => hw y (List.mem_cons_of_mem _ hy))]

end objcache

namespace objcache

theorem exCache_wf : exCache.wf := by
  intro k
  by_cases hk : k = "k1"
  · subst hk
    have : watchersOf exCache "k1" = [⟨0, 100⟩] := by decide
    rw [this]
    decide
  · have hb : (k == "k1") = false := by simpa using hk
    have : watchersOf exCache k = [] := by
      simp [watchersOf, exCache, List.lookup, hb]
    rw [this]
    simp

/-- C13. The cancel function `WatchKey` returns is precise and idempotent.  Let
`WatchKey(key, cb)` be called on a well-formed cache, let any calls of
`WatchKey`, cancel functions, `Update`, `Delete` and `Prune` follow, and let the
returned cancel function then run.  The watchers of `key` are afterwards the
ones before without the watcher of this call (in some order: the last watcher
takes the freed place), that watcher is registered no more, the watchers of
every other key are as before, and nothing else in the cache has changed.
After any further calls, running the cancel function again leaves the cache
as it is. -/
theorem cancelWatch_idempotent_precise (c : Cache) (hwf : c.wf) (key : String) (cb : Nat)
    (ops : List Op) (c2 c3 : Cache) (h2 : c2 = run ops (WatchKey c key cb).1)
    (h3 : c3 = cancelWatch key (WatchKey c key cb).2.ptr c2) :
    (watchersOf c3 key).Perm ((watchersOf c2 key).erase (WatchKey c key cb).2) ∧
      (WatchKey c key cb).2 ∉ watchersOf c3 key ∧
      (∀ k, k ≠ key → watchersOf c3 k = watchersOf c2 k) ∧
      c3 = { c2 with KeyWatchers := c3.KeyWatchers } ∧
      ∀ later : List Op,
        cancelWatch key (WatchKey c key cb).2.ptr (run later c3) = run later c3 := by
  have hwf1 : (WatchKey c key cb).1.wf := wf_step c (Op.watch key cb) hwf
  have hwf2 : c2.wf := h2 ▸ wf_run ops _ hwf1
  have hown : c2.owns (WatchKey c key cb).2 key :=
    h2 ▸ owns_run ops _ key _ (owns_WatchKey c key cb hwf)
  have hpf := watchersOf_cancelWatch_eq key (WatchKey c key cb).2.ptr c2 (hwf2 key).2
  rw [← h3] at hpf
  have hgone : ∀ k x, x ∈ watchersOf c3 k → x.ptr ≠ (WatchKey c key cb).2.ptr := by
    intro k x hx
    by_cases hk : k = key
    · subst hk
      have := (List.mem_filter.1 (hpf.mem_iff.1 hx)).2
      simpa using this
    · rw [h3, watchersOf_cancelWatch_ne key _ c2 k hk] at hx
      intro hp
      exact hk (hown.2 k x hx hp).1
  refine ⟨?_, ?_, ?_, ?_, ?_⟩
  · rw [← filter_ptr_eq_erase _ _ (hwf2 key).2 (fun x hx hp => (hown.2 key x hx hp).2)]
    exact hpf
  · intro hmem
    exact hgone key _ hmem rfl
  · intro k hk
    rw [h3]
    exact watchersOf_cancelWatch_ne key _ c2 k hk
  · rw [h3]
    exact cancelWatch_fields key _ c2
  · intro later
    apply cancelWatch_absent
    have hn : (WatchKey c key cb).2.ptr < c3.nextPtr := by
      rw [h3, nextPtr_cancelWatch]
      exact hown.1
    exact gone_run _ later c3 hn hgone key

theorem cancelWatch_idempotent_precise_witness :
    exCache.wf ∧
      (watchersOf exCancelled "k1").Perm
        ((watchersOf exWatched "k1").erase (WatchKey exCache "k1" 101).2) ∧
      (WatchKey exCache "k1" 101).2 ∉ watchersOf exCancelled "k1" ∧
      (∀ k, k ≠ "k1" → watchersOf exCancelled k = watchersOf exWatched k) ∧
      exCancelled = { exWatched with KeyWatchers := exCancelled.KeyWatchers } ∧
      ∀ later : List Op,
        cancelWatch "k1" (WatchKey exCache "k1" 101).2.ptr (run later exCancelled)
          = run later exCancelled :=
  ⟨exCache_wf,
    cancelWatch_idempotent_precise exCache exCache_wf "k1" 101
      [Op.update exObj2 5, Op.watch "k2" 102] exWatched exCancelled rfl rfl⟩

end objcache

namespace objcache

theorem SyncUpdate_some (c : Cache) (obj : Obj) (modRev : Int) :
    (SyncUpdate c (some obj) modRev).1
      = { c with
          Objs := mapSet c.Objs obj.Key ⟨some obj, modRev⟩,
          SyncList := c.SyncList.map (fun l => if obj.Key ∈ l then l else l ++ [obj.Key]) } := by
  simp [SyncUpdate, Update, UpdateModFunc]

theorem lastUpdate_cons (u : Obj × Int) (rest : List (Obj × Int)) (k : String) :
    lastUpdate (u :: rest) k
      = match lastUpdate rest k with
        | some v => some v
        | none => if u.1.Key = k then some u else none := rfl

theorem lastUpdate_none (ups : List (Obj × Int)) (k : String) :
    lastUpdate ups k = none ↔ ∀ u ∈ ups, u.1.Key ≠ k := by
  induction ups with
  | nil => simp [lastUpdate]
  | cons u rest ih =>
    rw [lastUpdate_cons]
    cases hr : lastUpdate rest k with
    | some v =>
      simp only [false_iff, reduceCtorEq]
      intro hall
      have := ih.2 (fun x hx => hall x (List.mem_cons_of_mem _ hx))
      rw [hr] at this
      exact Option.noConfusion this
    | none =>
      have hrest := ih.1 hr
      simp only []
      by_cases hk : u.1.Key = k
      · simp only [if_pos hk, false_iff, reduceCtorEq]
        intro hall
        exact hall u (List.mem_cons_self _ _) hk
      · simp only [if_neg hk, true_iff]
        intro x hx
        rcases List.mem_cons.1 hx with hx | hx
        · subst hx; exact hk
        · exact hrest x hx

theorem syncAll_spec (ups : List (Obj × Int)) :
    ∀ (c : Cache) (l0 : List String), c.SyncList = some l0 →
      ∃ l1, (syncAll c ups).SyncList = some l1 ∧
        (∀ k, k ∈ l1 ↔ k ∈ l0 ∨ lastUpdate ups k ≠ none) ∧
        (∀ k, (syncAll c ups).Objs.lookup k
          = match lastUpdate ups k with
            | some u => some ⟨some u.1, u.2⟩
            | none => c.Objs.lookup k) ∧
        syncAll c ups
          = { c with Objs := (syncAll c ups).Objs, SyncList := (syncAll c ups).SyncList } := by
  induction ups with
  | nil =>
    intro c l0 h0
    exact ⟨l0, h0, by simp [lastUpdate], by simp [lastUpdate, syncAll], rfl⟩
  | cons u rest ih =>
    intro c l0 h0
    have hs : syncAll c (u :: rest) = syncAll (SyncUpdate c (some u.1) u.2).1 rest := rfl
    rw [hs]
    have hl : (SyncUpdate c (some u.1) u.2).1.SyncList
        = some (if u.1.Key ∈ l0 then l0 else l0 ++ [u.1.Key]) := by
      rw [SyncUpdate_some]; simp [h0]
    obtain ⟨l1, h1, hmem, hlook, hrest⟩ := ih _ _ hl
    refine ⟨l1, h1, ?_, ?_, ?_⟩
    · intro k
      rw [hmem k, lastUpdate_cons]
      cases hr : lastUpdate rest k with
      | some v =>
        simp
      | none =>
        simp only [ne_eq, not_true_eq_false, or_false]
        by_cases hk : u.1.Key = k
        · subst hk
          by_cases hin : u.1.Key ∈ l0 <;> simp [hin]
        · have hk2 : k ≠ u.1.Key := fun h => hk h.symm
          by_cases hin : u.1.Key ∈ l0 <;> simp [hin, hk, hk2]
    · intro k
      rw [hlook k, lastUpdate_cons]
      cases hr : lastUpdate rest k with
      | some v => rfl
      | none =>
        simp only []
        rw [SyncUpdate_some]
        simp only []
        rw [lookup_mapSet]
        by_cases hk : u.1.Key = k
        · subst hk; simp
        · have hk2 : k ≠ u.1.Key := fun h => hk h.symm
          simp [hk, hk2]
    · rw [hrest]
      rw [SyncUpdate_some]

theorem syncEndLoop_objs (c : Cache) (l : List (String × CacheData)) :
    ∀ (objs deleted : List (String × CacheData)),
      (syncEndLoop c l (objs, deleted)).1
        = objs.filter (fun e => decide (e.1 ∈ c.SyncList.getD []) ||
            decide (e.1 ∉ l.map Prod.fst)) := by
  induction l with
  | nil => intro objs deleted; simp [syncEndLoop]
  | cons x rest ih =>
    obtain ⟨key, data⟩ := x
    intro objs deleted
    unfold syncEndLoop
    by_cases hv : key ∈ c.SyncList.getD []
    · rw [if_pos hv, ih]
      apply List.filter_congr
      intro e _
      by_cases he : e.1 = key
      · simp [he, hv]
      · have hb : (e.1 == key) = false := by simpa using he
        simp [he, hb]
    · rw [if_neg hv, ih]
      unfold mapDelete
      rw [List.filter_filter]
      apply List.filter_congr
      intro e _
      by_cases he : e.1 = key
      · simp [he, hv]
      · have hb : (e.1 == key) = false := by simpa using he
        simp [he, hb]

theorem syncEndLoop_deleted (c : Cache) (l : List (String × CacheData)) (k : String) :
    ∀ (objs deleted : List (String × CacheData)),
      ((syncEndLoop c l (objs, deleted)).2.lookup k).isSome
        ↔ (deleted.lookup k).isSome ∨ (k ∈ l.map Prod.fst ∧ k ∉ c.SyncList.getD []) := by
  induction l with
  | nil => intro objs deleted; simp [syncEndLoop]
  | cons x rest ih =>
    obtain ⟨key, data⟩ := x
    intro objs deleted
    unfold syncEndLoop
    by_cases hv : key ∈ c.SyncList.getD []
    · rw [if_pos hv, ih]
      by_cases hk : k = key
      · subst hk; simp [hv]
      · simp [hk]
    · rw [if_neg hv, ih, lookup_mapSet]
      by_cases hk : k = key
      · subst hk; simp [hv]
      · simp [hk]

theorem lookup_isSome_iff {β : Type} (m : List (String × β)) (k : String) :
    (m.lookup k).isSome ↔ k ∈ m.map Prod.fst := by
  induction m with
  | nil => simp
  | cons x rest ih =>
    obtain ⟨k0, v⟩ := x
    by_cases hk : k = k0
    · subst hk; simp [List.lookup]
    · have hb : (k == k0) = false := by simpa using hk
      simp only [List.lookup, hb, List.map_cons, List.mem_cons, hk, false_or]
      exact ih

end objcache

namespace objcache

/-- C14. Full resync.  After `SyncListStart`, `SyncUpdate` calls with
well-formed values and `SyncListEnd`, the cache holds for every key exactly the
last object sent for it during the bracket, with the mod-revision sent with
it, and nothing for a key that was not sent; the sync list is nil again and
nothing else in the cache has changed.  The keys `SyncListEnd` reports as
deleted to the callbacks are the keys that were cached before and were not
sent. -/
theorem resync_exact (c : Cache) (updates : List (Obj × Int)) :
    (∀ k, (resync c updates).1.Objs.lookup k
        = (lastUpdate updates k).map (fun u => (⟨some u.1, u.2⟩ : CacheData))) ∧
      (resync c updates).1 = { c with Objs := (resync c updates).1.Objs, SyncList := none } ∧
      (∀ k, ((resyncDeleted c updates).lookup k).isSome
        ↔ (c.Objs.lookup k).isSome ∧ lastUpdate updates k = none) ∧
      (resync c updates).2 = (resyncDeleted c updates).flatMap
        (fun e => removedEvents (syncAll (SyncListStart c) updates) e.1 e.2) := by
  obtain ⟨l1, h1, hmem, hlook, hfields⟩ := syncAll_spec updates (SyncListStart c) [] rfl
  have hobjs : (resync c updates).1.Objs
      = (syncAll (SyncListStart c) updates).Objs.filter (fun e => decide (e.1 ∈ l1)) := by
    unfold resync SyncListEnd
    simp only []
    rw [syncEndLoop_objs, h1]
    apply List.filter_congr
    intro e he
    have : e.1 ∈ (syncAll (SyncListStart c) updates).Objs.map Prod.fst :=
      List.mem_map_of_mem Prod.fst he
    simp [this]
  refine ⟨?_, ?_, ?_, rfl⟩
  · intro k
    rw [hobjs, lookup_filter_keys, hlook k]
    have hm := hmem k
    cases hr : lastUpdate updates k with
    | some u =>
      rw [hr] at hm
      have : k ∈ l1 := hm.2 (Or.inr (by simp))
      simp [this]
    | none =>
      rw [hr] at hm
      have : k ∉ l1 := by
        intro hin
        rcases hm.1 hin with h | h
        · simp at h
        · exact h rfl
      simp [this]
  · have he : (resync c updates).1
        = { syncAll (SyncListStart c) updates with
            Objs := (resync c updates).1.Objs, SyncList := none } := rfl
    rw [he, hfields]
    rfl
  · intro k
    unfold resyncDeleted
    rw [syncEndLoop_deleted, h1, ← lookup_isSome_iff, hlook k]
    have hm := hmem k
    cases hr : lastUpdate updates k with
    | some u =>
      rw [hr] at hm
      have : k ∈ l1 := hm.2 (Or.inr (by simp))
      simp [this]
    | none =>
      rw [hr] at hm
      have : k ∉ l1 := by
        intro hin
        rcases hm.1 hin with h | h
        · simp at h
        · exact h rfl
      simp [this, SyncListStart]

end objcache

namespace waitfor

theorem loop_msg (g : Gen) (a : Args) (info : Info) (rest : List ChEvent) (st : Loop) :
    loop g a (ChEvent.msg info :: rest) st
      = if info.State = a.errorState then
          ((advance a st info).sent,
            Outcome.ret (some (if info.Errors.length = 1 then gostrings.Join info.Errors ", "
              else "Encountered failures: " ++ gostrings.Join info.Errors ", ")))
        else if info.State = a.targetState then
          match handleTargetState g a with
          | none => ((advance a st info).sent, Outcome.nilSend)
          | some ms => ((advance a st info).sent ++ ms, Outcome.ret none)
        else loop g a rest (advance a st info) := rfl

theorem loop_running (g : Gen) (a : Args) (infos : List Info) (rest : List ChEvent)
    (hrun : ∀ i ∈ infos, i.State ≠ a.errorState ∧ i.State ≠ a.targetState) :
    ∀ st, loop g a (infos.map ChEvent.msg ++ rest) st
      = loop g a rest (infos.foldl (advance a) st) := by
  induction infos with
  | nil => intro st; rfl
  | cons i is ih =>
    intro st
    have h := hrun i (List.mem_cons_self _ _)
    rw [List.map_cons, List.cons_append, loop_msg, if_neg h.1, if_neg h.2, List.foldl_cons]
    exact ih (fun j hj => hrun j (List.mem_cons_of_mem _ hj)) _

theorem advance_curState (a : Args) (st : Loop) (info : Info) :
    (advance a st info).curState = info.State := by
  unfold advance
  split_ifs <;> rfl

theorem foldl_advance_curState (a : Args) (infos : List Info) (st : Loop) :
    (infos.foldl (advance a) st).curState
      = (infos.getLast?.map Info.State).getD st.curState := by
  induction infos using List.reverseRecOn with
  | nil => rfl
  | append_singleton is i _ =>
    rw [List.foldl_append, List.foldl_cons, List.foldl_nil, advance_curState]
    simp

theorem advance_forward (a : Args) (hsend : a.sendNil = false) (st : Loop) (info : Info)
    (m : List String) (hcnt : st.lastMsgCnt = m.length) (hsent : st.sent = m.map Sent.progress)
    (hpre : m <+: info.Msgs) :
    (advance a st info).lastMsgCnt = info.Msgs.length ∧
      (advance a st info).sent = info.Msgs.map Sent.progress := by
  obtain ⟨t, ht⟩ := hpre
  unfold advance
  rw [hsend]
  simp only [Bool.false_eq_true, if_false, true_and]
  rw [hsent, hcnt, ← ht, List.drop_left, List.map_append]

theorem foldl_advance_forward (a : Args) (hsend : a.sendNil = false) (last : Info) :
    ∀ (infos : List Info) (st : Loop) (m : List String),
      st.lastMsgCnt = m.length → st.sent = m.map Sent.progress →
      List.Chain (fun x y : List String => x <+: y) m ((infos ++ [last]).map Info.Msgs) →
      ((infos ++ [last]).foldl (advance a) st).sent = last.Msgs.map Sent.progress := by
  intro infos
  induction infos with
  | nil =>
    intro st m hcnt hsent hch
    simp only [List.nil_append, List.map_cons, List.map_nil, List.chain_cons] at hch
    exact (advance_forward a hsend st last m hcnt hsent hch.1).2
  | cons i is ih =>
    intro st m hcnt hsent hch
    simp only [List.cons_append, List.map_cons, List.chain_cons] at hch
    obtain ⟨h1, h2⟩ := advance_forward a hsend st i m hcnt hsent hch.1
    rw [List.cons_append, List.foldl_cons]
    exact ih (advance a st i) i.Msgs h1 h2 hch.2

theorem handleTargetState_eq (g : Gen) (a : Args) (hsend : a.sendNil = false) :
    handleTargetState g a
      = some ((if g.tracked = true ∧ a.targetState = g.notPresent then
            [Sent.notice (g.CamelName a.targetState)] else [])
          ++ (if a.successMsg ≠ "" then [Sent.notice a.successMsg] else [])) := by
  unfold handleTargetState
  rw [hsend]
  by_cases h1 : g.tracked = true ∧ a.targetState = g.notPresent <;>
    by_cases h2 : a.successMsg = "" <;> simp [h1, h2]

theorem handleTargetState_send (g : Gen) (a : Args) (hsend : a.sendNil = false) :
    ∃ ms, handleTargetState g a = some ms ∧ ∀ s ∈ ms, ∃ m, s = Sent.notice m := by
  refine ⟨_, handleTargetState_eq g a hsend, ?_⟩
  intro s hs
  rcases List.mem_append.1 hs with hs | hs
  · split_ifs at hs
    · exact ⟨_, List.mem_singleton.1 hs⟩
    · simp at hs
  · split_ifs at hs
    · exact ⟨_, List.mem_singleton.1 hs⟩
    · simp at hs

end waitfor

namespace waitfor

/-- C15. `WaitFor` forwards every progress message exactly once.  Let `send` and
the channel be non-nil and the state at entry not the target, let the
snapshots `infos` leave the loop running and `last` be the last snapshot the
loop handles (it ends the loop, or what is received next is no snapshot), and
let every message list be a prefix of the next one.  Then the calls of `send`
are: the messages of `last`, each once and in order, from the loop over
`Status.Msgs`; after them only the notices of the way the call ends. -/
theorem WaitFor_forwards_once (g : Gen) (a : Args) (hsend : a.sendNil = false)
    (hch : a.chNil = false) (hinit : initState g a ≠ a.targetState)
    (infos : List Info) (last : Info) (tail : List ChEvent)
    (hrun : ∀ i ∈ infos, i.State ≠ a.errorState ∧ i.State ≠ a.targetState)
    (hmono : List.Chain (fun x y : List String => x <+: y) []
      ((infos ++ [last]).map Info.Msgs))
    (hstop : last.State = a.errorState ∨ last.State = a.targetState ∨
      ∀ i t, tail ≠ ChEvent.msg i :: t) :
    ∃ notices, (WaitFor g a ((infos ++ [last]).map ChEvent.msg ++ tail)).1
        = last.Msgs.map Sent.progress ++ notices ∧
      ∀ s ∈ notices, ∃ m, s = Sent.notice m := by
  have hfw := foldl_advance_forward a hsend last infos ⟨0, initState g a, []⟩ [] rfl rfl hmono
  rw [List.foldl_append, List.foldl_cons, List.foldl_nil] at hfw
  unfold WaitFor
  rw [if_neg hinit, hch]
  simp only [Bool.false_eq_true, if_false]
  rw [List.map_append, List.append_assoc, loop_running g a infos _ hrun]
  rw [List.map_cons, List.map_nil, List.singleton_append, loop_msg]
  by_cases he : last.State = a.errorState
  · rw [if_pos he]
    exact ⟨[], by simp [hfw], by simp⟩
  · rw [if_neg he]
    by_cases ht : last.State = a.targetState
    · rw [if_pos ht]
      obtain ⟨ms, hms, hall⟩ := handleTargetState_send g a hsend
      rw [hms]
      exact ⟨ms, by simp [hfw], hall⟩
    · rw [if_neg ht]
      have hnomsg : ∀ i t, tail ≠ ChEvent.msg i :: t := by
        rcases hstop with h | h | h
        · exact absurd h he
        · exact absurd h ht
        · exact h
      cases tail with
      | nil => exact ⟨[], by simp [loop, hfw], by simp⟩
      | cons e t =>
        cases e with
        | msg i => exact absurd rfl (hnomsg i t)
        | bad err => exact ⟨[], by simp [loop, hfw], by simp⟩
        | closed =>
          refine ⟨[Sent.notice ("Failed to get progress messages. Please use Show"
            ++ g.ParentObjName ++ " to check current status")], ?_, ?_⟩
          · simp only [loop, hfw, hsend, Bool.false_eq_true, if_false]
          · intro s hs
            exact ⟨_, List.mem_singleton.1 hs⟩
        | ctxDone =>
          by_cases htr : (advance a (infos.foldl (advance a) ⟨0, initState g a, []⟩) last).curState
              ∈ a.transitionStates
          · refine ⟨[Sent.notice ("Timed out while work still in progress state "
              ++ g.CamelName (advance a (infos.foldl (advance a) ⟨0, initState g a, []⟩)
                last).curState ++ ". Please use Show" ++ g.ParentObjName
              ++ " to check current status")], ?_, ?_⟩
            · simp only [loop, hfw, hsend, htr, Bool.false_eq_true, if_false, if_true]
            · intro s hs
              exact ⟨_, List.mem_singleton.1 hs⟩
          · exact ⟨[], by simp [loop, hfw, htr], by simp⟩

theorem exInfos_chain :
    List.Chain (fun x y : List String => x <+: y) [] ((exInfos ++ [exLast]).map Info.Msgs) :=
  List.Chain.cons ⟨["Creating"], rfl⟩
    (List.Chain.cons ⟨["Waiting for VM"], rfl⟩
      (List.Chain.cons ⟨["Ready"], rfl⟩ List.Chain.nil))

theorem WaitFor_forwards_once_witness :
    exArgs.sendNil = false ∧ exArgs.chNil = false ∧ initState exGen exArgs ≠ exArgs.targetState ∧
      (∀ i ∈ exInfos, i.State ≠ exArgs.errorState ∧ i.State ≠ exArgs.targetState) ∧
      List.Chain (fun x y : List String => x <+: y) [] ((exInfos ++ [exLast]).map Info.Msgs) ∧
      ∃ notices, (WaitFor exGen exArgs ((exInfos ++ [exLast]).map ChEvent.msg ++ [])).1
          = exLast.Msgs.map Sent.progress ++ notices ∧
        ∀ s ∈ notices, ∃ m, s = Sent.notice m :=
  ⟨rfl, rfl, by decide, by decide, exInfos_chain,
    WaitFor_forwards_once exGen exArgs rfl rfl (by decide) exInfos exLast [] (by decide)
      exInfos_chain (Or.inr (Or.inl (by decide)))⟩

/-- C16. `WaitFor` at the end of the context.  Let the channel be non-nil and the
state at entry not the target, and let the context end after the snapshots
`infos`, which leave the loop running.  The last observed state is the state of
the last snapshot, or the state at entry without one, and it is not the
target.  If it is in `transitionStates`, the call returns nil, and with a
non-nil `send` its last call of `send` is the notice "Timed out while work
still in progress state ..."; if it is not, the call returns the error "Timed
out; expected state ... but is ..." and sends nothing more. -/
theorem WaitFor_context_expiry (g : Gen) (a : Args) (hch : a.chNil = false)
    (hinit : initState g a ≠ a.targetState) (infos : List Info) (tail : List ChEvent)
    (hrun : ∀ i ∈ infos, i.State ≠ a.errorState ∧ i.State ≠ a.targetState)
    (st : Loop) (hst : st = infos.foldl (advance a) ⟨0, initState g a, []⟩) :
    st.curState = (infos.getLast?.map Info.State).getD (initState g a) ∧
      st.curState ≠ a.targetState ∧
      (st.curState ∈ a.transitionStates →
        WaitFor g a (infos.map ChEvent.msg ++ ChEvent.ctxDone :: tail)
          = (st.sent ++
              (if a.sendNil then []
                else [Sent.notice ("Timed out while work still in progress state "
                  ++ g.CamelName st.curState ++ ". Please use Show" ++ g.ParentObjName
                  ++ " to check current status")]),
            Outcome.ret none)) ∧
      (st.curState ∉ a.transitionStates →
        WaitFor g a (infos.map ChEvent.msg ++ ChEvent.ctxDone :: tail)
          = (st.sent,
            Outcome.ret (some ("Timed out; expected state " ++ g.CamelName a.targetState
              ++ " but is " ++ g.CamelName st.curState)))) := by
  have hcur : st.curState = (infos.getLast?.map Info.State).getD (initState g a) := by
    rw [hst, foldl_advance_curState]
  have hw : WaitFor g a (infos.map ChEvent.msg ++ ChEvent.ctxDone :: tail)
      = loop g a (ChEvent.ctxDone :: tail) st := by
    unfold WaitFor
    rw [if_neg hinit, hch]
    simp only [Bool.false_eq_true, if_false]
    rw [loop_running g a infos _ hrun, hst]
  refine ⟨hcur, ?_, ?_, ?_⟩
  · rw [hcur]
    cases hl : infos.getLast? with
    | none => simpa using hinit
    | some i =>
      simp only [Option.map_some', Option.getD_some]
      exact (hrun i (List.mem_of_getLast?_eq_some hl)).2
  · intro htr
    rw [hw]
    simp only [loop, htr, if_true]
  · intro htr
    rw [hw]
    simp only [loop, htr, if_false]

theorem WaitFor_context_expiry_witness :
    exArgs.chNil = false ∧ initState exGen exArgs ≠ exArgs.targetState ∧
      (∀ i ∈ exInfos, i.State ≠ exArgs.errorState ∧ i.State ≠ exArgs.targetState) ∧
      (exInfos.foldl (advance exArgs) ⟨0, initState exGen exArgs, []⟩).curState = 3 ∧
      WaitFor exGen exArgs (exInfos.map ChEvent.msg ++ ChEvent.ctxDone :: [])
        = ([Sent.progress "Creating", Sent.progress "Waiting for VM",
            Sent.notice ("Timed out while work still in progress state Creating. "
              ++ "Please use ShowAppInst to check current status")],
          Outcome.ret none) :=
  ⟨rfl, by decide, by decide, by decide,
    ((WaitFor_context_expiry exGen exArgs rfl (by decide) exInfos [] (by decide) _ rfl).2.2.1
      (by decide)).trans (by decide)⟩

end waitfor

namespace controller

open gostrings edgeproto

theorem stmGet_stmPut {κ β : Type} [DecidableEq κ] (m : List (κ × β)) (k k2 : κ) (v : β) :
    stmGet (stmPut m k v) k2 = if k2 = k then some v else stmGet m k2 := by
  induction m with
  | nil =>
    by_cases h : k2 = k
    · subst h; simp [stmPut, stmGet]
    · have h2 : ¬ k = k2 := fun e => h e.symm
      simp [stmPut, stmGet, h, h2]
  | cons x rest ih =>
    obtain ⟨k0, v0⟩ := x
    unfold stmPut
    by_cases h0 : k0 = k
    · rw [if_pos h0]
      subst h0
      by_cases h : k2 = k0
      · subst h; simp [stmGet]
      · have h2 : ¬ k0 = k2 := fun e => h e.symm
        simp [stmGet, h, h2]
    · rw [if_neg h0]
      by_cases h : k0 = k2
      · subst h; simp [stmGet, h0]
      · simp only [stmGet, if_neg h]
        exact ih

theorem undo_after_prepare (st : Store) (key : AppKey) (cur : App)
    (hget : stmGet st.apps key = some cur) (hk : cur.Key = key) (hdp : cur.DeletePrepare = false) :
    (∀ k2, stmGet (undoDeletePrepare
        { st with apps := stmPut st.apps cur.Key { cur with DeletePrepare := true } } key).apps k2
      = stmGet st.apps k2) ∧
    undoDeletePrepare
        { st with apps := stmPut st.apps cur.Key { cur with DeletePrepare := true } } key
      = { st with apps := (undoDeletePrepare
        { st with apps := stmPut st.apps cur.Key { cur with DeletePrepare := true } } key).apps } := by
  have h1 : stmGet (stmPut st.apps cur.Key { cur with DeletePrepare := true }) key
      = some { cur with DeletePrepare := true } := by
    rw [stmGet_stmPut, if_pos hk.symm]
  have hcur : ({ cur with DeletePrepare := false } : App) = cur := by
    cases cur
    simp only at hdp
    subst hdp
    rfl
  have hu : undoDeletePrepare
        { st with apps := stmPut st.apps cur.Key { cur with DeletePrepare := true } } key
      = { st with
          apps := (stmPut (stmPut st.apps cur.Key { cur with DeletePrepare := true }) cur.Key
            cur) } := by
    unfold undoDeletePrepare
    simp only [h1, if_true]
    rw [hcur]
  rw [hu]
  refine ⟨?_, rfl⟩
  intro k2
  simp only [stmGet_stmPut]
  by_cases h : k2 = cur.Key
  · rw [if_pos h, h, hk, hget]
  · rw [if_neg h, if_neg h]

/-- C17. Safe delete for App.  Let the stored App carry the key it is stored
under.  Whenever `DeleteApp` returns "Application in use by static AppInst ..."
or "Application in use by Trust Policy Exception ...", the App is in the store
afterwards with `DeletePrepare` false, and is the App that was stored before;
every App of the store reads as before, and the AppInstRefs, the AppInsts and
the global ids are unchanged. -/
theorem DeleteApp_in_use_safe (env : DeleteEnv) (st : Store) (key : AppKey)
    (hkey : ∀ a, stmGet st.apps key = some a → a.Key = key) (k : String)
    (herr : (DeleteApp env st key).2
          = some (ApiError.fmt ("Application in use by static AppInst " ++ k)) ∨
        (DeleteApp env st key).2
          = some (ApiError.fmt ("Application in use by Trust Policy Exception " ++ k))) :
    (∃ a, stmGet (DeleteApp env st key).1.apps key = some a ∧ a.DeletePrepare = false ∧
        stmGet st.apps key = some a) ∧
      (∀ k2, stmGet (DeleteApp env st key).1.apps k2 = stmGet st.apps k2) ∧
      (DeleteApp env st key).1.appInstRefs = st.appInstRefs ∧
      (DeleteApp env st key).1.appInsts = st.appInsts ∧
      (DeleteApp env st key).1.globalIds = st.globalIds := by
  have hne : ∀ e : ApiError, (some e = some (ApiError.fmt ("Application in use by static AppInst " ++ k)) ∨
      some e = some (ApiError.fmt ("Application in use by Trust Policy Exception " ++ k))) →
      ∃ t, e = ApiError.fmt t := by
    intro e he
    rcases he with he | he <;> exact ⟨_, Option.some.inj he⟩
  unfold DeleteApp at herr ⊢
  cases hget : stmGet st.apps key with
  | none =>
    rw [hget] at herr
    obtain ⟨t, ht⟩ := hne _ herr
    exact ApiError.noConfusion ht
  | some cur =>
    rw [hget] at herr
    simp only [] at herr ⊢
    by_cases hdp : cur.DeletePrepare = true
    · rw [if_pos hdp] at herr
      obtain ⟨t, ht⟩ := hne _ herr
      exact ApiError.noConfusion ht
    · rw [if_neg hdp] at herr ⊢
      have hdp2 : cur.DeletePrepare = false := by simpa using hdp
      have hk := hkey cur hget
      cases hloop : staticInstLoop env st key.Organization cur
          ((stmGet st.appInstRefs key).getD ⟨[]⟩).Insts [] with
      | mk e dyn =>
        rw [hloop] at herr
        cases e with
        | some err =>
          simp only []
          exact ⟨⟨cur, hget, hdp2, rfl⟩, fun _ => trivial, trivial, trivial, trivial⟩
        | none =>
          simp only [] at herr ⊢
          cases htpe : env.TrustPolicyExceptionForAppKeyExists key with
          | some tpeKey =>
            simp only []
            obtain ⟨h1, h2⟩ := undo_after_prepare st key cur hget hk hdp2
            refine ⟨⟨cur, ?_, hdp2, rfl⟩, h1, ?_, ?_, ?_⟩
            · rw [h1 key]; exact hget
            · rw [h2]
            · rw [h2]
            · rw [h2]
          | none =>
            rw [htpe] at herr
            simp only [] at herr
            cases hauto : env.AutoDelete dyn
                { st with apps := stmPut st.apps cur.Key { cur with DeletePrepare := true } } with
            | mk st2 e2 =>
              rw [hauto] at herr
              cases e2 with
              | some err =>
                obtain ⟨t, ht⟩ := hne _ herr
                exact ApiError.noConfusion ht
              | none =>
                rcases herr with herr | herr <;> exact Option.noConfusion herr

theorem DeleteApp_in_use_safe_witness :
    (∀ a, stmGet exStore.apps exKey = some a → a.Key = exKey) ∧
      (DeleteApp exDeleteEnvTpe exStore exKey).2
        = some (ApiError.fmt ("Application in use by Trust Policy Exception " ++ "tpe1")) ∧
      (∃ a, stmGet (DeleteApp exDeleteEnvTpe exStore exKey).1.apps exKey = some a ∧
        a.DeletePrepare = false ∧ stmGet exStore.apps exKey = some a) ∧
      (DeleteApp exDeleteEnvTpe exStore exKey).1.appInstRefs = exStore.appInstRefs :=
  ⟨by decide, by decide,
    (DeleteApp_in_use_safe exDeleteEnvTpe exStore exKey (by decide) "tpe1"
      (Or.inr (by decide))).1,
    (DeleteApp_in_use_safe exDeleteEnvTpe exStore exKey (by decide) "tpe1"
      (Or.inr (by decide))).2.2.1⟩

end controller

namespace controller

open gostrings edgeproto

theorem inUseLoop_some (env : UpdateEnv) (fmap : FieldMap) (l : List String) (f : String)
    (hf : f ∈ l) (hhas : fmap.Has f = true) :
    ∃ g ∈ l, fmap.Has g = true ∧
      inUseLoop env fmap l
        = some (ApiError.fmt ("Cannot update " ++ fieldName env g ++ " when AppInst exists")) := by
  induction l with
  | nil => simp at hf
  | cons x rest ih =>
    unfold inUseLoop
    by_cases hx : fmap.Has x = true
    · rw [if_pos hx]
      exact ⟨x, List.mem_cons_self _ _, hx, rfl⟩
    · rw [if_neg hx]
      rcases List.mem_cons.1 hf with h | h
      · subst h; exact absurd hhas hx
      · obtain ⟨g, hg, hgh, he⟩ := ih h
        exact ⟨g, List.mem_cons_of_mem _ hg, hgh, he⟩

theorem appInstExistsChecks_some (env : UpdateEnv) (cur inp : App) (fmap : FieldMap)
    (f : String) (hf : f ∈ inUseCannotUpdate env) (hhas : fmap.Has f = true) :
    (∃ err, appInstExistsChecks env cur inp fmap = some err) ∧
      (cur.Deployment ∈ [env.DeploymentTypeKubernetes, env.DeploymentTypeDocker,
          env.DeploymentTypeHelm] →
        ∃ g ∈ inUseCannotUpdate env, fmap.Has g = true ∧
          appInstExistsChecks env cur inp fmap
            = some (ApiError.fmt
                ("Cannot update " ++ fieldName env g ++ " when AppInst exists"))) := by
  obtain ⟨g, hg, hgh, he⟩ := inUseLoop_some env fmap (inUseCannotUpdate env) f hf hhas
  unfold appInstExistsChecks
  constructor
  · cases h1 : (if cur.Deployment ≠ env.DeploymentTypeKubernetes ∧
            cur.Deployment ≠ env.DeploymentTypeDocker ∧
            cur.Deployment ≠ env.DeploymentTypeHelm then
          notSupportedLoop env cur fmap.Fields else none) with
    | some err => exact ⟨err, rfl⟩
    | none => simp only [he]; exact ⟨_, rfl⟩
  · intro hdep
    have hcond : ¬ (cur.Deployment ≠ env.DeploymentTypeKubernetes ∧
            cur.Deployment ≠ env.DeploymentTypeDocker ∧
            cur.Deployment ≠ env.DeploymentTypeHelm) := by
      simp only [List.mem_cons, List.mem_singleton, List.not_mem_nil, or_false] at hdep
      tauto
    rw [if_neg hcond]
    simp only [he]
    exact ⟨g, hg, hgh, rfl⟩

theorem updateTxn_in_use (env : UpdateEnv) (st : Store) (inp : App) (fmap : FieldMap)
    (refs : AppInstRefs) (hrefs : stmGet st.appInstRefs inp.Key = some refs)
    (hinst : refs.Insts ≠ []) (f : String) (hf : f ∈ inUseCannotUpdate env)
    (hhas : fmap.Has f = true) :
    (updateTxn env st inp fmap).2 ≠ none ∧ (updateTxn env st inp fmap).1 = st ∧
      ∀ cur, stmGet st.apps inp.Key = some cur →
        cur.Deployment ∈ [env.DeploymentTypeKubernetes, env.DeploymentTypeDocker,
          env.DeploymentTypeHelm] →
        ∃ g ∈ inUseCannotUpdate env, fmap.Has g = true ∧
          (updateTxn env st inp fmap).2
            = some (ApiError.fmt
                ("Cannot update " ++ fieldName env g ++ " when AppInst exists")) := by
  have hlen : refs.Insts.length > 0 := List.length_pos.2 hinst
  unfold updateTxn
  cases hget : stmGet st.apps inp.Key with
  | none =>
    refine ⟨by simp, rfl, ?_⟩
    intro cur hc
    exact Option.noConfusion hc
  | some cur =>
    obtain ⟨⟨err, herr⟩, hdep⟩ := appInstExistsChecks_some env cur inp fmap f hf hhas
    simp only [hrefs, Option.getD_some, hlen, if_true]
    refine ⟨by rw [herr]; simp, by rw [herr], ?_⟩
    intro cur2 hc hd
    have hcc : cur = cur2 := Option.some.inj hc
    subst hcc
    obtain ⟨g, hg, hgh, he⟩ := hdep hd
    exact ⟨g, hg, hgh, by rw [he]⟩

/-- C18. `UpdateApp` under references.  If the AppInstRefs of the App list an
AppInst and the field map of the update has one of AccessPorts, SkipHcPorts,
Deployment and DeploymentGenerator, then `UpdateApp` returns an error and the
store is as before.  When the validation before the transaction passes, the
App is stored and its deployment is kubernetes, docker or helm, the error is
"Cannot update ... when AppInst exists" for one of these fields. -/
theorem UpdateApp_in_use_immutable (env : UpdateEnv) (st : Store) (inp : App)
    (refs : AppInstRefs) (hrefs : stmGet st.appInstRefs inp.Key = some refs)
    (hinst : refs.Insts ≠ []) (f : String) (hf : f ∈ inUseCannotUpdate env)
    (hhas : (MakeFieldMap inp.Fields).Has f = true) :
    (UpdateApp env st inp).2 ≠ none ∧ (UpdateApp env st inp).1 = st ∧
      ∀ cur, env.ValidateUpdateFields inp = none →
        env.Validate inp (MakeFieldMap inp.Fields) = none →
        env.UpdateAppSecretVars inp = none →
        stmGet st.apps inp.Key = some cur →
        cur.Deployment ∈ [env.DeploymentTypeKubernetes, env.DeploymentTypeDocker,
          env.DeploymentTypeHelm] →
        ∃ g ∈ inUseCannotUpdate env, (MakeFieldMap inp.Fields).Has g = true ∧
          (UpdateApp env st inp).2
            = some (ApiError.fmt
                ("Cannot update " ++ fieldName env g ++ " when AppInst exists")) := by
  have h1 := updateTxn_in_use env st inp (MakeFieldMap inp.Fields) refs hrefs hinst f hf hhas
  have h2 := updateTxn_in_use env st
    { inp with SecretEnvVars := env.RedactSecretVars inp.SecretEnvVars }
    (MakeFieldMap inp.Fields) refs hrefs hinst f hf hhas
  unfold UpdateApp
  cases hv : env.ValidateUpdateFields inp with
  | some err =>
    refine ⟨by simp, rfl, ?_⟩
    intro cur hc
    exact Option.noConfusion hc
  | none =>
    simp only []
    cases hv2 : env.Validate inp (MakeFieldMap inp.Fields) with
    | some err =>
      refine ⟨by simp, rfl, ?_⟩
      intro cur _ hc
      exact Option.noConfusion hc
    | none =>
      simp only []
      by_cases hs : (MakeFieldMap inp.Fields).HasOrHasChild env.AppFieldSecretEnvVars = true
      · rw [if_pos hs]
        cases hv3 : env.UpdateAppSecretVars inp with
        | some err =>
          refine ⟨by simp, rfl, ?_⟩
          intro cur _ _ hc
          exact Option.noConfusion hc
        | none =>
          simp only []
          exact ⟨h2.1, h2.2.1, fun cur _ _ _ hc hd => h2.2.2 cur hc hd⟩
      · rw [if_neg hs]
        exact ⟨h1.1, h1.2.1, fun cur _ _ _ hc hd => h1.2.2 cur hc hd⟩

theorem UpdateApp_in_use_immutable_witness :
    stmGet exStore.appInstRefs exKey = some ⟨["inst1"]⟩ ∧
      "9" ∈ inUseCannotUpdate exUpdateEnv ∧
      (MakeFieldMap (some ["9"])).Has "9" = true ∧
      (UpdateApp exUpdateEnv exStore { exApp with Fields := some ["9"] }).2 ≠ none ∧
      (UpdateApp exUpdateEnv exStore { exApp with Fields := some ["9"] }).1 = exStore :=
  ⟨by decide, by decide, by decide,
    (UpdateApp_in_use_immutable exUpdateEnv exStore { exApp with Fields := some ["9"] }
      ⟨["inst1"]⟩ (by decide) (by decide) "9" (by decide) (by decide)).1,
    (UpdateApp_in_use_immutable exUpdateEnv exStore { exApp with Fields := some ["9"] }
      ⟨["inst1"]⟩ (by decide) (by decide) "9" (by decide) (by decide)).2.1⟩

end controller

namespace controller

open gostrings edgeproto

theorem covers_iff {ν : Type} (ParseCIDR : String → Option ν)
    (CidrContainsCidr : ν → ν → Bool) (o r : SecurityRule) (pn an : ν)
    (ho : ParseCIDR o.RemoteCidr = some pn) (hr : ParseCIDR r.RemoteCidr = some an) :
    covers ParseCIDR CidrContainsCidr o r = true ↔
      ToLower r.Protocol = ToLower o.Protocol ∧ CidrContainsCidr pn an = true ∧
        (ToLower r.Protocol = "icmp" ∨
          (o.PortRangeMin ≤ r.PortRangeMin ∧ r.PortRangeMax ≤ o.PortRangeMax)) := by
  unfold covers
  rw [ho, hr]
  simp only [Bool.and_eq_true, Bool.or_eq_true, decide_eq_true_eq, and_assoc]

theorem matchLoop_parsed {ν : Type} (ParseCIDR : String → Option ν)
    (CidrContainsCidr : ν → ν → Bool) (r : SecurityRule) (appNet : ν)
    (hr : ParseCIDR r.RemoteCidr = some appNet) (l : List SecurityRule)
    (hl : ∀ o ∈ l, (ParseCIDR o.RemoteCidr).isSome = true) :
    matchLoop ParseCIDR CidrContainsCidr r appNet l
      = (none, l.any (fun o => covers ParseCIDR CidrContainsCidr o r)) := by
  induction l with
  | nil => rfl
  | cons o rest ih =>
    have ih2 := ih (fun x hx => hl x (List.mem_cons_of_mem _ hx))
    have ho := hl o (List.mem_cons_self _ _)
    obtain ⟨pn, hpn⟩ := Option.isSome_iff_exists.1 ho
    have hiff := covers_iff ParseCIDR CidrContainsCidr o r pn appNet hpn hr
    unfold matchLoop
    rw [List.any_cons]
    by_cases hp : ToLower r.Protocol = ToLower o.Protocol
    · have hp2 : ¬ (ToLower r.Protocol ≠ ToLower o.Protocol) := not_not.2 hp
      rw [if_neg hp2]
      simp only [hpn]
      by_cases hc : CidrContainsCidr pn appNet = false
      · rw [if_pos hc, ih2]
        have hcov : covers ParseCIDR CidrContainsCidr o r = false := by
          rw [Bool.eq_false_iff]
          intro h
          have := (hiff.1 h).2.1
          rw [hc] at this
          exact Bool.noConfusion this
        rw [hcov, Bool.false_or]
      · rw [if_neg hc]
        have hc2 : CidrContainsCidr pn appNet = true := by simpa using hc
        by_cases hport : ToLower r.Protocol ≠ "icmp" ∧
            (r.PortRangeMin < o.PortRangeMin ∨ r.PortRangeMax > o.PortRangeMax)
        · rw [if_pos hport, ih2]
          have hcov : covers ParseCIDR CidrContainsCidr o r = false := by
            rw [Bool.eq_false_iff]
            intro h
            rcases (hiff.1 h).2.2 with hi | hi
            · exact hport.1 hi
            · rcases hport.2 with h2 | h2 <;> omega
          rw [hcov, Bool.false_or]
        · rw [if_neg hport]
          have hcov : covers ParseCIDR CidrContainsCidr o r = true := by
            rw [hiff]
            refine ⟨hp, hc2, ?_⟩
            by_cases hi : ToLower r.Protocol = "icmp"
            · exact Or.inl hi
            · right
              have := not_and.1 hport hi
              omega
          rw [hcov, Bool.true_or]
    · rw [if_pos hp, ih2]
      have hcov : covers ParseCIDR CidrContainsCidr o r = false := by
        rw [Bool.eq_false_iff]
        intro h
        exact hp (hiff.1 h).1
      rw [hcov, Bool.false_or]

theorem requiredLoop_parsed {ν : Type} (ParseCIDR : String → Option ν)
    (CidrContainsCidr : ν → ν → Bool) (allowed : List SecurityRule)
    (hl : ∀ o ∈ allowed, (ParseCIDR o.RemoteCidr).isSome = true) (req : List SecurityRule)
    (hreq : ∀ r ∈ req, (ParseCIDR r.RemoteCidr).isSome = true) :
    (requiredLoop ParseCIDR CidrContainsCidr allowed req = none ↔
        ∀ r ∈ req, ∃ o ∈ allowed, covers ParseCIDR CidrContainsCidr o r = true) ∧
      ∀ e, requiredLoop ParseCIDR CidrContainsCidr allowed req = some e →
        ∃ r ∈ req, e = TrustError.noOutboundRule r ∧
          ∀ o ∈ allowed, covers ParseCIDR CidrContainsCidr o r = false := by
  induction req with
  | nil =>
    refine ⟨by simp [requiredLoop], ?_⟩
    intro e he
    simp [requiredLoop] at he
  | cons r rest ih =>
    obtain ⟨ih1, ih2⟩ := ih (fun x hx => hreq x (List.mem_cons_of_mem _ hx))
    obtain ⟨an, han⟩ := Option.isSome_iff_exists.1 (hreq r (List.mem_cons_self _ _))
    unfold requiredLoop
    simp only [han, matchLoop_parsed ParseCIDR CidrContainsCidr r an han allowed hl]
    cases hany : allowed.any (fun o => covers ParseCIDR CidrContainsCidr o r) with
    | true =>
      simp only []
      have hex : ∃ o ∈ allowed, covers ParseCIDR CidrContainsCidr o r = true := by
        simpa [List.any_eq_true] using hany
      refine ⟨?_, ?_⟩
      · rw [ih1]
        simp only [List.mem_cons, forall_eq_or_imp]
        exact ⟨fun h => ⟨hex, h⟩, fun h => h.2⟩
      · intro e he
        obtain ⟨x, hx, hxe, hxc⟩ := ih2 e he
        exact ⟨x, List.mem_cons_of_mem _ hx, hxe, hxc⟩
    | false =>
      simp only []
      have hno : ∀ o ∈ allowed, covers ParseCIDR CidrContainsCidr o r = false := by
        simpa [List.any_eq_false] using hany
      refine ⟨?_, ?_⟩
      · simp only [reduceCtorEq, false_iff]
        intro hall
        obtain ⟨o, ho, hc⟩ := hall r (List.mem_cons_self _ _)
        rw [hno o ho] at hc
        exact Bool.noConfusion hc
      · intro e he
        exact ⟨r, List.mem_cons_self _ _, (Option.some.inj he).symm, hno⟩

theorem covers_false_of_proto {ν : Type} (ParseCIDR : String → Option ν)
    (CidrContainsCidr : ν → ν → Bool) (o r : SecurityRule)
    (h : ToLower r.Protocol ≠ ToLower o.Protocol) :
    covers ParseCIDR CidrContainsCidr o r = false := by
  unfold covers
  simp [h]

theorem covers_false_of_parse {ν : Type} (ParseCIDR : String → Option ν)
    (CidrContainsCidr : ν → ν → Bool) (o r : SecurityRule)
    (h : ParseCIDR o.RemoteCidr = none) :
    covers ParseCIDR CidrContainsCidr o r = false := by
  unfold covers
  rw [h]
  simp

theorem covers_parses {ν : Type} (ParseCIDR : String → Option ν)
    (CidrContainsCidr : ν → ν → Bool) (o r : SecurityRule)
    (h : covers ParseCIDR CidrContainsCidr o r = true) :
    (ParseCIDR r.RemoteCidr).isSome = true := by
  cases hr : ParseCIDR r.RemoteCidr with
  | some an => rfl
  | none =>
    unfold covers at h
    rw [hr] at h
    cases ho : ParseCIDR o.RemoteCidr <;> rw [ho] at h <;> simp at h

/-- One round of the inner loop, by the rule at the head of the list. -/
theorem matchLoop_head {ν : Type} (ParseCIDR : String → Option ν)
    (CidrContainsCidr : ν → ν → Bool) (r : SecurityRule) (appNet : ν)
    (hr : ParseCIDR r.RemoteCidr = some appNet) (o : SecurityRule) (rest : List SecurityRule) :
    (covers ParseCIDR CidrContainsCidr o r = true ∧
        matchLoop ParseCIDR CidrContainsCidr r appNet (o :: rest) = (none, true)) ∨
      (passedOver ParseCIDR CidrContainsCidr o r ∧
        matchLoop ParseCIDR CidrContainsCidr r appNet (o :: rest)
          = matchLoop ParseCIDR CidrContainsCidr r appNet rest) ∨
      (ToLower r.Protocol = ToLower o.Protocol ∧ ParseCIDR o.RemoteCidr = none ∧
        matchLoop ParseCIDR CidrContainsCidr r appNet (o :: rest)
          = (some (TrustError.invalidPolicyCidr o.RemoteCidr), false)) := by
  by_cases hp : ToLower r.Protocol = ToLower o.Protocol
  · cases ho : ParseCIDR o.RemoteCidr with
    | none =>
      right; right
      refine ⟨hp, rfl, ?_⟩
      unfold matchLoop
      rw [if_neg (not_not.2 hp)]
      simp only [ho]
    | some pn =>
      have hiff := covers_iff ParseCIDR CidrContainsCidr o r pn appNet ho hr
      cases hc : covers ParseCIDR CidrContainsCidr o r with
      | true =>
        left
        refine ⟨rfl, ?_⟩
        obtain ⟨_, hcc, hports⟩ := hiff.1 hc
        unfold matchLoop
        rw [if_neg (not_not.2 hp)]
        simp only [ho]
        have h1 : ¬ CidrContainsCidr pn appNet = false := by simp [hcc]
        rw [if_neg h1]
        have h2 : ¬ (ToLower r.Protocol ≠ "icmp" ∧
            (r.PortRangeMin < o.PortRangeMin ∨ r.PortRangeMax > o.PortRangeMax)) := by
          rintro ⟨hi, hpr⟩
          rcases hports with h | h
          · exact hi h
          · rcases hpr with h3 | h3 <;> omega
        rw [if_neg h2]
      | false =>
        right; left
        refine ⟨⟨hc, fun _ => by rw [ho]; rfl⟩, ?_⟩
        have hnot : ¬ (CidrContainsCidr pn appNet = true ∧
            (ToLower r.Protocol = "icmp" ∨
              (o.PortRangeMin ≤ r.PortRangeMin ∧ r.PortRangeMax ≤ o.PortRangeMax))) := by
          intro h
          have := hiff.2 ⟨hp, h.1, h.2⟩
          rw [hc] at this
          exact Bool.noConfusion this
        conv_lhs => unfold matchLoop
        rw [if_neg (not_not.2 hp)]
        simp only [ho]
        by_cases h1 : CidrContainsCidr pn appNet = false
        · rw [if_pos h1]
        · rw [if_neg h1]
          have h1t : CidrContainsCidr pn appNet = true := by simpa using h1
          have h2 : ToLower r.Protocol ≠ "icmp" ∧
              (r.PortRangeMin < o.PortRangeMin ∨ r.PortRangeMax > o.PortRangeMax) := by
            by_cases hi : ToLower r.Protocol = "icmp"
            · exact absurd ⟨h1t, Or.inl hi⟩ hnot
            · refine ⟨hi, ?_⟩
              by_contra hcon
              apply hnot
              refine ⟨h1t, Or.inr ?_⟩
              constructor <;> omega
          rw [if_pos h2]
  · right; left
    refine ⟨⟨covers_false_of_proto _ _ _ _ hp, fun h => absurd h hp⟩, ?_⟩
    conv_lhs => unfold matchLoop
    rw [if_pos hp]

theorem acceptedBy_cons {ν : Type} (ParseCIDR : String → Option ν)
    (CidrContainsCidr : ν → ν → Bool) (o : SecurityRule) (rest : List SecurityRule)
    (r : SecurityRule) :
    acceptedBy ParseCIDR CidrContainsCidr (o :: rest) r ↔
      covers ParseCIDR CidrContainsCidr o r = true ∨
        ((ToLower r.Protocol = ToLower o.Protocol → (ParseCIDR o.RemoteCidr).isSome = true) ∧
          acceptedBy ParseCIDR CidrContainsCidr rest r) := by
  constructor
  · rintro ⟨pre, x, post, hl, hc, hpre⟩
    cases pre with
    | nil =>
      simp only [List.nil_append, List.cons.injEq] at hl
      left
      rw [hl.1]
      exact hc
    | cons y pre2 =>
      simp only [List.cons_append, List.cons.injEq] at hl
      right
      refine ⟨?_, pre2, x, post, hl.2, hc, fun z hz => hpre z (List.mem_cons_of_mem _ hz)⟩
      rw [hl.1]
      exact hpre y (List.mem_cons_self _ _)
  · rintro (hc | ⟨ho, pre, x, post, hl, hc, hpre⟩)
    · exact ⟨[], o, rest, rfl, hc, by simp⟩
    · refine ⟨o :: pre, x, post, by rw [hl]; rfl, hc, ?_⟩
      intro z hz
      rcases List.mem_cons.1 hz with hz | hz
      · subst hz; exact ho
      · exact hpre z hz

/-- The three ways the inner loop ends. -/
theorem matchLoop_cases {ν : Type} (ParseCIDR : String → Option ν)
    (CidrContainsCidr : ν → ν → Bool) (r : SecurityRule) (appNet : ν)
    (hr : ParseCIDR r.RemoteCidr = some appNet) (l : List SecurityRule) :
    (matchLoop ParseCIDR CidrContainsCidr r appNet l = (none, true) ∧
        acceptedBy ParseCIDR CidrContainsCidr l r) ∨
      (matchLoop ParseCIDR CidrContainsCidr r appNet l = (none, false) ∧
        ¬ acceptedBy ParseCIDR CidrContainsCidr l r ∧
        ∀ o ∈ l, passedOver ParseCIDR CidrContainsCidr o r) ∨
      (¬ acceptedBy ParseCIDR CidrContainsCidr l r ∧
        ∃ pre o post, l = pre ++ o :: post ∧
          (∀ x ∈ pre, passedOver ParseCIDR CidrContainsCidr x r) ∧
          ToLower r.Protocol = ToLower o.Protocol ∧ ParseCIDR o.RemoteCidr = none ∧
          matchLoop ParseCIDR CidrContainsCidr r appNet l
            = (some (TrustError.invalidPolicyCidr o.RemoteCidr), false)) := by
  induction l with
  | nil =>
    right; left
    refine ⟨rfl, ?_, by simp⟩
    rintro ⟨pre, o, post, hl, _⟩
    cases pre <;> simp at hl
  | cons o rest ih =>
    rcases matchLoop_head ParseCIDR CidrContainsCidr r appNet hr o rest with
      ⟨hc, hm⟩ | ⟨hpo, hm⟩ | ⟨hp, hn, hm⟩
    · left
      exact ⟨hm, (acceptedBy_cons _ _ _ _ _).2 (Or.inl hc)⟩
    · have hcf : ¬ covers ParseCIDR CidrContainsCidr o r = true := by
        rw [hpo.1]; exact Bool.noConfusion
      rcases ih with ⟨h1, h2⟩ | ⟨h1, h2, h3⟩ | ⟨h2, pre, x, post, hl, hpre, hxp, hxn, h1⟩
      · left
        exact ⟨by rw [hm, h1], (acceptedBy_cons _ _ _ _ _).2 (Or.inr ⟨hpo.2, h2⟩)⟩
      · right; left
        refine ⟨by rw [hm, h1], ?_, ?_⟩
        · intro ha
          rcases (acceptedBy_cons _ _ _ _ _).1 ha with h | h
          · exact hcf h
          · exact h2 h.2
        · intro z hz
          rcases List.mem_cons.1 hz with hz | hz
          · subst hz; exact hpo
          · exact h3 z hz
      · right; right
        refine ⟨?_, o :: pre, x, post, by rw [hl]; rfl, ?_, hxp, hxn, by rw [hm, h1]⟩
        · intro ha
          rcases (acceptedBy_cons _ _ _ _ _).1 ha with h | h
          · exact hcf h
          · exact h2 h.2
        · intro z hz
          rcases List.mem_cons.1 hz with hz | hz
          · subst hz; exact hpo
          · exact hpre z hz
    · right; right
      refine ⟨?_, [], o, rest, rfl, by simp, hp, hn, hm⟩
      intro ha
      rcases (acceptedBy_cons _ _ _ _ _).1 ha with h | h
      · rw [covers_false_of_parse _ _ _ _ hn] at h
        exact Bool.noConfusion h
      · have := h.1 hp
        rw [hn] at this
        exact Bool.noConfusion this

theorem requiredLoop_exact {ν : Type} (ParseCIDR : String → Option ν)
    (CidrContainsCidr : ν → ν → Bool) (allowed : List SecurityRule) (req : List SecurityRule) :
    (requiredLoop ParseCIDR CidrContainsCidr allowed req = none ↔
        ∀ r ∈ req, acceptedBy ParseCIDR CidrContainsCidr allowed r) ∧
      ∀ e, requiredLoop ParseCIDR CidrContainsCidr allowed req = some e →
        ∃ pre r post, req = pre ++ r :: post ∧
          (∀ x ∈ pre, acceptedBy ParseCIDR CidrContainsCidr allowed x) ∧
          ¬ acceptedBy ParseCIDR CidrContainsCidr allowed r ∧
          rejectedWith ParseCIDR CidrContainsCidr allowed r e := by
  induction req with
  | nil =>
    refine ⟨by simp [requiredLoop], ?_⟩
    intro e he
    simp [requiredLoop] at he
  | cons r rest ih =>
    obtain ⟨ih1, ih2⟩ := ih
    cases hr : ParseCIDR r.RemoteCidr with
    | none =>
      have hna : ¬ acceptedBy ParseCIDR CidrContainsCidr allowed r := by
        rintro ⟨pre, o, post, _, hc, _⟩
        have := covers_parses _ _ _ _ hc
        rw [hr] at this
        exact Bool.noConfusion this
      have hrl : requiredLoop ParseCIDR CidrContainsCidr allowed (r :: rest)
          = some (TrustError.invalidAppCidr r.RemoteCidr) := by
        unfold requiredLoop
        simp only [hr]
      rw [hrl]
      refine ⟨?_, ?_⟩
      · simp only [reduceCtorEq, false_iff]
        intro hall
        exact hna (hall r (List.mem_cons_self _ _))
      · intro e he
        exact ⟨[], r, rest, rfl, by simp, hna, Or.inl ⟨hr, (Option.some.inj he).symm⟩⟩
    | some an =>
      have hsome : (ParseCIDR r.RemoteCidr).isSome = true := by rw [hr]; rfl
      rcases matchLoop_cases ParseCIDR CidrContainsCidr r an hr allowed with
        ⟨hm, ha⟩ | ⟨hm, hna, hall⟩ | ⟨hna, pre, o, post, hl, hpre, hp, hn, hm⟩
      · have hrl : requiredLoop ParseCIDR CidrContainsCidr allowed (r :: rest)
            = requiredLoop ParseCIDR CidrContainsCidr allowed rest := by
          conv_lhs => unfold requiredLoop
          simp only [hr, hm]
        rw [hrl]
        refine ⟨?_, ?_⟩
        · rw [ih1]
          simp only [List.mem_cons, forall_eq_or_imp]
          exact ⟨fun h => ⟨ha, h⟩, fun h => h.2⟩
        · intro e he
          obtain ⟨pre, x, post, hl, hpre, hx, hxe⟩ := ih2 e he
          refine ⟨r :: pre, x, post, by rw [hl]; rfl, ?_, hx, hxe⟩
          intro z hz
          rcases List.mem_cons.1 hz with hz | hz
          · subst hz; exact ha
          · exact hpre z hz
      · have hrl : requiredLoop ParseCIDR CidrContainsCidr allowed (r :: rest)
            = some (TrustError.noOutboundRule r) := by
          unfold requiredLoop
          simp only [hr, hm]
        rw [hrl]
        refine ⟨?_, ?_⟩
        · simp only [reduceCtorEq, false_iff]
          intro h
          exact hna (h r (List.mem_cons_self _ _))
        · intro e he
          exact ⟨[], r, rest, rfl, by simp, hna,
            Or.inr (Or.inr ⟨hsome, hall, (Option.some.inj he).symm⟩)⟩
      · have hrl : requiredLoop ParseCIDR CidrContainsCidr allowed (r :: rest)
            = some (TrustError.invalidPolicyCidr o.RemoteCidr) := by
          unfold requiredLoop
          simp only [hr, hm]
        rw [hrl]
        refine ⟨?_, ?_⟩
        · simp only [reduceCtorEq, false_iff]
          intro h
          exact hna (h r (List.mem_cons_self _ _))
        · intro e he
          exact ⟨[], r, rest, rfl, by simp, hna,
            Or.inr (Or.inl ⟨hsome, pre, o, post, hl, hpre, hp, hn,
              (Option.some.inj he).symm⟩)⟩

theorem acceptedBy_iff_covered {ν : Type} (ParseCIDR : String → Option ν)
    (CidrContainsCidr : ν → ν → Bool) (allowed : List SecurityRule) (r : SecurityRule)
    (hpol : ∀ o ∈ allowed, (ParseCIDR o.RemoteCidr).isSome = true) :
    acceptedBy ParseCIDR CidrContainsCidr allowed r ↔
      ∃ o ∈ allowed, covers ParseCIDR CidrContainsCidr o r = true := by
  constructor
  · rintro ⟨pre, o, post, hl, hc, _⟩
    exact ⟨o, by rw [hl]; simp, hc⟩
  · rintro ⟨o, ho, hc⟩
    obtain ⟨pre, post, hl⟩ := List.append_of_mem ho
    refine ⟨pre, o, post, hl, hc, ?_⟩
    intro x hx _
    exact hpol x (by rw [hl]; exact List.mem_append_left _ hx)

/-- C19. `CheckAppCompatibleWithTrustPolicy` for a trusted App.  The allowed
rules are the exception rules of the zone pools of the zone, then the outbound
rules of the trust policy.  A required connection is accepted when an allowed
rule covers it (same protocol up to case, a CIDR that parses and contains the
required one, and for a protocol other than icmp a port range that contains
the required one) and no allowed rule before that rule with the protocol of
the connection has a CIDR that does not parse.  The call returns nil exactly
when every required connection is accepted.  Otherwise it returns the error of
the first required connection that is not accepted: "Invalid remote CIDR in
RequiredOutboundConnections" when the CIDR of the connection does not parse,
"Invalid remote CIDR in policy" when a rule with its protocol whose CIDR does
not parse stands before every rule that covers it, and "No outbound rule in
policy or exception to match required connection ..." when every allowed rule is
passed over.  When every CIDR parses, the call returns nil exactly when every
required connection is covered by an allowed rule, and otherwise the error is
"No outbound rule ..." for the first required connection that no allowed rule
covers. -/
theorem CheckAppCompatibleWithTrustPolicy_exact {ν : Type} (ParseCIDR : String → Option ν)
    (CidrContainsCidr : ν → ν → Bool) (zoneIsSet : Bool)
    (exceptionRules : List (List SecurityRule)) (app : App) (trustPolicy : TrustPolicy)
    (htrusted : app.Trusted = true) :
    (CheckAppCompatibleWithTrustPolicy ParseCIDR CidrContainsCidr zoneIsSet exceptionRules app
          trustPolicy = none ↔
        ∀ r ∈ app.RequiredOutboundConnections,
          acceptedBy ParseCIDR CidrContainsCidr
            (allowedRules zoneIsSet exceptionRules trustPolicy) r) ∧
      (∀ e, CheckAppCompatibleWithTrustPolicy ParseCIDR CidrContainsCidr zoneIsSet exceptionRules
          app trustPolicy = some e →
        ∃ pre r post, app.RequiredOutboundConnections = pre ++ r :: post ∧
          (∀ x ∈ pre, acceptedBy ParseCIDR CidrContainsCidr
            (allowedRules zoneIsSet exceptionRules trustPolicy) x) ∧
          ¬ acceptedBy ParseCIDR CidrContainsCidr
            (allowedRules zoneIsSet exceptionRules trustPolicy) r ∧
          rejectedWith ParseCIDR CidrContainsCidr
            (allowedRules zoneIsSet exceptionRules trustPolicy) r e) ∧
      ((∀ r ∈ app.RequiredOutboundConnections, (ParseCIDR r.RemoteCidr).isSome = true) →
        (∀ o ∈ allowedRules zoneIsSet exceptionRules trustPolicy,
          (ParseCIDR o.RemoteCidr).isSome = true) →
        (CheckAppCompatibleWithTrustPolicy ParseCIDR CidrContainsCidr zoneIsSet exceptionRules
              app trustPolicy = none ↔
            ∀ r ∈ app.RequiredOutboundConnections,
              ∃ o ∈ allowedRules zoneIsSet exceptionRules trustPolicy,
                covers ParseCIDR CidrContainsCidr o r = true) ∧
          ∀ e, CheckAppCompatibleWithTrustPolicy ParseCIDR CidrContainsCidr zoneIsSet
              exceptionRules app trustPolicy = some e →
            ∃ pre r post, app.RequiredOutboundConnections = pre ++ r :: post ∧
              (∀ x ∈ pre, ∃ o ∈ allowedRules zoneIsSet exceptionRules trustPolicy,
                covers ParseCIDR CidrContainsCidr o x = true) ∧
              (∀ o ∈ allowedRules zoneIsSet exceptionRules trustPolicy,
                covers ParseCIDR CidrContainsCidr o r = false) ∧
              e = TrustError.noOutboundRule r) := by
  have hcheck : CheckAppCompatibleWithTrustPolicy ParseCIDR CidrContainsCidr zoneIsSet
      exceptionRules app trustPolicy
        = requiredLoop ParseCIDR CidrContainsCidr
            (allowedRules zoneIsSet exceptionRules trustPolicy)
            app.RequiredOutboundConnections := by
    unfold CheckAppCompatibleWithTrustPolicy
    rw [htrusted]
    simp only [Bool.true_eq_false, if_false]
  rw [hcheck]
  obtain ⟨h1, h2⟩ := requiredLoop_exact ParseCIDR CidrContainsCidr
    (allowedRules zoneIsSet exceptionRules trustPolicy) app.RequiredOutboundConnections
  refine ⟨h1, h2, ?_⟩
  intro happ hpol
  refine ⟨?_, ?_⟩
  · rw [h1]
    constructor
    · intro h r hr
      exact (acceptedBy_iff_covered _ _ _ r hpol).1 (h r hr)
    · intro h r hr
      exact (acceptedBy_iff_covered _ _ _ r hpol).2 (h r hr)
  · intro e he
    obtain ⟨pre, r, post, hl, hpre, _, hrej⟩ := h2 e he
    have hrm : r ∈ app.RequiredOutboundConnections := by rw [hl]; simp
    refine ⟨pre, r, post, hl,
      fun x hx => (acceptedBy_iff_covered _ _ _ x hpol).1 (hpre x hx), ?_⟩
    rcases hrej with ⟨hn, _⟩ | ⟨_, p2, o, q2, hl2, _, _, hn, _⟩ | ⟨_, hall, hee⟩
    · have := happ r hrm
      rw [hn] at this
      exact Bool.noConfusion this
    · have := hpol o (by rw [hl2]; simp)
      rw [hn] at this
      exact Bool.noConfusion this
    · exact ⟨fun o ho => (hall o ho).1, hee⟩

theorem CheckAppCompatibleWithTrustPolicy_exact_witness :
    exApp.Trusted = true ∧
      CheckAppCompatibleWithTrustPolicy exParseCIDR exContains false [] exApp exPolicySkipped
        = none ∧
      (∀ r ∈ exApp.RequiredOutboundConnections,
        acceptedBy exParseCIDR exContains (allowedRules false [] exPolicySkipped) r) ∧
      (∀ r ∈ exApp.RequiredOutboundConnections, (exParseCIDR r.RemoteCidr).isSome = true) ∧
      (∀ o ∈ allowedRules false [] exPolicy, (exParseCIDR o.RemoteCidr).isSome = true) ∧
      (CheckAppCompatibleWithTrustPolicy exParseCIDR exContains false [] exApp exPolicy = none ↔
        ∀ r ∈ exApp.RequiredOutboundConnections,
          ∃ o ∈ allowedRules false [] exPolicy, covers exParseCIDR exContains o r = true) :=
  ⟨by decide, by decide,
    (CheckAppCompatibleWithTrustPolicy_exact exParseCIDR exContains false [] exApp
      exPolicySkipped (by decide)).1.1 (by decide),
    by decide, by decide,
    ((CheckAppCompatibleWithTrustPolicy_exact exParseCIDR exContains false [] exApp exPolicy
      (by decide)).2.2 (by decide) (by decide)).1⟩

/-- C19 (counterexample). The trusted App `exApp` requires TCP port 80 to
10.0.0.0/16, and the rule tcp 1-65535 to 10.0.0.0/8 of the policy covers this
connection; a rule with the same protocol whose CIDR does not parse stands
before it, and `CheckAppCompatibleWithTrustPolicy` returns "Invalid remote CIDR
in policy" instead of nil.  A required connection whose own CIDR does not
parse is answered with "Invalid remote CIDR in RequiredOutboundConnections",
not with "No outbound rule ...". -/
theorem CheckAppCompatibleWithTrustPolicy_invalid_cidr :
    exApp.Trusted = true ∧
      (∀ r ∈ exApp.RequiredOutboundConnections,
        ∃ o ∈ allowedRules false [] exPolicyBad, covers exParseCIDR exContains o r = true) ∧
      CheckAppCompatibleWithTrustPolicy exParseCIDR exContains false [] exApp exPolicyBad
        = some (TrustError.invalidPolicyCidr "10.0.0.0") ∧
      CheckAppCompatibleWithTrustPolicy exParseCIDR exContains false []
          { exApp with RequiredOutboundConnections := [⟨"tcp", 80, 80, "10.0.0.0"⟩] } exPolicy
        = some (TrustError.invalidAppCidr "10.0.0.0") := by
  decide

theorem lessChars_irrefl (l : List Char) : lessChars l l = false := by
  induction l with
  | nil => rfl
  | cons c cs ih =>
    unfold lessChars
    simp [ih]

theorem insertLeft_never {α : Type} (less : α → α → Bool) (hless : ∀ x y, less x y = false)
    (x : α) (l : List α) : insertLeft less x l = x :: l := by
  cases l with
  | nil => rfl
  | cons y ys => simp [insertLeft, hless]

theorem sortSlice_never {α : Type} (less : α → α → Bool) (hless : ∀ x y, less x y = false)
    (l : List α) : sortSlice less l = l := by
  have h : ∀ (l acc : List α),
      l.foldl (fun sorted x => insertLeft less x sorted) acc = l.reverse ++ acc := by
    intro l
    induction l with
    | nil => intro acc; rfl
    | cons x xs ih =>
      intro acc
      rw [List.foldl_cons, insertLeft_never less hless, ih]
      simp
  unfold sortSlice
  rw [h]
  simp

/-- C20 (the code). `ShowZonesForAppDeployment` sends the zone keys in the order in
which the loop over the cloudlets finds them: the function `less` given to
`sort.Slice` compares a zone key with itself and is never true, so nothing is
moved.  For the cloudlets c1 (zone-b) and c2 (zone-a), visited in this order,
it sends zone-b before zone-a, though zone-a is the smaller key string. -/
theorem ShowZonesForAppDeployment_unsorted :
    (∀ (κ ζ : Type) (GetZoneFor : κ → ζ) (IsSet : ζ → Bool) (GetKeyString : ζ → String)
        (allclds : List κ),
        ShowZonesForAppDeployment GetZoneFor IsSet GetKeyString allclds
          = (allclds.map GetZoneFor).filter IsSet) ∧
      ShowZonesForAppDeployment exZoneFor (fun z => decide (z ≠ "")) id ["c1", "c2", "c3"]
        = ["zone-b", "zone-a"] ∧
      Less "zone-a" "zone-b" = true := by
  have hgen : ∀ (κ ζ : Type) (GetZoneFor : κ → ζ) (IsSet : ζ → Bool)
      (GetKeyString : ζ → String) (allclds : List κ),
      ShowZonesForAppDeployment GetZoneFor IsSet GetKeyString allclds
        = (allclds.map GetZoneFor).filter IsSet := by
    intro κ ζ GetZoneFor IsSet GetKeyString allclds
    unfold ShowZonesForAppDeployment
    exact sortSlice_never _ (fun x _ => lessChars_irrefl _) _
  exact ⟨hgen, (hgen _ _ _ _ _ _).trans (by decide), by decide⟩

end controller

namespace clusterrefs

open controller

theorem stmGet_stmDel {κ β : Type} [DecidableEq κ] (m : List (κ × β)) (k k2 : κ) :
    stmGet (stmDel m k) k2 = if k2 = k then none else stmGet m k2 := by
  unfold stmDel
  induction m with
  | nil => simp [stmGet]
  | cons x rest ih =>
    obtain ⟨k0, v⟩ := x
    by_cases h0 : k0 = k
    · rw [List.filter_cons_of_neg (by simpa using h0), ih]
      subst h0
      by_cases h : k2 = k0
      · simp [h]
      · have h2 : ¬ k0 = k2 := fun e => h e.symm
        simp [stmGet, h, h2]
    · rw [List.filter_cons_of_pos (by simpa using h0)]
      by_cases h : k0 = k2
      · subst h; simp [stmGet, h0]
      · simp only [stmGet, if_neg h]
        exact ih

theorem stmPut_stmPut_same {κ β : Type} [DecidableEq κ] (m : List (κ × β)) (k : κ) (v w : β) :
    stmPut (stmPut m k v) k w = stmPut m k w := by
  induction m with
  | nil => simp [stmPut]
  | cons x rest ih =>
    obtain ⟨k0, v0⟩ := x
    by_cases h0 : k0 = k
    · simp [stmPut, h0]
    · simp [stmPut, h0, ih]

theorem stmPut_of_get {κ β : Type} [DecidableEq κ] (m : List (κ × β)) (k : κ) (v : β)
    (h : stmGet m k = some v) : stmPut m k v = m := by
  induction m with
  | nil => simp [stmGet] at h
  | cons x rest ih =>
    obtain ⟨k0, v0⟩ := x
    by_cases h0 : k0 = k
    · simp only [stmGet, if_pos h0, Option.some.injEq] at h
      simp [stmPut, h0, h]
    · simp only [stmGet, if_neg h0] at h
      simp [stmPut, h0, ih h]

theorem stmDel_of_absent {κ β : Type} [DecidableEq κ] (m : List (κ × β)) (k : κ)
    (h : stmGet m k = none) : stmDel m k = m := by
  unfold stmDel
  rw [List.filter_eq_self]
  intro e he
  induction m with
  | nil => simp at he
  | cons x rest ih =>
    obtain ⟨k0, v0⟩ := x
    by_cases h0 : k0 = k
    · simp [stmGet, h0] at h
    · simp only [stmGet, if_neg h0] at h
      rcases List.mem_cons.1 he with he | he
      · subst he; simpa using h0
      · exact ih h he

theorem stmDel_stmPut_absent {κ β : Type} [DecidableEq κ] (m : List (κ × β)) (k : κ) (v : β)
    (h : stmGet m k = none) : stmDel (stmPut m k v) k = m := by
  induction m with
  | nil => simp [stmPut, stmDel]
  | cons x rest ih =>
    obtain ⟨k0, v0⟩ := x
    by_cases h0 : k0 = k
    · simp [stmGet, h0] at h
    · simp only [stmGet, if_neg h0] at h
      have := ih h
      unfold stmDel at this ⊢
      simp only [stmPut, if_neg h0]
      rw [List.filter_cons_of_pos (by simpa using h0), this]

theorem Matches_iff (m o : AppInstKey) : m.Matches o false = true ↔ m = o := by
  cases m with
  | mk mn mo =>
    cases o with
    | mk n2 o2 =>
      have e1 : (mn = n2) ↔ (n2 = mn) := eq_comm
      have e2 : (mo = o2) ↔ (o2 = mo) := eq_comm
      by_cases h1 : n2 = mn <;> by_cases h2 : o2 = mo <;>
        simp [AppInstKey.Matches, stringFieldMatches, h1, h2, e1, e2]

theorem any_Matches_iff (k : AppInstKey) (l : List AppInstKey) :
    l.any (fun aikey => aikey.Matches k false) = true ↔ k ∈ l := by
  rw [List.any_eq_true]
  constructor
  · rintro ⟨x, hx, hm⟩
    rw [(Matches_iff x k).1 hm] at hx
    exact hx
  · intro h
    exact ⟨k, h, (Matches_iff k k).2 rfl⟩

theorem removeFirstMatch_append (k : AppInstKey) (l : List AppInstKey) (h : k ∉ l) :
    removeFirstMatch k (l ++ [k]) = some l := by
  induction l with
  | nil => simp [removeFirstMatch, (Matches_iff k k).2 rfl]
  | cons x rest ih =>
    have hx : k.Matches x false ≠ true := by
      intro hm
      exact h ((Matches_iff k x).1 hm ▸ List.mem_cons_self _ _)
    rw [List.cons_append, removeFirstMatch, if_neg hx,
      ih (fun hr => h (List.mem_cons_of_mem _ hr))]
    rfl

theorem releaseLoop_iff (appInst : AppInst) (l : List AppInstKey) :
    releaseLoop appInst l = true ↔
      ∀ k ∈ l, k ≠ appInst.Key → k.Organization ≠ appInst.Key.Organization := by
  induction l with
  | nil => simp [releaseLoop]
  | cons x rest ih =>
    unfold releaseLoop
    by_cases hm : appInst.Key.Matches x false = true
    · rw [if_pos hm, ih]
      have hx : x = appInst.Key := ((Matches_iff _ _).1 hm).symm
      simp only [List.mem_cons, forall_eq_or_imp]
      exact ⟨fun h => ⟨fun hne => absurd hx hne, h⟩, fun h => h.2⟩
    · rw [if_neg hm]
      have hx : x ≠ appInst.Key := fun e => hm ((Matches_iff _ _).2 e.symm)
      by_cases ho : x.Organization = appInst.Key.Organization
      · rw [if_pos ho]
        simp only [List.mem_cons, forall_eq_or_imp, Bool.false_eq_true, false_iff, not_and]
        intro h
        exact absurd ho (h hx)
      · rw [if_neg ho, ih]
        simp only [List.mem_cons, forall_eq_or_imp]
        exact ⟨fun h => ⟨fun _ => ho, h⟩, fun h => h.2⟩

/-- C21. `canReleaseReservation` returns true exactly when the ClusterRefs of the
cluster of the AppInst are absent or no key in `refs.Apps` other than the key
of the AppInst has the organization of the AppInst. -/
theorem canReleaseReservation_iff (store : List (ClusterKey × ClusterRefs)) (appInst : AppInst) :
    canReleaseReservation store appInst = true ↔
      (stmGet store appInst.ClusterKey = none ∨
        ∃ refs, stmGet store appInst.ClusterKey = some refs ∧
          ∀ k ∈ refs.Apps, k ≠ appInst.Key → k.Organization ≠ appInst.Key.Organization) := by
  unfold canReleaseReservation
  cases h : stmGet store appInst.ClusterKey with
  | none => simp
  | some refs =>
    simp only [releaseLoop_iff, reduceCtorEq, false_or, Option.some.injEq, exists_eq_left']

/-- C22. `removeRef` undoes `addRef`.  Let the stored ClusterRefs carry the key
they are stored under.  If the refs of the cluster of the AppInst are absent,
or hold a non-empty list `Apps` without duplicates that does not contain the
key of the AppInst, then `addRef` followed by `removeRef` gives the table as
it was.  Removing the only AppInst of a cluster deletes the ClusterRefs of the
cluster. -/
theorem removeRef_addRef (store : List (ClusterKey × ClusterRefs)) (appInst : AppInst)
    (hkey : ∀ r, stmGet store appInst.ClusterKey = some r → r.Key = appInst.ClusterKey) :
    ((stmGet store appInst.ClusterKey = none ∨
        ∃ r, stmGet store appInst.ClusterKey = some r ∧ r.Apps ≠ [] ∧ r.Apps.Nodup ∧
          appInst.Key ∉ r.Apps) →
      removeRef (addRef store appInst) appInst = store) ∧
      ∀ refs, stmGet store appInst.ClusterKey = some refs → refs.Apps = [appInst.Key] →
        stmGet (removeRef store appInst) appInst.ClusterKey = none := by
  constructor
  · intro hpre
    rcases hpre with hnone | ⟨r, hr, hne, _, hnot⟩
    · have hadd : addRef store appInst
          = stmPut store appInst.ClusterKey ⟨appInst.ClusterKey, [appInst.Key]⟩ := by
        simp [addRef, hnone]
      rw [hadd]
      unfold removeRef
      simp only [stmGet_stmPut, if_true, removeFirstMatch, (Matches_iff _ _).2, List.length_nil]
      exact stmDel_stmPut_absent store _ _ hnone
    · have hk := hkey r hr
      have hany : r.Apps.any (fun aikey => aikey.Matches appInst.Key false) = false := by
        rw [Bool.eq_false_iff]
        intro h
        exact hnot ((any_Matches_iff _ _).1 h)
      have hadd : addRef store appInst
          = stmPut store r.Key { r with Apps := r.Apps ++ [appInst.Key] } := by
        simp [addRef, hr, hany]
      rw [hadd]
      unfold removeRef
      rw [← hk] at hr ⊢
      simp only [stmGet_stmPut, if_true, removeFirstMatch_append _ _ hnot]
      have hlen : ¬ r.Apps.length = 0 := by
        intro h
        exact hne (List.length_eq_zero.1 h)
      rw [if_neg hlen, stmPut_stmPut_same]
      have hrr : ({ Key := r.Key, Apps := r.Apps } : ClusterRefs) = r := by cases r; rfl
      rw [hrr]
      exact stmPut_of_get store _ r hr
  · intro refs hget happs
    unfold removeRef
    simp only [hget, happs, removeFirstMatch, (Matches_iff _ _).2, List.length_nil, if_true]
    rw [stmGet_stmDel, if_pos rfl]

theorem removeRef_addRef_witness :
    (∀ r, stmGet exRefs exInst2.ClusterKey = some r → r.Key = exInst2.ClusterKey) ∧
      (∃ r, stmGet exRefs exInst2.ClusterKey = some r ∧ r.Apps ≠ [] ∧ r.Apps.Nodup ∧
        exInst2.Key ∉ r.Apps) ∧
      removeRef (addRef exRefs exInst2) exInst2 = exRefs ∧
      stmGet (removeRef exRefs exInst1) exInst1.ClusterKey = none :=
  ⟨by decide, ⟨⟨exCluster, [exInst1.Key]⟩, by decide, by decide, by decide, by decide⟩,
    (removeRef_addRef exRefs exInst2 (by decide)).1
      (Or.inr ⟨⟨exCluster, [exInst1.Key]⟩, by decide, by decide, by decide, by decide⟩),
    (removeRef_addRef exRefs exInst1 (by decide)).2
      ⟨exCluster, [exInst1.Key]⟩ (by decide) (by decide)⟩

end clusterrefs

namespace clusterrefs

open controller

/-- The entry `addRef` reads: the stored refs of the cluster, or empty refs with
the key of the cluster. -/
theorem addRef_cases (store : List (ClusterKey × ClusterRefs)) (appInst : AppInst)
    (refs : ClusterRefs)
    (hrefs : refs = (stmGet store appInst.ClusterKey).getD ⟨appInst.ClusterKey, []⟩) :
    (appInst.Key ∈ refs.Apps ∧ addRef store appInst = store) ∨
      (appInst.Key ∉ refs.Apps ∧
        addRef store appInst
          = stmPut store refs.Key ⟨refs.Key, refs.Apps ++ [appInst.Key]⟩) := by
  subst hrefs
  by_cases hany : ((stmGet store appInst.ClusterKey).getD ⟨appInst.ClusterKey, []⟩).Apps.any
      (fun aikey => aikey.Matches appInst.Key false) = true
  · left
    refine ⟨(any_Matches_iff _ _).1 hany, ?_⟩
    unfold addRef
    simp only [hany, if_true]
  · right
    refine ⟨fun h => hany ((any_Matches_iff _ _).2 h), ?_⟩
    unfold addRef
    simp only [hany, Bool.false_eq_true, if_false]

/-- C23. `addRef` is idempotent: applying it twice for the same AppInst gives the
table that applying it once gives.  If the stored ClusterRefs carry the key
they are stored under and `refs.Apps` of the cluster held no key twice, then
after `addRef` the refs of the cluster exist, hold no key twice and hold the
key of the AppInst exactly once. -/
theorem addRef_idempotent (store : List (ClusterKey × ClusterRefs)) (appInst : AppInst) :
    addRef (addRef store appInst) appInst = addRef store appInst ∧
      ((∀ r, stmGet store appInst.ClusterKey = some r → r.Key = appInst.ClusterKey) →
        (∀ r, stmGet store appInst.ClusterKey = some r → r.Apps.Nodup) →
        ∃ r, stmGet (addRef store appInst) appInst.ClusterKey = some r ∧ r.Apps.Nodup ∧
          r.Apps.count appInst.Key = 1) := by
  rcases addRef_cases store appInst _ rfl with ⟨hin, hadd⟩ | ⟨hnot, hadd⟩
  · rw [hadd]
    refine ⟨hadd, ?_⟩
    intro _ hnd
    cases hget : stmGet store appInst.ClusterKey with
    | none =>
      rw [hget] at hin
      simp at hin
    | some r =>
      rw [hget] at hin
      simp only [Option.getD_some] at hin
      exact ⟨r, rfl, hnd r hget, List.count_eq_one_of_mem (hnd r hget) hin⟩
  · constructor
    · by_cases hk : ((stmGet store appInst.ClusterKey).getD ⟨appInst.ClusterKey, []⟩).Key
          = appInst.ClusterKey
      · have hget2 : stmGet (addRef store appInst) appInst.ClusterKey
            = some ⟨((stmGet store appInst.ClusterKey).getD ⟨appInst.ClusterKey, []⟩).Key,
                ((stmGet store appInst.ClusterKey).getD ⟨appInst.ClusterKey, []⟩).Apps
                  ++ [appInst.Key]⟩ := by
          rw [hadd, stmGet_stmPut, if_pos hk.symm]
        rcases addRef_cases (addRef store appInst) appInst _ rfl with ⟨_, h2⟩ | ⟨hnot2, _⟩
        · exact h2
        · rw [hget2] at hnot2
          simp at hnot2
      · have hget2 : stmGet (addRef store appInst) appInst.ClusterKey
            = stmGet store appInst.ClusterKey := by
          rw [hadd, stmGet_stmPut, if_neg (fun e => hk e.symm)]
        rcases addRef_cases (addRef store appInst) appInst _ rfl with ⟨hin2, _⟩ | ⟨_, h2⟩
        · rw [hget2] at hin2
          exact absurd hin2 hnot
        · rw [h2, hget2, hadd, stmPut_stmPut_same]
    · intro hkey hnd
      cases hget : stmGet store appInst.ClusterKey with
      | none =>
        rw [hget] at hadd
        simp only [Option.getD_none] at hadd
        refine ⟨_, by rw [hadd, stmGet_stmPut, if_pos rfl], ?_, ?_⟩
        · simp
        · simp
      | some r =>
        rw [hget] at hadd hnot
        simp only [Option.getD_some] at hadd hnot
        refine ⟨_, by rw [hadd, stmGet_stmPut, if_pos (hkey r hget).symm], ?_, ?_⟩
        · simp only []
          rw [List.nodup_append]
          refine ⟨hnd r hget, by simp, ?_⟩
          intro x hx hx2
          rw [List.mem_singleton.1 hx2] at hx
          exact hnot hx
        · simp only []
          rw [List.count_append, List.count_eq_zero_of_not_mem hnot]
          simp

theorem addRef_idempotent_witness :
    addRef (addRef exRefs exInst2) exInst2 = addRef exRefs exInst2 ∧
      ∃ r, stmGet (addRef exRefs exInst2) exInst2.ClusterKey = some r ∧ r.Apps.Nodup ∧
        r.Apps.count exInst2.Key = 1 :=
  ⟨(addRef_idempotent exRefs exInst2).1,
    (addRef_idempotent exRefs exInst2).2 (by decide) (by decide)⟩

end clusterrefs

namespace cloudletinfo

open controller edgeproto

/-- C24. Notify `Delete` of a CloudletInfo only marks the cloudlet offline.  Let
the stored CloudletInfo carry the key it is stored under.  `Delete` removes no
entry of the table and adds none.  If the entry of the key exists and its
`NotifyId` and `Controller` are the `NotifyId` of the argument and
`ControllerId`, the entry becomes the stored one with `State` set to
`CLOUDLET_STATE_OFFLINE` and `Fields` set to the state field, and every other
entry reads as before; in every other case the table is unchanged. -/
theorem Delete_marks_offline (ControllerId CloudletInfoFieldState : String)
    (store : List (CloudletKey × CloudletInfo)) (inp : CloudletInfo)
    (hkey : ∀ b, stmGet store inp.Key = some b → b.Key = inp.Key) :
    (∀ k, (stmGet (Delete ControllerId CloudletInfoFieldState store inp) k).isSome
        = (stmGet store k).isSome) ∧
      (∀ buf, stmGet store inp.Key = some buf → buf.NotifyId = inp.NotifyId →
        buf.Controller = ControllerId →
        stmGet (Delete ControllerId CloudletInfoFieldState store inp) inp.Key
            = some { buf with State := CloudletState.OFFLINE,
                              Fields := some [CloudletInfoFieldState] } ∧
          ∀ k, k ≠ inp.Key →
            stmGet (Delete ControllerId CloudletInfoFieldState store inp) k = stmGet store k) ∧
      ((∀ buf, stmGet store inp.Key = some buf →
          buf.NotifyId ≠ inp.NotifyId ∨ buf.Controller ≠ ControllerId) →
        Delete ControllerId CloudletInfoFieldState store inp = store) := by
  refine ⟨?_, ?_, ?_⟩
  · intro k
    unfold Delete
    cases hget : stmGet store inp.Key with
    | none => rfl
    | some buf =>
      simp only []
      split_ifs with hc
      · rfl
      · rw [stmGet_stmPut, hkey buf hget]
        by_cases hk : k = inp.Key
        · rw [if_pos hk, hk, hget]
          rfl
        · rw [if_neg hk]
  · intro buf hget hn hc
    have hcond : ¬ (buf.NotifyId ≠ inp.NotifyId ∨ buf.Controller ≠ ControllerId) := by
      simp [hn, hc]
    have hd : Delete ControllerId CloudletInfoFieldState store inp
        = stmPut store inp.Key
            { buf with State := CloudletState.OFFLINE,
                       Fields := some [CloudletInfoFieldState] } := by
      unfold Delete
      simp only [hget, if_neg hcond, hkey buf hget]
    rw [hd]
    refine ⟨by rw [stmGet_stmPut, if_pos rfl], ?_⟩
    intro k hk
    rw [stmGet_stmPut, if_neg hk]
  · intro hall
    unfold Delete
    cases hget : stmGet store inp.Key with
    | none => rfl
    | some buf =>
      simp only []
      rw [if_pos (hall buf hget)]

theorem Delete_marks_offline_witness :
    (∀ b, stmGet (exInfoStore CloudletState.READY TrackedState.READY).cloudletInfos
        (exInfo CloudletState.READY).Key = some b → b.Key = (exInfo CloudletState.READY).Key) ∧
      stmGet (Delete "ctrl1" "3" (exInfoStore CloudletState.READY TrackedState.READY).cloudletInfos
          (exInfo CloudletState.READY)) (exInfo CloudletState.READY).Key
        = some { exInfo CloudletState.READY with State := CloudletState.OFFLINE,
                                                 Fields := some ["3"] } :=
  ⟨by decide,
    ((Delete_marks_offline "ctrl1" "3"
      (exInfoStore CloudletState.READY TrackedState.READY).cloudletInfos
      (exInfo CloudletState.READY) (by decide)).2.1 (exInfo CloudletState.READY)
        (by decide) (by decide) (by decide)).1⟩

/-- The branch of `cleanupCloudletInfo` that waits for the CRM: for a Cloudlet
with a CRM on the edge, without restricted access to the infrastructure and
not federated, the CloudletInfo is removed only when its stored state is
`CLOUDLET_STATE_OFFLINE`; in any other state the table is left as it is and the
error "could not delete CloudletInfo, state is ... instead of offline" is
logged.  No other entry is touched. -/
theorem cleanupCloudletInfo_offline_only (stateString : CloudletState → String)
    (store : List (CloudletKey × CloudletInfo)) (inp : Cloudlet)
    (hcrm : inp.CrmOnEdge = true)
    (haccess : inp.InfraApiAccess ≠ InfraApiAccess.RESTRICTED_ACCESS)
    (hfed : inp.Key.FederatedOrganization = "") :
    (∀ info, stmGet store inp.Key = some info → info.State ≠ CloudletState.OFFLINE →
        cleanupCloudletInfo stateString store inp
          = (store, some ("could not delete CloudletInfo, state is " ++ stateString info.State
              ++ " instead of offline"))) ∧
      (∀ info, stmGet store inp.Key = some info → info.State = CloudletState.OFFLINE →
        stmGet (cleanupCloudletInfo stateString store inp).1 inp.Key = none ∧
          (cleanupCloudletInfo stateString store inp).2 = none) ∧
      (∀ k, k ≠ inp.Key →
        stmGet (cleanupCloudletInfo stateString store inp).1 k = stmGet store k) := by
  have hcond : ¬ (inp.CrmOnEdge = false ∨ inp.InfraApiAccess = InfraApiAccess.RESTRICTED_ACCESS ∨
      inp.Key.FederatedOrganization ≠ "") := by
    simp [hcrm, haccess, hfed]
  refine ⟨?_, ?_, ?_⟩
  · intro info hget hs
    unfold cleanupCloudletInfo
    rw [if_neg hcond, hget]
    simp only [if_pos hs]
  · intro info hget hs
    unfold cleanupCloudletInfo
    rw [if_neg hcond, hget]
    have hs2 : ¬ info.State ≠ CloudletState.OFFLINE := not_not.2 hs
    simp only [if_neg hs2]
    exact ⟨by rw [clusterrefs.stmGet_stmDel, if_pos rfl], trivial⟩
  · intro k hk
    unfold cleanupCloudletInfo
    rw [if_neg hcond]
    cases hget : stmGet store inp.Key with
    | none => rfl
    | some info =>
      simp only []
      split_ifs
      · rfl
      · rw [clusterrefs.stmGet_stmDel, if_neg hk]

theorem cleanupCloudletInfo_offline_only_witness :
    (exCloudlet TrackedState.READY).CrmOnEdge = true ∧
      (exCloudlet TrackedState.READY).InfraApiAccess ≠ InfraApiAccess.RESTRICTED_ACCESS ∧
      (exCloudlet TrackedState.READY).Key.FederatedOrganization = "" ∧
      cleanupCloudletInfo exStateString
          (exInfoStore CloudletState.READY TrackedState.READY).cloudletInfos
          (exCloudlet TrackedState.READY)
        = ((exInfoStore CloudletState.READY TrackedState.READY).cloudletInfos,
          some ("could not delete CloudletInfo, state is "
            ++ exStateString (exInfo CloudletState.READY).State ++ " instead of offline")) :=
  ⟨by decide, by decide, by decide,
    (cleanupCloudletInfo_offline_only exStateString
      (exInfoStore CloudletState.READY TrackedState.READY).cloudletInfos
      (exCloudlet TrackedState.READY) (by decide) (by decide) (by decide)).1
        (exInfo CloudletState.READY) (by decide) (by decide)⟩

/-- C25 (the code). For a Cloudlet without a CRM on the edge, with restricted
access to the infrastructure, or federated, `cleanupCloudletInfo` removes the
CloudletInfo whatever its stored state, without an error, and touches no other
entry.  A CloudletInfo in `CLOUDLET_STATE_READY` is removed in each of the three
cases, while for a Cloudlet with a CRM on the edge the same entry stays and
the error "could not delete CloudletInfo, state is ... instead of offline" is
logged. -/
theorem cleanupCloudletInfo_deletes_any_state :
    (∀ (stateString : CloudletState → String) (store : List (CloudletKey × CloudletInfo))
        (inp : Cloudlet),
        (inp.CrmOnEdge = false ∨ inp.InfraApiAccess = InfraApiAccess.RESTRICTED_ACCESS ∨
          inp.Key.FederatedOrganization ≠ "") →
        stmGet (cleanupCloudletInfo stateString store inp).1 inp.Key = none ∧
          (cleanupCloudletInfo stateString store inp).2 = none ∧
          ∀ k, k ≠ inp.Key →
            stmGet (cleanupCloudletInfo stateString store inp).1 k = stmGet store k) ∧
      stmGet (exInfoStore CloudletState.READY TrackedState.READY).cloudletInfos exCKey
        = some (exInfo CloudletState.READY) ∧
      (exInfo CloudletState.READY).State = CloudletState.READY ∧
      cleanupCloudletInfo exStateString
          (exInfoStore CloudletState.READY TrackedState.READY).cloudletInfos
          { exCloudlet TrackedState.READY with CrmOnEdge := false }
        = ([], none) ∧
      cleanupCloudletInfo exStateString
          (exInfoStore CloudletState.READY TrackedState.READY).cloudletInfos
          { exCloudlet TrackedState.READY with
            InfraApiAccess := InfraApiAccess.RESTRICTED_ACCESS }
        = ([], none) ∧
      cleanupCloudletInfo exStateString
          [(⟨"operator", "cloudlet1", "fedorg"⟩,
            { exInfo CloudletState.READY with Key := ⟨"operator", "cloudlet1", "fedorg"⟩ })]
          { exCloudlet TrackedState.READY with Key := ⟨"operator", "cloudlet1", "fedorg"⟩ }
        = ([], none) ∧
      cleanupCloudletInfo exStateString
          (exInfoStore CloudletState.READY TrackedState.READY).cloudletInfos
          (exCloudlet TrackedState.READY)
        = ((exInfoStore CloudletState.READY TrackedState.READY).cloudletInfos,
          some "could not delete CloudletInfo, state is CLOUDLET_STATE_READY instead of offline")
      := by
  refine ⟨?_, by decide, by decide, by decide, by decide, by decide, by decide⟩
  intro stateString store inp h
  unfold cleanupCloudletInfo
  rw [if_pos h]
  cases hget : stmGet store inp.Key with
  | none => exact ⟨hget, rfl, fun _ _ => rfl⟩
  | some info =>
    refine ⟨by rw [clusterrefs.stmGet_stmDel, if_pos rfl], rfl, ?_⟩
    intro k hk
    rw [clusterrefs.stmGet_stmDel, if_neg hk]

theorem setTrustPolicyState_inv (inp : CloudletInfo) (c : Cloudlet × Bool) :
    (setTrustPolicyState inp c).1.Key = c.1.Key ∧
      (setTrustPolicyState inp c).1.State = c.1.State ∧
      ((setTrustPolicyState inp c).2 = false → setTrustPolicyState inp c = c) := by
  unfold setTrustPolicyState
  by_cases h : c.1.TrustPolicyState ≠ inp.TrustPolicyState ∧
      inp.TrustPolicyState ≠ TrackedState.TRACKED_STATE_UNKNOWN
  · rw [if_pos h]
    exact ⟨rfl, rfl, fun hf => Bool.noConfusion hf⟩
  · rw [if_neg h]
    exact ⟨rfl, rfl, fun _ => rfl⟩

theorem setState_inv (inp : CloudletInfo) (newState : TrackedState) (c : Cloudlet × Bool) :
    (setState inp newState c).1.Key = c.1.Key ∧
      (setState inp newState c).1.State = newState ∧
      ((setState inp newState c).2 = false → setState inp newState c = c) := by
  unfold setState
  by_cases h : c.1.State ≠ newState
  · rw [if_pos h]
    exact ⟨rfl, rfl, fun hf => Bool.noConfusion hf⟩
  · rw [if_neg h]
    exact ⟨rfl, not_not.1 h, fun _ => rfl⟩

theorem setContainerVersion_inv (inp : CloudletInfo) (c : Cloudlet × Bool) :
    (setContainerVersion inp c).1.Key = c.1.Key ∧
      (setContainerVersion inp c).1.State = c.1.State ∧
      ((setContainerVersion inp c).2 = false → setContainerVersion inp c = c) := by
  unfold setContainerVersion
  by_cases h : c.1.ContainerVersion ≠ inp.ContainerVersion
  · rw [if_pos h]
    exact ⟨rfl, rfl, fun hf => Bool.noConfusion hf⟩
  · rw [if_neg h]
    exact ⟨rfl, rfl, fun _ => rfl⟩

theorem setInfraFlavors_inv (env : InfoEnv) (inp : CloudletInfo) (fmap : FieldMap)
    (c : Cloudlet × Bool) :
    (setInfraFlavors env inp fmap c).1.Key = c.1.Key ∧
      (setInfraFlavors env inp fmap c).1.State = c.1.State ∧
      ((setInfraFlavors env inp fmap c).2 = false → setInfraFlavors env inp fmap c = c) := by
  unfold setInfraFlavors
  by_cases h : c.1.Key.FederatedOrganization = "" ∧
      fmap.HasOrHasChild env.CloudletInfoFieldFlavors = true
  · rw [if_pos h]
    exact ⟨rfl, rfl, fun hf => Bool.noConfusion hf⟩
  · rw [if_neg h]
    exact ⟨rfl, rfl, fun _ => rfl⟩

theorem updateCloudletTxn_state (env : InfoEnv) (cloudlets : List (CloudletKey × Cloudlet))
    (inp : CloudletInfo) (fmap : FieldMap) (newState : TrackedState) (stored : Cloudlet)
    (hget : stmGet cloudlets inp.Key = some stored) (hkey : stored.Key = inp.Key) :
    ∃ c, stmGet (updateCloudletTxn env cloudlets inp fmap newState) inp.Key = some c ∧
      c.State = newState := by
  obtain ⟨k1, _, u1⟩ := setTrustPolicyState_inv inp (stored, false)
  obtain ⟨k2, s2, u2⟩ := setState_inv inp newState (setTrustPolicyState inp (stored, false))
  obtain ⟨k3, s3, u3⟩ := setContainerVersion_inv inp
    (setState inp newState (setTrustPolicyState inp (stored, false)))
  obtain ⟨k4, s4, u4⟩ := setInfraFlavors_inv env inp fmap (setContainerVersion inp
    (setState inp newState (setTrustPolicyState inp (stored, false))))
  have hk : (setInfraFlavors env inp fmap (setContainerVersion inp
      (setState inp newState (setTrustPolicyState inp (stored, false))))).1.Key = inp.Key := by
    rw [k4, k3, k2, k1]
    exact hkey
  have hs : (setInfraFlavors env inp fmap (setContainerVersion inp
      (setState inp newState (setTrustPolicyState inp (stored, false))))).1.State = newState := by
    rw [s4, s3, s2]
  unfold updateCloudletTxn
  simp only [hget]
  split_ifs with hflag
  · exact ⟨_, by rw [stmGet_stmPut, if_pos hk.symm], hs⟩
  · have hf := Bool.eq_false_iff.2 hflag
    have e4 := u4 hf
    rw [e4] at hf hs
    have e3 := u3 hf
    rw [e3] at hf hs
    have e2 := u2 hf
    rw [e2] at hf hs
    have e1 := u1 hf
    rw [e1] at hs
    exact ⟨stored, hget, hs⟩

theorem newStateFor_errors (s : TrackedState) :
    newStateFor CloudletState.ERRORS s
      = some (if s = TrackedState.UPDATE_REQUESTED ∨ s = TrackedState.UPDATING then
            TrackedState.UPDATE_ERROR
          else if s = TrackedState.CREATE_REQUESTED ∨ s = TrackedState.CREATING then
            TrackedState.CREATE_ERROR
          else TrackedState.TRACKED_STATE_UNKNOWN) := by
  unfold newStateFor
  split_ifs <;> rfl

/-- C26 (the code). When `UpdateFields` handles a CloudletInfo that is not from a
standby CRM and whose state, after the update of the stored info, is
`CLOUDLET_STATE_ERRORS`, the stored Cloudlet (carrying its key) ends in the
state `UPDATE_ERROR` if the cached Cloudlet is in `UPDATE_REQUESTED` or
`UPDATING`, in `CREATE_ERROR` if it is in `CREATE_REQUESTED` or `CREATING`, and
in `TRACKED_STATE_UNKNOWN` in every other case.  A Cloudlet in `CREATING` goes
to `CREATE_ERROR`; a Cloudlet in `READY`, and a Cloudlet already in
`CREATE_ERROR` for which the error is reported again, go to
`TRACKED_STATE_UNKNOWN`. -/
theorem UpdateFields_errors_unknown :
    (∀ (env : InfoEnv) (st : Store) (cloudlet stored : Cloudlet) (inp : CloudletInfo),
        inp.StandbyCrm = false →
        (updateInfoTxn env st.cloudletInfos inp).2.State = CloudletState.ERRORS →
        stmGet st.cloudlets (updateInfoTxn env st.cloudletInfos inp).2.Key = some stored →
        stored.Key = (updateInfoTxn env st.cloudletInfos inp).2.Key →
        ∃ c, stmGet (UpdateFields env st (some cloudlet) inp).cloudlets
              (updateInfoTxn env st.cloudletInfos inp).2.Key = some c ∧
          c.State =
            (if cloudlet.State = TrackedState.UPDATE_REQUESTED ∨
                cloudlet.State = TrackedState.UPDATING then TrackedState.UPDATE_ERROR
              else if cloudlet.State = TrackedState.CREATE_REQUESTED ∨
                cloudlet.State = TrackedState.CREATING then TrackedState.CREATE_ERROR
              else TrackedState.TRACKED_STATE_UNKNOWN)) ∧
      (UpdateFields exInfoEnv (exInfoStore CloudletState.INIT TrackedState.CREATING)
          (some (exCloudlet TrackedState.CREATING)) (exInfo CloudletState.ERRORS)).cloudlets
        = [(exCKey, { exCloudlet TrackedState.CREATE_ERROR with
            Errors := some ["crm failure"] })] ∧
      (UpdateFields exInfoEnv (exInfoStore CloudletState.READY TrackedState.READY)
          (some (exCloudlet TrackedState.READY)) (exInfo CloudletState.ERRORS)).cloudlets
        = [(exCKey, { exCloudlet TrackedState.TRACKED_STATE_UNKNOWN with
            Errors := some ["crm failure"] })] ∧
      (UpdateFields exInfoEnv (exInfoStore CloudletState.ERRORS TrackedState.CREATE_ERROR)
          (some (exCloudlet TrackedState.CREATE_ERROR)) (exInfo CloudletState.ERRORS)).cloudlets
        = [(exCKey, { exCloudlet TrackedState.TRACKED_STATE_UNKNOWN with
            Errors := some ["crm failure"] })] := by
  refine ⟨?_, by decide, by decide, by decide⟩
  intro env st cloudlet stored inp hstandby hstate hget hkey
  unfold UpdateFields
  rw [hstandby]
  simp only [Bool.false_eq_true, if_false, hstate, newStateFor_errors]
  exact updateCloudletTxn_state env _ _ _ _ stored hget hkey

end cloudletinfo

namespace util

open gostrings

theorem applyAnnotation_inv (port : String) (p q : PortSpec) (key val : String)
    (h : applyAnnotation port p key val = Sum.inr q) (hp : annotationsFit p) :
    q.Proto = p.Proto ∧ q.Port = p.Port ∧ q.EndPort = p.EndPort ∧ annotationsFit q := by
  obtain ⟨h1, h2, h3, h4⟩ := hp
  unfold applyAnnotation at h
  by_cases k1 : key = "tls"
  · rw [if_pos k1] at h
    by_cases c : p.Proto ≠ "tcp" ∧ p.Proto ≠ "http"
    · rw [if_pos c] at h; exact Sum.noConfusion h
    · rw [if_neg c] at h
      have := Sum.inr.inj h
      subst this
      refine ⟨rfl, rfl, rfl, ?_, h2, h3, h4⟩
      intro _
      by_cases ht : p.Proto = "tcp"
      · exact Or.inl ht
      · exact Or.inr (not_not.1 (fun hh => c ⟨ht, hh⟩))
  rw [if_neg k1] at h
  by_cases k2 : key = "nginx"
  · rw [if_pos k2] at h
    by_cases c : p.Proto ≠ "udp"
    · rw [if_pos c] at h; exact Sum.noConfusion h
    · rw [if_neg c] at h
      have := Sum.inr.inj h
      subst this
      exact ⟨rfl, rfl, rfl, h1, fun _ => not_not.1 c, h3, h4⟩
  rw [if_neg k2] at h
  by_cases k3 : key = "maxpktsize"
  · rw [if_pos k3] at h
    by_cases c : p.Proto ≠ "udp"
    · rw [if_pos c] at h; exact Sum.noConfusion h
    · rw [if_neg c] at h
      cases hv : ParseInt val 64 with
      | none => rw [hv] at h; exact Sum.noConfusion h
      | some v =>
        rw [hv] at h
        simp only [] at h
        by_cases c2 : v < minUDPPktSize ∨ v > maxUDPPktSize
        · rw [if_pos c2] at h; exact Sum.noConfusion h
        · rw [if_neg c2] at h
          have := Sum.inr.inj h
          subst this
          exact ⟨rfl, rfl, rfl, h1, h2, fun _ => not_not.1 c, h4⟩
  rw [if_neg k3] at h
  by_cases k4 : key = "intvis"
  · rw [if_pos k4] at h
    have := Sum.inr.inj h
    subst this
    exact ⟨rfl, rfl, rfl, h1, h2, h3, h4⟩
  rw [if_neg k4] at h
  by_cases k5 : key = "id"
  · rw [if_pos k5] at h
    have := Sum.inr.inj h
    subst this
    exact ⟨rfl, rfl, rfl, h1, h2, h3, h4⟩
  rw [if_neg k5] at h
  by_cases k6 : key = "pathprefix"
  · rw [if_pos k6] at h
    by_cases c : p.Proto ≠ "http"
    · rw [if_pos c] at h; exact Sum.noConfusion h
    · rw [if_neg c] at h
      have := Sum.inr.inj h
      subst this
      exact ⟨rfl, rfl, rfl, h1, h2, h3, fun _ => not_not.1 c⟩
  rw [if_neg k6] at h
  by_cases k7 : key = "svcname"
  · rw [if_pos k7] at h
    have := Sum.inr.inj h
    subst this
    exact ⟨rfl, rfl, rfl, h1, h2, h3, h4⟩
  rw [if_neg k7] at h
  exact Sum.noConfusion h

theorem applyAnnotations_inv (port : String) (l : List (String × String)) :
    ∀ (p q : PortSpec), applyAnnotations port l p = Sum.inr q → annotationsFit p →
      q.Proto = p.Proto ∧ q.Port = p.Port ∧ q.EndPort = p.EndPort ∧ annotationsFit q := by
  induction l with
  | nil =>
    intro p q h hp
    have := Sum.inr.inj h
    subst this
    exact ⟨rfl, rfl, rfl, hp⟩
  | cons x rest ih =>
    obtain ⟨key, val⟩ := x
    intro p q h hp
    unfold applyAnnotations at h
    cases ha : applyAnnotation port p key val with
    | inl err => rw [ha] at h; exact Sum.noConfusion h
    | inr p2 =>
      rw [ha] at h
      obtain ⟨a1, a2, a3, a4⟩ := applyAnnotation_inv port p p2 key val ha hp
      obtain ⟨b1, b2, b3, b4⟩ := ih p2 q h a4
      exact ⟨b1.trans a1, b2.trans a2, b3.trans a3, b4⟩

theorem parseRange_bounds (port : String) (b e : Int)
    (h : parseRange port = Sum.inr (b, e)) :
    1 ≤ b ∧ b ≤ 65535 ∧ (e = 0 ∨ (b < e ∧ e ≤ 65535)) := by
  unfold parseRange at h
  simp only [] at h
  cases h1 : ParseInt ((Split port (Char.ofNat 45)).headD "") 32 with
  | none => rw [h1] at h; exact Sum.noConfusion h
  | some bp =>
    rw [h1] at h
    simp only [] at h
    cases h2 : (if (Split port (Char.ofNat 45)).length = 2 then
        ParseInt ((Split port (Char.ofNat 45)).getD 1 "") 32 else some bp) with
    | none => rw [h2] at h; exact Sum.noConfusion h
    | some ep =>
      rw [h2] at h
      simp only [] at h
      by_cases c1 : (bp < 1 ∨ bp > 65535) ∨ (ep < 1 ∨ ep > 65535)
      · rw [if_pos c1] at h; exact Sum.noConfusion h
      · rw [if_neg c1] at h
        by_cases c2 : ep < bp
        · rw [if_pos c2] at h; exact Sum.noConfusion h
        · rw [if_neg c2] at h
          have hh := Sum.inr.inj h
          have hb : bp = b := congrArg Prod.fst hh
          have he : (if bp = ep then 0 else ep) = e := congrArg Prod.snd hh
          subst hb
          by_cases c3 : bp = ep
          · rw [if_pos c3] at he
            exact ⟨by omega, by omega, Or.inl he.symm⟩
          · rw [if_neg c3] at he
            subst he
            exact ⟨by omega, by omega, Or.inr ⟨by omega, by omega⟩⟩

theorem parseEntry_spec (pstr : String) (p : PortSpec) (tcp udp : Int)
    (h : parseEntry pstr = Sum.inr (p, tcp, udp)) :
    entryOf pstr p ∧ wellFormed p ∧
      (p.Proto = "tcp" → udp = 0 ∧ 1 ≤ tcp) ∧ (p.Proto ≠ "tcp" → tcp = 0 ∧ 1 ≤ udp) := by
  unfold parseEntry at h
  simp only [] at h
  by_cases c0 : (Split pstr (Char.ofNat 58)).length < 2
  · rw [if_pos c0] at h; exact Sum.noConfusion h
  rw [if_neg c0] at h
  cases ha : parseAnnotations ((Split pstr (Char.ofNat 58)).getD 1 "")
      ((Split pstr (Char.ofNat 58)).drop 2) [] with
  | inl err => rw [ha] at h; exact Sum.noConfusion h
  | inr annotations =>
    rw [ha] at h
    simp only [] at h
    cases hr : parseRange ((Split pstr (Char.ofNat 58)).getD 1 "") with
    | inl err => rw [hr] at h; exact Sum.noConfusion h
    | inr be =>
      obtain ⟨b, e⟩ := be
      rw [hr] at h
      simp only [] at h
      obtain ⟨hb1, hb2, he⟩ := parseRange_bounds _ b e hr
      by_cases cp : ToLower ((Split pstr (Char.ofNat 58)).headD "") ≠ "tcp" ∧
          ToLower ((Split pstr (Char.ofNat 58)).headD "") ≠ "udp" ∧
          ToLower ((Split pstr (Char.ofNat 58)).headD "") ≠ "http"
      · rw [if_pos cp] at h; exact Sum.noConfusion h
      rw [if_neg cp] at h
      cases hap : applyAnnotations ((Split pstr (Char.ofNat 58)).getD 1 "") annotations
          { Proto := ToLower ((Split pstr (Char.ofNat 58)).headD ""), Port := FormatInt b,
            EndPort := FormatInt e, Tls := false, Nginx := false, MaxPktSize := 0,
            InternalVisOnly := false, ID := "", PathPrefix := "", ServiceName := "" } with
      | inl err => rw [hap] at h; exact Sum.noConfusion h
      | inr q =>
        rw [hap] at h
        simp only [] at h
        have hh := Sum.inr.inj h
        have hq : q = p := congrArg Prod.fst hh
        have ht : (if ToLower ((Split pstr (Char.ofNat 58)).headD "") = "tcp" then
            (if e ≠ 0 then e - b + 1 else 1) else 0) = tcp := congrArg (fun x => x.2.1) hh
        have hu : (if ToLower ((Split pstr (Char.ofNat 58)).headD "") = "tcp" then 0
            else (if e ≠ 0 then e - b + 1 else 1)) = udp := congrArg (fun x => x.2.2) hh
        subst hq
        obtain ⟨q1, q2, q3, q4⟩ := applyAnnotations_inv _ annotations _ q hap
          ⟨fun hx => Bool.noConfusion hx, fun hx => Bool.noConfusion hx,
            fun hx => absurd rfl hx, fun hx => absurd rfl hx⟩
        simp only [] at q1 q2 q3
        have hcnt : (1 : Int) ≤ (if e ≠ 0 then e - b + 1 else 1) := by
          split_ifs <;> omega
        refine ⟨⟨q1, b, e, hr, q2, q3⟩, ⟨?_, ⟨b, hb1, hb2, q2, ?_⟩, q4⟩, ?_, ?_⟩
        · rw [q1]
          by_cases x1 : ToLower ((Split pstr (Char.ofNat 58)).headD "") = "tcp"
          · exact Or.inl x1
          · by_cases x2 : ToLower ((Split pstr (Char.ofNat 58)).headD "") = "udp"
            · exact Or.inr (Or.inl x2)
            · exact Or.inr (Or.inr (not_not.1 (fun x3 => cp ⟨x1, x2, x3⟩)))
        · rcases he with he | ⟨he1, he2⟩
          · left; rw [q3, he]; rfl
          · right; exact ⟨e, he1, he2, q3⟩
        · intro hpt
          rw [q1] at hpt
          rw [if_pos hpt] at ht hu
          exact ⟨hu.symm, ht ▸ hcnt⟩
        · intro hpt
          rw [q1] at hpt
          rw [if_neg hpt] at ht hu
          exact ⟨ht.symm, hu ▸ hcnt⟩

theorem parseLoop_spec (l : List String) :
    ∀ (ports0 : List PortSpec) (t0 u0 : Int) (ports : List PortSpec) (t u : Int),
      parseLoop l (ports0, t0, u0) = Sum.inr (ports, t, u) →
      ∃ new, ports = ports0 ++ new ∧ List.Forall₂ entryOf l new ∧ ∀ p ∈ new, wellFormed p := by
  induction l with
  | nil =>
    intro ports0 t0 u0 ports t u h
    have hh := Sum.inr.inj h
    have : ports0 = ports := congrArg Prod.fst hh
    exact ⟨[], by simp [this], List.Forall₂.nil, by simp⟩
  | cons pstr rest ih =>
    intro ports0 t0 u0 ports t u h
    unfold parseLoop at h
    cases he : parseEntry pstr with
    | inl err => rw [he] at h; exact Sum.noConfusion h
    | inr r =>
      obtain ⟨p, tcp, udp⟩ := r
      rw [he] at h
      simp only [] at h
      obtain ⟨new, hn, hf, hw⟩ := ih _ _ _ _ _ _ h
      obtain ⟨e1, e2, _⟩ := parseEntry_spec pstr p tcp udp he
      refine ⟨p :: new, by rw [hn]; simp, List.Forall₂.cons e1 hf, ?_⟩
      intro x hx
      rcases List.mem_cons.1 hx with hx | hx
      · subst hx; exact e2
      · exact hw x hx

end util

namespace util

open gostrings

/-- C27 (the code). On a udp port the annotation maxpktsize with the value `val`
is accepted exactly when `val` is the decimal form of an integer `v` with
1500 ≤ v ≤ 50000: the check rejects `v < 1500` and `v > 50000` only.  The
values 1500 and 50000 are accepted, 1499 and 50001 are rejected with the
message that calls the range exclusive. -/
theorem maxpktsize_bounds_inclusive :
    (∀ (port : String) (p : PortSpec) (val : String), p.Proto = "udp" →
        ((∃ q, applyAnnotation port p "maxpktsize" val = Sum.inr q) ↔
          ∃ v, ParseInt val 64 = some v ∧ 1500 ≤ v ∧ v ≤ 50000)) ∧
      ParsePorts "udp:5000:maxpktsize=1500"
        = Sum.inr [⟨"udp", "5000", "0", false, false, 1500, false, "", "", ""⟩] ∧
      ParsePorts "udp:5000:maxpktsize=50000"
        = Sum.inr [⟨"udp", "5000", "0", false, false, 50000, false, "", "", ""⟩] ∧
      ParsePorts "udp:5000:maxpktsize=1499"
        = Sum.inl "Invalid maxpktsize, should be between range 1500 to 50000 (exclusive)" ∧
      ParsePorts "udp:5000:maxpktsize=50001"
        = Sum.inl "Invalid maxpktsize, should be between range 1500 to 50000 (exclusive)" := by
  refine ⟨?_, by decide, by decide, by decide, by decide⟩
  intro port p val hp
  have hu : ¬ p.Proto ≠ "udp" := not_not.2 hp
  unfold applyAnnotation
  rw [if_neg (by decide), if_neg (by decide), if_pos rfl, if_neg hu]
  cases hv : ParseInt val 64 with
  | none => simp
  | some v =>
    simp only [Option.some.injEq, exists_eq_left']
    by_cases c : v < minUDPPktSize ∨ v > maxUDPPktSize
    · rw [if_pos c]
      simp only [reduceCtorEq, exists_false, false_iff, not_and, not_le]
      intro h1
      unfold minUDPPktSize maxUDPPktSize at c
      omega
    · rw [if_neg c]
      unfold minUDPPktSize maxUDPPktSize at c
      exact ⟨fun _ => ⟨by omega, by omega⟩, fun _ => ⟨_, rfl⟩⟩

/-- C28 (the code). `ParsePorts` counts every port that is not tcp as a udp
port: an http entry adds its ports to `udpPortCount`.  An http range of 10001
ports fails with "Not allowed to specify more than 10000 udp ports" without any
udp entry, and an http range of 1001 ports forces `Nginx` on a single udp
port. -/
theorem ParsePorts_http_counts_as_udp :
    (∀ (pstr : String) (p : PortSpec) (tcp udp : Int),
        parseEntry pstr = Sum.inr (p, tcp, udp) → p.Proto = "http" → tcp = 0 ∧ 1 ≤ udp) ∧
      ParsePorts "http:1-10001"
        = Sum.inl "Not allowed to specify more than 10000 udp ports" ∧
      ParsePorts "http:2000-3000,udp:53"
        = Sum.inr [⟨"http", "2000", "3000", false, false, 0, false, "", "", ""⟩,
            ⟨"udp", "53", "0", false, true, 0, false, "", "", ""⟩] ∧
      ParsePorts "udp:53"
        = Sum.inr [⟨"udp", "53", "0", false, false, 0, false, "", "", ""⟩] := by
  refine ⟨?_, by decide, by decide, by decide⟩
  intro pstr p tcp udp h hp
  have hne : p.Proto ≠ "tcp" := by
    rw [hp]
    decide
  exact (parseEntry_spec pstr p tcp udp h).2.2.2 hne

/-- C29. The output of `ParsePorts` is well formed.  When it succeeds, the
result has one port spec for each comma-separated entry, in the order of the
entries, with the protocol and the ports of its entry; and every port spec has
a protocol out of tcp, udp and http, `Port` the decimal form of an integer
from 1 to 65535, `EndPort` the text 0 or the decimal form of an integer above
`Port` and at most 65535, `Tls` only on tcp and http, `Nginx` and a non-zero
`MaxPktSize` only on udp, and a non-empty `PathPrefix` only on http. -/
theorem ParsePorts_well_formed (accessPorts : String) (ports : List PortSpec)
    (h : ParsePorts accessPorts = Sum.inr ports) :
    List.Forall₂ entryOf (Split accessPorts (Char.ofNat 44)) ports ∧
      ports.length = (Split accessPorts (Char.ofNat 44)).length ∧
      ∀ p ∈ ports, wellFormed p := by
  unfold ParsePorts at h
  cases hl : parseLoop (Split accessPorts (Char.ofNat 44)) ([], 0, 0) with
  | inl err => rw [hl] at h; exact Sum.noConfusion h
  | inr r =>
    obtain ⟨ps, t, u⟩ := r
    rw [hl] at h
    simp only [] at h
    obtain ⟨new, hn, hf, hw⟩ := parseLoop_spec _ _ _ _ _ _ _ hl
    rw [List.nil_append] at hn
    subst hn
    by_cases c1 : t > maxTcpPorts
    · rw [if_pos c1] at h; exact Sum.noConfusion h
    rw [if_neg c1] at h
    by_cases c2 : u > maxUdpPorts
    · rw [if_pos c2] at h; exact Sum.noConfusion h
    rw [if_neg c2] at h
    by_cases c3 : u > maxEnvoyUdpPorts
    · rw [if_pos c3] at h
      have hp := Sum.inr.inj h
      subst hp
      refine ⟨?_, ?_, ?_⟩
      · rw [List.forall₂_map_right_iff]
        refine List.Forall₂.imp ?_ hf
        intro pstr p hpe
        by_cases hu : p.Proto = "udp"
        · rw [if_pos hu]; exact hpe
        · rw [if_neg hu]; exact hpe
      · rw [List.length_map]
        exact hf.length_eq.symm
      · intro p hp
        obtain ⟨x, hx, hxp⟩ := List.mem_map.1 hp
        have hwx := hw x hx
        by_cases hu : x.Proto = "udp"
        · rw [if_pos hu] at hxp
          subst hxp
          obtain ⟨w1, w2, w3, w4, w5, w6⟩ := hwx
          exact ⟨w1, w2, w3, fun _ => hu, w5, w6⟩
        · rw [if_neg hu] at hxp
          subst hxp
          exact hwx
    · rw [if_neg c3] at h
      have hp := Sum.inr.inj h
      subst hp
      exact ⟨hf, hf.length_eq.symm, hw⟩

theorem ParsePorts_well_formed_witness :
    ParsePorts "tcp:5000-5000,udp:6000-6002:maxpktsize=1600,http:443:tls"
        = Sum.inr [⟨"tcp", "5000", "0", false, false, 0, false, "", "", ""⟩,
            ⟨"udp", "6000", "6002", false, false, 1600, false, "", "", ""⟩,
            ⟨"http", "443", "0", true, false, 0, false, "", "", ""⟩] ∧
      ∀ p ∈ [(⟨"tcp", "5000", "0", false, false, 0, false, "", "", ""⟩ : PortSpec),
            ⟨"udp", "6000", "6002", false, false, 1600, false, "", "", ""⟩,
            ⟨"http", "443", "0", true, false, 0, false, "", "", ""⟩], wellFormed p :=
  ⟨by decide,
    (ParsePorts_well_formed "tcp:5000-5000,udp:6000-6002:maxpktsize=1600,http:443:tls" _
      (by decide)).2.2⟩

end util

namespace waitfor

theorem handleTargetState_nil (g : Gen) (a : Args) (hsend : a.sendNil = true)
    (hnp : ¬ (g.tracked = true ∧ a.targetState = g.notPresent)) :
    handleTargetState g a = some [] := by
  unfold handleTargetState
  rw [if_neg hnp, hsend]
  simp

theorem advance_nil (a : Args) (hsend : a.sendNil = true) (st : Loop) (info : Info) :
    (advance a st info).sent = st.sent := by
  unfold advance
  rw [hsend]
  rfl

theorem loop_nil (g : Gen) (a : Args) (hsend : a.sendNil = true)
    (hnp : ¬ (g.tracked = true ∧ a.targetState = g.notPresent)) (events : List ChEvent) :
    ∀ st : Loop, st.sent = [] →
      (loop g a events st).1 = [] ∧ (loop g a events st).2 ≠ Outcome.nilSend := by
  induction events with
  | nil =>
    intro st hst
    exact ⟨hst, fun h => Outcome.noConfusion h⟩
  | cons e rest ih =>
    intro st hst
    cases e with
    | msg info =>
      rw [loop_msg]
      have hadv : (advance a st info).sent = [] := by rw [advance_nil a hsend, hst]
      by_cases he : info.State = a.errorState
      · rw [if_pos he]
        exact ⟨hadv, fun h => Outcome.noConfusion h⟩
      · rw [if_neg he]
        by_cases ht : info.State = a.targetState
        · rw [if_pos ht, handleTargetState_nil g a hsend hnp]
          exact ⟨by simp [hadv], fun h => Outcome.noConfusion h⟩
        · rw [if_neg ht]
          exact ih _ hadv
    | bad err => exact ⟨hst, fun h => Outcome.noConfusion h⟩
    | closed =>
      refine ⟨?_, fun h => Outcome.noConfusion h⟩
      simp only [loop, hsend, if_true, hst, List.append_nil]
    | ctxDone =>
      unfold loop
      split_ifs
      · refine ⟨?_, fun h => Outcome.noConfusion h⟩
        simp only [hsend, if_true, hst, List.append_nil]
      · exact ⟨hst, fun h => Outcome.noConfusion h⟩

/-- C30 (the code). With a nil `send`, `WaitFor` of the `TrackedState` variant
calls `send` when the target state is `NOT_PRESENT` and is reached: the call in
`handleTargetState` for this target has no `send != nil` test.  This happens at
entry, when the store holds no object, and in the loop, when a snapshot with
the state `NOT_PRESENT` arrives.  For every other target, and in the other
variant, a nil `send` is never called and nothing is sent. -/
theorem WaitFor_nil_send_called :
    WaitFor exGen { exArgs with sendNil := true, targetState := 1, stored := none } []
        = ([], Outcome.nilSend) ∧
      WaitFor exGen { exArgs with sendNil := true, targetState := 1, stored := some 5 }
          [ChEvent.msg ⟨1, ["Deleted"], []⟩]
        = ([], Outcome.nilSend) ∧
      (∀ (g : Gen) (a : Args) (events : List ChEvent), a.sendNil = true →
        ¬ (g.tracked = true ∧ a.targetState = g.notPresent) →
        (WaitFor g a events).1 = [] ∧ (WaitFor g a events).2 ≠ Outcome.nilSend) := by
  refine ⟨by decide, by decide, ?_⟩
  intro g a events hsend hnp
  unfold WaitFor
  by_cases h1 : initState g a = a.targetState
  · rw [if_pos h1, handleTargetState_nil g a hsend hnp]
    exact ⟨rfl, fun h => Outcome.noConfusion h⟩
  · rw [if_neg h1]
    by_cases h2 : a.chNil = true
    · rw [if_pos h2]
      exact ⟨rfl, fun h => Outcome.noConfusion h⟩
    · rw [if_neg h2]
      exact loop_nil g a hsend hnp events _ rfl

end waitfor
